import Mathlib

/-!
Verification of the limit order matching engines found in the repository.

The repository contains two C++ matching-engine implementations in one
source file: a class `OrderBook` (order kinds GoodTillCancel / FillAndKill,
cancellation and modification) and a reduced class `Orderbook` (no order
kinds, no cancellation).  Both are embedded below as pure functions over
explicit book states:

* `std::map<Price, OrderPointers, cmp>` ladders are association lists
  `List (Int × List Order)` kept in comparator order by `insertLevel`
  (the map's sorted insertion); `begin()` is the head of the list.
* `std::list<OrderPointer>` queues are `List Order`; the list iterator
  stored for an order identifies its unique node, so erasing through it is
  erase-by-id on the queue (identifiers in the book are unique because
  `AddOrder` rejects duplicates).
* the `std::unordered_map` order index stores, for each resting order,
  exactly the fields the code reads through the stored shared pointer; the
  one mutable field (the remaining quantity) lives in the ladder queue.
* the scalar aliases of the source are rendered as `Price = std::int32_t ↦
  Int`, `Quantity = std::uint32_t ↦ Nat`, `OrderId = std::uint64_t ↦ Nat`:
  prices are only ever compared, and the only quantity subtraction is
  guarded (`Order::Fill` throws before any underflow), so no
  `int32_t`/`uint32_t` wrap is reachable in the modelled operations.
-/

inductive OrderType where
  | GoodTillCancel
  | FillAndKill
deriving DecidableEq, Repr

inductive Side where
  | Buy
  | Sell
deriving DecidableEq, Repr

/-! Generic association-list model of `std::map<Price, std::list<α>, cmp>`,
shared by the two engines.  The list is kept in comparator order by
`insertLevel`; `begin()` is the head. -/

/-- `std::greater<Price>` — the bid ladder comparator. -/
def greaterCmp : Int → Int → Bool := fun x y => x > y

/-- `std::less<Price>` — the ask ladder comparator. -/
def lessCmp : Int → Int → Bool := fun x y => x < y

/-- The keys of an association-list map are strictly sorted by its
comparator — the `std::map` representation invariant. -/
def sortedKeys (cmp : Int → Int → Bool) (l : List (Int × List α)) : Prop :=
  (l.map Prod.fst).Pairwise (fun a b => cmp a b = true)

/-- `map::operator[]` followed by `push_back`: append the element at the
tail of the queue at key `p`, creating the level at its comparator position
when the key is absent.  `cmp p k = true` means `p` is ordered strictly
before the existing key `k` (`std::greater` for bids, `std::less` for
asks). -/
def insertLevel (cmp : Int → Int → Bool) (p : Int) (o : α) :
    List (Int × List α) → List (Int × List α)
  | [] => [(p, [o])]
  | (k, q) :: rest =>
    if p = k then (k, q ++ [o]) :: rest
    else if cmp p k then (p, [o]) :: (k, q) :: rest
    else (k, q) :: insertLevel cmp p o rest

/-- `map::erase(key)`. -/
def eraseLevel : List (Int × List α) → Int → List (Int × List α)
  | [], _ => []
  | (k, q) :: rest, p => if k = p then rest else (k, q) :: eraseLevel rest p

/-- `map::at(key)`; `none` models the `std::out_of_range` throw. -/
def queueAt? : List (Int × List α) → Int → Option (List α)
  | [], _ => none
  | (k, q) :: rest, p => if k = p then some q else queueAt? rest p

/-- The queue registered at a price (`[]` when the level is absent). -/
def queueAt (l : List (Int × List α)) (p : Int) : List α :=
  (queueAt? l p).getD []

/-- Write back a queue at its key (mutation through the reference obtained
from `at`/`operator[]`). -/
def setQueue : List (Int × List α) → Int → List α → List (Int × List α)
  | [], _, _ => []
  | (k, q) :: rest, p, q' => if k = p then (k, q') :: rest else (k, q) :: setQueue rest p q'

namespace OrderBook

/-- `class Order` of the `OrderBook` engine: the immutable identity of the
order plus its mutable remaining quantity. -/
structure Order where
  orderType : OrderType
  orderID : Nat
  side : Side
  price : Int
  initialQuantity : Nat
  remainingQuantity : Nat
deriving DecidableEq, Repr

/-- `Order::Fill`: throws `std::logic_error` (modelled by `none`) when asked
to fill more than the remaining quantity — the order is untouched in that
case because the throw happens before the subtraction — and otherwise
subtracts the filled quantity. -/
def Order.Fill (o : Order) (quantity : Nat) : Option Order :=
  if quantity > o.remainingQuantity then none
  else some { o with remainingQuantity := o.remainingQuantity - quantity }

/-- `struct TradeInfo`. -/
structure TradeInfo where
  orderID : Nat
  price : Int
  quantity : Nat
deriving DecidableEq, Repr

/-- `class Trade`: a bid side and an ask side. -/
structure Trade where
  bidTrade : TradeInfo
  askTrade : TradeInfo
deriving DecidableEq, Repr

/-- `class OrderModify`. -/
structure OrderModify where
  orderID : Nat
  side : Side
  price : Int
  newQuantity : Nat
deriving DecidableEq, Repr

/-- `OrderModify::ToOrderPointer`: build a fresh order with the given kind
and the stored id, side, price and quantity. -/
def OrderModify.ToOrderPointer (m : OrderModify) (type : OrderType) : Order :=
  ⟨type, m.orderID, m.side, m.price, m.newQuantity, m.newQuantity⟩

/-- One `OrderEntry` of the order index `orders_`.  The C++ entry holds a
shared pointer to the order and the iterator of its queue node; the fields
below are exactly the immutable data the code reads through that pointer
(`getOrderType`, `getSide`, `getPrice` and the id), and the iterator is
rendered by erase-by-id on the queue (book identifiers are unique). -/
structure OrderEntry where
  id : Nat
  type : OrderType
  side : Side
  price : Int
deriving DecidableEq, Repr

abbrev Ladder := List (Int × List Order)

/-- The state of `class OrderBook`: bid ladder (kept in descending key
order), ask ladder (ascending key order), and the order index. -/
structure Book where
  bids : Ladder
  asks : Ladder
  orders : List OrderEntry
deriving DecidableEq, Repr

def emptyBook : Book := ⟨[], [], []⟩

/-- Lookup in the `orders_` hash map. -/
def entryFor (l : List OrderEntry) (id : Nat) : Option OrderEntry :=
  l.find? (fun e => e.id == id)

/-- `orders_.contains(id)`. -/
def containsId (l : List OrderEntry) (id : Nat) : Bool :=
  (entryFor l id).isSome

/-- `orders_.erase(id)` on the hash map. -/
def eraseEntry : List OrderEntry → Nat → List OrderEntry
  | [], _ => []
  | e :: rest, id => if e.id == id then rest else e :: eraseEntry rest id

/-- Erasing a queue node through its stored list iterator: the iterator
identifies the unique node carrying this identifier. -/
def removeFirstId : List Order → Nat → List Order
  | [], _ => []
  | o :: rest, id => if o.orderID == id then rest else o :: removeFirstId rest id

/-- `OrderBook::CanMatch`. -/
def CanMatch (s : Book) (side : Side) (price : Int) : Bool :=
  match side with
  | .Buy =>
    match s.asks with
    | [] => false
    | (bestAsk, _) :: _ => price ≥ bestAsk
  | .Sell =>
    match s.bids with
    | [] => false
    | (bestBid, _) :: _ => price ≤ bestBid

/-- `OrderBook::CancelOrder`: no-op when the identifier is not indexed;
otherwise erase the index entry, erase the queue node through the stored
iterator, and drop the price level when its queue becomes empty.  (The
`at(price)` ladder lookup throws on a book whose index disagrees with its
ladders — a state the public operations never produce; that dead branch
keeps only the part of the state mutated before the throw.) -/
def CancelOrder (s : Book) (orderID : Nat) : Book :=
  match entryFor s.orders orderID with
  | none => s
  | some e =>
    let orders' := eraseEntry s.orders orderID
    match e.side with
    | .Sell =>
      match queueAt? s.asks e.price with
      | none => { s with orders := orders' }
      | some q =>
        let q' := removeFirstId q orderID
        let asks' := if q' = [] then eraseLevel s.asks e.price else setQueue s.asks e.price q'
        { s with asks := asks', orders := orders' }
    | .Buy =>
      match queueAt? s.bids e.price with
      | none => { s with orders := orders' }
      | some q =>
        let q' := removeFirstId q orderID
        let bids' := if q' = [] then eraseLevel s.bids e.price else setQueue s.bids e.price q'
        { s with bids := bids', orders := orders' }

/-- All resting orders of a ladder, best level first, queue order inside a
level. -/
def ladderOrders (l : Ladder) : List Order := (l.map Prod.snd).flatten

/-- All resting orders of the book. -/
def allOrders (s : Book) : List Order := ladderOrders s.bids ++ ladderOrders s.asks

/-- Strictly decreasing measure of the matching loop: total remaining
quantity plus number of resting orders. -/
def bookMeasure (s : Book) : Nat :=
  ((allOrders s).map Order.remainingQuantity).sum + (allOrders s).length

/-- The matching loops of `OrderBook::MatchOrders`, one fill per step.
Each step takes the oldest bid and the oldest ask at the best crossing
levels, fills both by the minimum of their remaining quantities (the
`Order::Fill` underflow guard cannot fire since the minimum never exceeds
either remaining quantity), pops an order whose remaining quantity reaches
zero from its queue and erases it from the index, erases a price level the
moment its queue empties — the C++ does this inside the inner loop — and
records the trade with each side's own order id and limit price.

Re-reading the best levels at every step realises the nested C++ loops:
the inner loop re-reads the same two queues until one of them empties,
whereupon the outer loop re-reads `begin()` of both maps; with levels
erased exactly when emptied, the two schedules visit identical orders.
The fuel merely bounds the number of steps; `MatchOrders` passes enough
fuel for every book whose registered levels are nonempty (on a corrupted
book with an empty registered best level the C++ loops forever; the model
stops instead). -/
def matchLoop : Nat → Book → List Trade → Book × List Trade
  | 0, s, ts => (s, ts)
  | fuel + 1, s, ts =>
    match s.bids, s.asks with
    | (bidPrice, bid :: bidsRest) :: bidLevels, (askPrice, ask :: asksRest) :: askLevels =>
      if bidPrice < askPrice then (s, ts)
      else
        let quantity := min bid.remainingQuantity ask.remainingQuantity
        let bid' := { bid with remainingQuantity := bid.remainingQuantity - quantity }
        let ask' := { ask with remainingQuantity := ask.remainingQuantity - quantity }
        let bids' := if bid'.remainingQuantity = 0 then
            (if bidsRest = [] then bidLevels else (bidPrice, bidsRest) :: bidLevels)
          else (bidPrice, bid' :: bidsRest) :: bidLevels
        let orders₁ := if bid'.remainingQuantity = 0 then eraseEntry s.orders bid.orderID
          else s.orders
        let asks' := if ask'.remainingQuantity = 0 then
            (if asksRest = [] then askLevels else (askPrice, asksRest) :: askLevels)
          else (askPrice, ask' :: asksRest) :: askLevels
        let orders₂ := if ask'.remainingQuantity = 0 then eraseEntry orders₁ ask.orderID
          else orders₁
        let t : Trade := ⟨⟨bid.orderID, bid.price, quantity⟩, ⟨ask.orderID, ask.price, quantity⟩⟩
        matchLoop fuel ⟨bids', asks', orders₂⟩ (ts ++ [t])
    | _, _ => (s, ts)

/-- `OrderBook::MatchOrders`: run the matching loops, then — only when the
bid ladder is nonempty — cancel the front order of the best bid level if it
is FillAndKill.  (The ask ladder is never inspected by this final check.)
The `(_, []) :: _` shape falls through: there the C++ would call `front()`
on an empty list, which no state produced by the public operations
reaches. -/
def MatchOrders (s : Book) : Book × List Trade :=
  let r := matchLoop (bookMeasure s + 1) s []
  match r.1.bids with
  | (_, bid :: _) :: _ =>
    if bid.orderType = OrderType.FillAndKill then (CancelOrder r.1 bid.orderID, r.2) else r
  | _ => r

/-- The insertion block of `OrderBook::AddOrder`: push the order at the
tail of its side's queue at its price (creating the level if absent) and
insert the index entry. -/
def InsertOrder (s : Book) (o : Order) : Book :=
  let entry : OrderEntry := ⟨o.orderID, o.orderType, o.side, o.price⟩
  match o.side with
  | .Buy => { s with bids := insertLevel greaterCmp o.price o s.bids,
                     orders := s.orders ++ [entry] }
  | .Sell => { s with asks := insertLevel lessCmp o.price o s.asks,
                      orders := s.orders ++ [entry] }

/-- `OrderBook::AddOrder`. -/
def AddOrder (s : Book) (o : Order) : Book × List Trade :=
  if containsId s.orders o.orderID then (s, [])
  else if o.orderType = OrderType.FillAndKill ∧ ¬ CanMatch s o.side o.price then (s, [])
  else MatchOrders (InsertOrder s o)

/-- `OrderBook::MatchOrder` — order modification: reject unknown ids, read
the original kind through the index entry, cancel, then re-add a fresh
order built by `ToOrderPointer`. -/
def MatchOrder (s : Book) (m : OrderModify) : Book × List Trade :=
  match entryFor s.orders m.orderID with
  | none => (s, [])
  | some e =>
    let s' := CancelOrder s m.orderID
    AddOrder s' (m.ToOrderPointer e.type)

/-- `OrderBook::Size`. -/
def Size (s : Book) : Nat := s.orders.length

/-- The statements executed by one iteration of the inner while-loop of
`OrderBook::MatchOrders`. -/
inductive MatchEvent where
  | fillBid (id : Nat) (quantity : Nat)
  | fillAsk (id : Nat) (quantity : Nat)
  | popBid (id : Nat)
  | eraseBidLevel (p : Int)
  | popAsk (id : Nat)
  | eraseAskLevel (p : Int)
  | emitTrade (bidId askId : Nat) (quantity : Nat)
deriving DecidableEq, Repr

/-- One iteration of the inner while-loop of `OrderBook::MatchOrders`
(entered when both ladders are nonempty, the best levels cross and both
best queues are nonempty), recording each executed statement in C++ order:
the two `Fill` calls; for a filled order the `pop_front`, the
`orders_.erase`, and — executed inside the loop body the moment the queue
under iteration empties — the `bids_.erase(bidPrice)` respectively
`asks_.erase(askPrice)`; and the final `trades.push_back`.  Returns `none`
when the inner loop is not entered. -/
def matchStepTr (s : Book) : Option (Book × List MatchEvent) :=
  match s.bids, s.asks with
  | (bidPrice, bid :: bidsRest) :: bidLevels, (askPrice, ask :: asksRest) :: askLevels =>
    if bidPrice < askPrice then none
    else
      let quantity := min bid.remainingQuantity ask.remainingQuantity
      let bid' := { bid with remainingQuantity := bid.remainingQuantity - quantity }
      let ask' := { ask with remainingQuantity := ask.remainingQuantity - quantity }
      let bidEvents := if bid'.remainingQuantity = 0 then
          [MatchEvent.popBid bid.orderID] ++
            (if bidsRest = [] then [MatchEvent.eraseBidLevel bidPrice] else [])
        else []
      let askEvents := if ask'.remainingQuantity = 0 then
          [MatchEvent.popAsk ask.orderID] ++
            (if asksRest = [] then [MatchEvent.eraseAskLevel askPrice] else [])
        else []
      let bids' := if bid'.remainingQuantity = 0 then
          (if bidsRest = [] then bidLevels else (bidPrice, bidsRest) :: bidLevels)
        else (bidPrice, bid' :: bidsRest) :: bidLevels
      let orders₁ := if bid'.remainingQuantity = 0 then eraseEntry s.orders bid.orderID
        else s.orders
      let asks' := if ask'.remainingQuantity = 0 then
          (if asksRest = [] then askLevels else (askPrice, asksRest) :: askLevels)
        else (askPrice, ask' :: asksRest) :: askLevels
      let orders₂ := if ask'.remainingQuantity = 0 then eraseEntry orders₁ ask.orderID
        else orders₁
      some (⟨bids', asks', orders₂⟩,
        [MatchEvent.fillBid bid.orderID quantity, MatchEvent.fillAsk ask.orderID quantity] ++
          bidEvents ++ askEvents ++
          [MatchEvent.emitTrade bid.orderID ask.orderID quantity])
  | _, _ => none

/-- The ladder holding orders of the given side. -/
def ladderOf (s : Book) : Side → Ladder
  | .Buy => s.bids
  | .Sell => s.asks

/-- The queue at a price on a side of the book. -/
def queueOn (s : Book) (side : Side) (p : Int) : List Order :=
  queueAt (ladderOf s side) p

/-- The identifiers of all resting orders. -/
def restingIds (s : Book) : List Nat := (allOrders s).map Order.orderID

/-- How many queue nodes across both ladders carry this identifier. -/
def occCount (s : Book) (id : Nat) : Nat := (restingIds s).count id

/-- Structural well-formedness of a book, preserved by every public
operation: ladder keys are unique, registered levels are nonempty and hold
exactly orders of their own side and price, resting identifiers and index
identifiers are unique, every index entry points at a resting order that
carries its immutable fields, every resting order is indexed, and remaining
quantities never exceed initial ones. -/
structure WF (s : Book) : Prop where
  bidKeysSorted : sortedKeys greaterCmp s.bids
  askKeysSorted : sortedKeys lessCmp s.asks
  bidLevelsOk : ∀ pq ∈ s.bids, pq.2 ≠ [] ∧ ∀ o ∈ pq.2, o.side = Side.Buy ∧ o.price = pq.1
  askLevelsOk : ∀ pq ∈ s.asks, pq.2 ≠ [] ∧ ∀ o ∈ pq.2, o.side = Side.Sell ∧ o.price = pq.1
  idsNodup : (restingIds s).Nodup
  entryIdsNodup : (s.orders.map OrderEntry.id).Nodup
  located : ∀ e ∈ s.orders, ∃ o ∈ queueOn s e.side e.price,
    o.orderID = e.id ∧ o.orderType = e.type ∧ o.side = e.side ∧ o.price = e.price
  indexed : ∀ o ∈ allOrders s, containsId s.orders o.orderID = true
  remLe : ∀ o ∈ allOrders s, o.remainingQuantity ≤ o.initialQuantity

/-- Every resting order still has some quantity left. -/
def PosRem (s : Book) : Prop := ∀ o ∈ allOrders s, 0 < o.remainingQuantity

/-- `new` is obtained from `old` by consuming it from the front: some
prefix has been removed entirely, the element now at the front may have
had its remaining quantity reduced in place, and every later element is
untouched. -/
def frontConsumed (old new : List Order) : Prop :=
  ∃ k, (old.drop k = [] ∧ new = []) ∨
    (∃ o rest q, old.drop k = o :: rest ∧ q ≤ o.remainingQuantity ∧
      new = { o with remainingQuantity := o.remainingQuantity - q } :: rest)

/-- The books reachable through the public operations, starting from the
empty book.  Submitted orders have `remaining = initial` (the constructor
sets both from the same argument); when `pos` is set, every submitted
order and every modification carries a positive quantity. -/
inductive Reachable (pos : Bool) : Book → Prop where
  | base : Reachable pos emptyBook
  | add (s : Book) (o : Order) (h : Reachable pos s)
      (hq : o.remainingQuantity = o.initialQuantity)
      (hpos : pos = true → 0 < o.initialQuantity) : Reachable pos (AddOrder s o).1
  | cancel (s : Book) (id : Nat) (h : Reachable pos s) : Reachable pos (CancelOrder s id)
  | modify (s : Book) (m : OrderModify) (h : Reachable pos s)
      (hpos : pos = true → 0 < m.newQuantity) : Reachable pos (MatchOrder s m).1

end OrderBook

namespace Orderbook

/-- `class Order` of the reduced `Orderbook` engine: a single mutable
quantity. -/
structure Order where
  id : Nat
  side : Side
  price : Int
  quantity : Nat
deriving DecidableEq, Repr

/-- `Order::Fill` of the reduced engine ("filling too much" throws). -/
def Order.Fill (o : Order) (filling : Nat) : Option Order :=
  if filling > o.quantity then none
  else some { o with quantity := o.quantity - filling }

/-- `struct TradeSide`. -/
structure TradeSide where
  orderId : Nat
  price : Int
  quantity : Nat
deriving DecidableEq, Repr

/-- `struct Trade`. -/
structure Trade where
  buySide : TradeSide
  sellSide : TradeSide
deriving DecidableEq, Repr

abbrev Ladder := List (Int × List Order)

/-- The state of `class Orderbook`.  Only the keys of `orders_hashmap`
matter to the modelled behaviour: its entries are read by no operation of
this engine (there is no cancellation), the map serves the duplicate-id
guard alone. -/
structure Book where
  bids : Ladder
  asks : Ladder
  ordersHashmap : List Nat
deriving DecidableEq, Repr

def emptyBook : Book := ⟨[], [], []⟩

/-- `orders_hashmap.erase(id)`. -/
def eraseId : List Nat → Nat → List Nat
  | [], _ => []
  | i :: rest, id => if i == id then rest else i :: eraseId rest id

/-- All resting orders of the book. -/
def allOrders (s : Book) : List Order :=
  (s.bids.map Prod.snd).flatten ++ (s.asks.map Prod.snd).flatten

/-- Decreasing measure of the matching loop of the reduced engine: total
remaining quantity, number of resting orders and number of levels. -/
def bookMeasure (s : Book) : Nat :=
  ((allOrders s).map Order.quantity).sum + (allOrders s).length
    + s.bids.length + s.asks.length

/-- The matching loops of `Orderbook::MatchOrders`, one fill per step.
Each step fills the oldest bid and ask of the best crossing levels by the
minimum of their quantities, records the trade (each side with its own
order id and limit price) before removing filled orders from queue and
hash map, and — as the bottom of the outer loop does once the inner loop
exits — erases a best level whose queue has emptied before re-reading
`begin()` of both maps.  Erasing an emptied level eagerly visits the same
orders as the nested loops, since the inner loop keeps re-reading the same
two queues until one empties. -/
def matchLoop : Nat → Book → List Trade → Book × List Trade
  | 0, s, ts => (s, ts)
  | fuel + 1, s, ts =>
    match s.bids, s.asks with
    | [], _ => (s, ts)
    | _ :: _, [] => (s, ts)
    | (bestBidPrice, bq) :: bidLevels, (bestAskPrice, aq) :: askLevels =>
      if bestBidPrice < bestAskPrice then (s, ts)
      else
        match bq, aq with
        | [], _ => matchLoop fuel ⟨bidLevels, (bestAskPrice, aq) :: askLevels, s.ordersHashmap⟩ ts
        | _ :: _, [] => matchLoop fuel ⟨(bestBidPrice, bq) :: bidLevels, askLevels, s.ordersHashmap⟩ ts
        | oldestBid :: bidsRest, oldestAsk :: asksRest =>
          let matchQty := min oldestBid.quantity oldestAsk.quantity
          let bid' := { oldestBid with quantity := oldestBid.quantity - matchQty }
          let ask' := { oldestAsk with quantity := oldestAsk.quantity - matchQty }
          let t : Trade := ⟨⟨oldestBid.id, oldestBid.price, matchQty⟩,
            ⟨oldestAsk.id, oldestAsk.price, matchQty⟩⟩
          let bids' := if bid'.quantity = 0 then
              (if bidsRest = [] then bidLevels else (bestBidPrice, bidsRest) :: bidLevels)
            else (bestBidPrice, bid' :: bidsRest) :: bidLevels
          let hm₁ := if bid'.quantity = 0 then eraseId s.ordersHashmap oldestBid.id
            else s.ordersHashmap
          let asks' := if ask'.quantity = 0 then
              (if asksRest = [] then askLevels else (bestAskPrice, asksRest) :: askLevels)
            else (bestAskPrice, ask' :: asksRest) :: askLevels
          let hm₂ := if ask'.quantity = 0 then eraseId hm₁ oldestAsk.id else hm₁
          matchLoop fuel ⟨bids', asks', hm₂⟩ (ts ++ [t])

/-- `Orderbook::MatchOrders`. -/
def MatchOrders (s : Book) : Book × List Trade :=
  matchLoop (bookMeasure s + 1) s []

/-- `Orderbook::AddOrder`: reject duplicate ids, insert at the tail of the
price level on the order's side, register the id, then match. -/
def AddOrder (s : Book) (newOrder : Order) : Book × List Trade :=
  if s.ordersHashmap.contains newOrder.id then (s, [])
  else
    let s' := match newOrder.side with
      | Side.Buy => { s with
          bids := insertLevel greaterCmp newOrder.price newOrder s.bids,
          ordersHashmap := s.ordersHashmap ++ [newOrder.id] }
      | Side.Sell => { s with
          asks := insertLevel lessCmp newOrder.price newOrder s.asks,
          ordersHashmap := s.ordersHashmap ++ [newOrder.id] }
    MatchOrders s'

/-- `Orderbook::Size`. -/
def Size (s : Book) : Nat := s.ordersHashmap.length

end Orderbook

namespace OrderBook

/-- The effect of one inner-loop fill of `MatchOrders` on the bid side:
reduce the remaining quantity of the oldest order at the best bid level by
`q`; when it reaches zero, pop the order, erase its index entry and erase
the level if its queue emptied.  `matchLoop` performs one bid-side and one
ask-side consumption per step (see `matchLoop_succ_cross`). -/
def consumeBidHead (s : Book) (q : Nat) : Book :=
  match s.bids with
  | (p, bid :: rest) :: levels =>
    if bid.remainingQuantity - q = 0 then
      ⟨if rest = [] then levels else (p, rest) :: levels, s.asks, eraseEntry s.orders bid.orderID⟩
    else ⟨(p, { bid with remainingQuantity := bid.remainingQuantity - q } :: rest) :: levels,
      s.asks, s.orders⟩
  | _ => s

/-- Ask-side analogue of `consumeBidHead`. -/
def consumeAskHead (s : Book) (q : Nat) : Book :=
  match s.asks with
  | (p, ask :: rest) :: levels =>
    if ask.remainingQuantity - q = 0 then
      ⟨s.bids, if rest = [] then levels else (p, rest) :: levels, eraseEntry s.orders ask.orderID⟩
    else ⟨s.bids, (p, { ask with remainingQuantity := ask.remainingQuantity - q } :: rest) :: levels,
      s.orders⟩
  | _ => s

end OrderBook


/-! ### Lemmas about the association-list map operations -/

theorem queueAt_nil {α : Type} (p : Int) : queueAt ([] : List (Int × List α)) p = [] := rfl

theorem queueAt_cons {α : Type} (k : Int) (q : List α) (rest : List (Int × List α))
    (p : Int) : queueAt ((k, q) :: rest) p = if k = p then q else queueAt rest p := by
  simp only [queueAt, queueAt?]
  split <;> rfl

theorem queueAt_cons_self {α : Type} (k : Int) (q : List α) (rest : List (Int × List α)) :
    queueAt ((k, q) :: rest) k = q := by
  simp [queueAt_cons]

theorem queueAt_cons_ne {α : Type} (k : Int) (q : List α) (rest : List (Int × List α))
    (p : Int) (h : k ≠ p) : queueAt ((k, q) :: rest) p = queueAt rest p := by
  simp [queueAt_cons, h]

theorem queueAt_not_mem_keys {α : Type} (l : List (Int × List α)) (p : Int)
    (h : p ∉ l.map Prod.fst) : queueAt l p = [] := by
  induction l with
  | nil => rfl
  | cons kv rest ih =>
    obtain ⟨k, q⟩ := kv
    simp only [List.map_cons, List.mem_cons] at h
    push_neg at h
    rw [queueAt_cons, if_neg (by exact fun hk => h.1 hk.symm), ih h.2]

theorem queueAt_setQueue_self {α : Type} (l : List (Int × List α)) (p : Int) (q' : List α)
    (h : p ∈ l.map Prod.fst) : queueAt (setQueue l p q') p = q' := by
  induction l with
  | nil => simp at h
  | cons kv rest ih =>
    obtain ⟨k, q⟩ := kv
    simp only [List.map_cons, List.mem_cons] at h
    by_cases hk : k = p
    · subst hk
      simp [setQueue, queueAt_cons_self]
    · rw [setQueue, if_neg hk, queueAt_cons_ne _ _ _ _ hk]
      exact ih (h.resolve_left (fun hp => hk hp.symm))

theorem queueAt_setQueue_ne {α : Type} (l : List (Int × List α)) (p p' : Int) (q' : List α)
    (h : p' ≠ p) : queueAt (setQueue l p q') p' = queueAt l p' := by
  induction l with
  | nil => rfl
  | cons kv rest ih =>
    obtain ⟨k, q⟩ := kv
    by_cases hk : k = p
    · subst hk
      rw [setQueue, if_pos rfl, queueAt_cons_ne _ _ _ _ (fun hkp => h hkp.symm),
        queueAt_cons_ne _ _ _ _ (fun hkp => h hkp.symm)]
    · rw [setQueue, if_neg hk]
      by_cases hk' : k = p'
      · subst hk'
        rw [queueAt_cons_self, queueAt_cons_self]
      · rw [queueAt_cons_ne _ _ _ _ hk', queueAt_cons_ne _ _ _ _ hk', ih]

theorem keys_setQueue {α : Type} (l : List (Int × List α)) (p : Int) (q' : List α) :
    (setQueue l p q').map Prod.fst = l.map Prod.fst := by
  induction l with
  | nil => rfl
  | cons kv rest ih =>
    obtain ⟨k, q⟩ := kv
    rw [setQueue]
    split
    · simp
    · simp [ih]

theorem mem_setQueue {α : Type} (l : List (Int × List α)) (p : Int) (q' : List α)
    (pq : Int × List α) (h : pq ∈ setQueue l p q') : pq = (p, q') ∨ pq ∈ l := by
  induction l with
  | nil => simp [setQueue] at h
  | cons kv rest ih =>
    obtain ⟨k, q⟩ := kv
    rw [setQueue] at h
    split at h
    · rename_i hkp
      rcases List.mem_cons.1 h with h | h
      · exact Or.inl (by rw [h, hkp])
      · exact Or.inr (List.mem_cons_of_mem _ h)
    · rcases List.mem_cons.1 h with h | h
      · exact Or.inr (h ▸ List.mem_cons_self _ _)
      · rcases ih h with h | h
        · exact Or.inl h
        · exact Or.inr (List.mem_cons_of_mem _ h)

theorem queueAt_eraseLevel_ne {α : Type} (l : List (Int × List α)) (p p' : Int)
    (h : p' ≠ p) : queueAt (eraseLevel l p) p' = queueAt l p' := by
  induction l with
  | nil => rfl
  | cons kv rest ih =>
    obtain ⟨k, q⟩ := kv
    by_cases hk : k = p
    · subst hk
      rw [eraseLevel, if_pos rfl, queueAt_cons_ne _ _ _ _ (fun hkp => h hkp.symm)]
    · rw [eraseLevel, if_neg hk]
      by_cases hk' : k = p'
      · subst hk'
        rw [queueAt_cons_self, queueAt_cons_self]
      · rw [queueAt_cons_ne _ _ _ _ hk', queueAt_cons_ne _ _ _ _ hk', ih]

theorem keys_eraseLevel_sublist {α : Type} (l : List (Int × List α)) (p : Int) :
    List.Sublist ((eraseLevel l p).map Prod.fst) (l.map Prod.fst) := by
  induction l with
  | nil => simp [eraseLevel]
  | cons kv rest ih =>
    obtain ⟨k, q⟩ := kv
    rw [eraseLevel]
    split
    · simp
    · simpa using ih.cons₂ k

theorem mem_eraseLevel {α : Type} (l : List (Int × List α)) (p : Int)
    (pq : Int × List α) (h : pq ∈ eraseLevel l p) : pq ∈ l := by
  induction l with
  | nil => simp [eraseLevel] at h
  | cons kv rest ih =>
    obtain ⟨k, q⟩ := kv
    rw [eraseLevel] at h
    split at h
    · exact List.mem_cons_of_mem _ h
    · rcases List.mem_cons.1 h with h | h
      · exact h ▸ List.mem_cons_self _ _
      · exact List.mem_cons_of_mem _ (ih h)

theorem queueAt_eraseLevel_self {α : Type} (l : List (Int × List α)) (p : Int)
    (h : (l.map Prod.fst).Nodup) : queueAt (eraseLevel l p) p = [] := by
  induction l with
  | nil => rfl
  | cons kv rest ih =>
    obtain ⟨k, q⟩ := kv
    simp only [List.map_cons, List.nodup_cons] at h
    by_cases hk : k = p
    · subst hk
      rw [eraseLevel, if_pos rfl]
      exact queueAt_not_mem_keys _ _ h.1
    · rw [eraseLevel, if_neg hk, queueAt_cons_ne _ _ _ _ hk]
      exact ih h.2

theorem keys_insertLevel_subset {α : Type} (cmp : Int → Int → Bool) (p : Int) (o : α)
    (l : List (Int × List α)) (k' : Int)
    (h : k' ∈ (insertLevel cmp p o l).map Prod.fst) : k' = p ∨ k' ∈ l.map Prod.fst := by
  induction l with
  | nil =>
    simp only [insertLevel, List.map_cons, List.map_nil, List.mem_singleton] at h
    exact Or.inl h
  | cons kv rest ih =>
    obtain ⟨k, q⟩ := kv
    rw [insertLevel] at h
    split at h
    · simp only [List.map_cons, List.mem_cons] at h ⊢
      exact Or.inr h
    · split at h
      · simp only [List.map_cons, List.mem_cons] at h ⊢
        rcases h with h | h
        · exact Or.inl h
        · exact Or.inr h
      · simp only [List.map_cons, List.mem_cons] at h ⊢
        rcases h with h | h
        · exact Or.inr (Or.inl h)
        · rcases ih h with h | h
          · exact Or.inl h
          · exact Or.inr (Or.inr h)

theorem sortedKeys_nil {α : Type} (cmp : Int → Int → Bool) :
    sortedKeys cmp ([] : List (Int × List α)) := by
  simp [sortedKeys]

theorem sortedKeys_cons_iff {α : Type} (cmp : Int → Int → Bool) (k : Int) (q : List α)
    (rest : List (Int × List α)) :
    sortedKeys cmp ((k, q) :: rest) ↔
      (∀ k' ∈ rest.map Prod.fst, cmp k k' = true) ∧ sortedKeys cmp rest := by
  simp [sortedKeys, List.pairwise_cons]

theorem sortedKeys_replace_head {α : Type} (cmp : Int → Int → Bool) (k : Int)
    (q q' : List α) (rest : List (Int × List α)) (h : sortedKeys cmp ((k, q) :: rest)) :
    sortedKeys cmp ((k, q') :: rest) := by
  rw [sortedKeys_cons_iff] at h ⊢
  exact h

theorem sortedKeys_nodup {α : Type} (cmp : Int → Int → Bool)
    (hirr : ∀ a, cmp a a = false) (l : List (Int × List α))
    (h : sortedKeys cmp l) : (l.map Prod.fst).Nodup := by
  refine h.imp ?_
  intro a b hab
  intro hEq
  rw [hEq, hirr] at hab
  exact Bool.false_ne_true hab

theorem sortedKeys_eraseLevel {α : Type} (cmp : Int → Int → Bool)
    (l : List (Int × List α)) (p : Int) (h : sortedKeys cmp l) :
    sortedKeys cmp (eraseLevel l p) := by
  exact List.Pairwise.sublist (keys_eraseLevel_sublist l p) h

theorem sortedKeys_setQueue {α : Type} (cmp : Int → Int → Bool)
    (l : List (Int × List α)) (p : Int) (q' : List α) (h : sortedKeys cmp l) :
    sortedKeys cmp (setQueue l p q') := by
  unfold sortedKeys
  rw [keys_setQueue]
  exact h

theorem sortedKeys_insertLevel {α : Type} (cmp : Int → Int → Bool)
    (htotal : ∀ a b : Int, a ≠ b → cmp a b = true ∨ cmp b a = true)
    (htrans : ∀ a b c : Int, cmp a b = true → cmp b c = true → cmp a c = true)
    (p : Int) (o : α) (l : List (Int × List α)) (h : sortedKeys cmp l) :
    sortedKeys cmp (insertLevel cmp p o l) := by
  induction l with
  | nil => simp [insertLevel, sortedKeys]
  | cons kv rest ih =>
    obtain ⟨k, q⟩ := kv
    rw [sortedKeys_cons_iff] at h
    rw [insertLevel]
    split
    · rw [sortedKeys_cons_iff]
      exact h
    · split
      · rename_i hne hcmp
        rw [sortedKeys_cons_iff]
        constructor
        · intro k' hk'
          simp only [List.map_cons, List.mem_cons] at hk'
          rcases hk' with h' | h'
          · rw [h']
            exact hcmp
          · exact htrans p k k' hcmp (h.1 k' h')
        · rw [sortedKeys_cons_iff]
          exact h
      · rename_i hne hcmp
        rw [sortedKeys_cons_iff]
        constructor
        · intro k' hk'
          rcases keys_insertLevel_subset cmp p o rest k' hk' with h' | h'
          · rcases htotal p k hne with h'' | h''
            · exact absurd h'' hcmp
            · rw [h']
              exact h''
          · exact h.1 k' h'
        · exact ih h.2

theorem queueAt_insertLevel_self {α : Type} (cmp : Int → Int → Bool)
    (hasym : ∀ a b : Int, cmp a b = true → cmp b a = false)
    (p : Int) (o : α) (l : List (Int × List α)) (hs : sortedKeys cmp l) :
    queueAt (insertLevel cmp p o l) p = queueAt l p ++ [o] := by
  induction l with
  | nil => simp [insertLevel, queueAt_cons_self, queueAt_nil]
  | cons kv rest ih =>
    obtain ⟨k, q⟩ := kv
    rw [sortedKeys_cons_iff] at hs
    by_cases hk : p = k
    · subst hk
      rw [insertLevel, if_pos rfl, queueAt_cons_self, queueAt_cons_self]
    · rw [insertLevel, if_neg hk]
      split
      · rename_i hcmp
        rw [queueAt_cons_self, queueAt_cons_ne _ _ _ _ (fun h => hk h.symm)]
        have hnot : p ∉ rest.map Prod.fst := by
          intro hmem
          have := hs.1 p hmem
          rw [hasym k p this] at hcmp
          exact Bool.false_ne_true hcmp
        rw [queueAt_not_mem_keys rest p hnot]
        rfl
      · rw [queueAt_cons_ne _ _ _ _ (fun h => hk h.symm),
          queueAt_cons_ne _ _ _ _ (fun h => hk h.symm), ih hs.2]

theorem queueAt_insertLevel_ne {α : Type} (cmp : Int → Int → Bool) (p p' : Int) (o : α)
    (l : List (Int × List α)) (h : p' ≠ p) :
    queueAt (insertLevel cmp p o l) p' = queueAt l p' := by
  induction l with
  | nil => simp [insertLevel, queueAt_cons_ne _ _ _ _ (fun hk => h hk.symm), queueAt_nil]
  | cons kv rest ih =>
    obtain ⟨k, q⟩ := kv
    by_cases hk : p = k
    · subst hk
      rw [insertLevel, if_pos rfl, queueAt_cons_ne _ _ _ _ (fun hk => h hk.symm),
        queueAt_cons_ne _ _ _ _ (fun hk => h hk.symm)]
    · rw [insertLevel, if_neg hk]
      split
      · rw [queueAt_cons_ne _ _ _ _ (fun hk => h hk.symm)]
      · by_cases hk' : k = p'
        · subst hk'
          rw [queueAt_cons_self, queueAt_cons_self]
        · rw [queueAt_cons_ne _ _ _ _ hk', queueAt_cons_ne _ _ _ _ hk', ih]

theorem greaterCmp_irrefl (a : Int) : greaterCmp a a = false := by
  simp [greaterCmp]

theorem greaterCmp_asym (a b : Int) (h : greaterCmp a b = true) : greaterCmp b a = false := by
  simp only [greaterCmp, decide_eq_true_eq] at h
  simp only [greaterCmp, decide_eq_false_iff_not]
  exact not_lt.2 (le_of_lt h)

theorem greaterCmp_total (a b : Int) (h : a ≠ b) :
    greaterCmp a b = true ∨ greaterCmp b a = true := by
  simp only [greaterCmp, decide_eq_true_eq]
  rcases lt_or_gt_of_ne h with h' | h'
  · exact Or.inr h'
  · exact Or.inl h'

theorem greaterCmp_trans (a b c : Int) (h₁ : greaterCmp a b = true)
    (h₂ : greaterCmp b c = true) : greaterCmp a c = true := by
  simp only [greaterCmp, decide_eq_true_eq] at h₁ h₂ ⊢
  exact gt_trans h₁ h₂

theorem lessCmp_irrefl (a : Int) : lessCmp a a = false := by
  simp [lessCmp]

theorem lessCmp_asym (a b : Int) (h : lessCmp a b = true) : lessCmp b a = false := by
  simp only [lessCmp, decide_eq_true_eq] at h
  simp only [lessCmp, decide_eq_false_iff_not]
  exact not_lt.2 (le_of_lt h)

theorem lessCmp_total (a b : Int) (h : a ≠ b) : lessCmp a b = true ∨ lessCmp b a = true := by
  simp only [lessCmp, decide_eq_true_eq]
  rcases lt_or_gt_of_ne h with h' | h'
  · exact Or.inl h'
  · exact Or.inr h'

theorem lessCmp_trans (a b c : Int) (h₁ : lessCmp a b = true) (h₂ : lessCmp b c = true) :
    lessCmp a c = true := by
  simp only [lessCmp, decide_eq_true_eq] at h₁ h₂ ⊢
  exact lt_trans h₁ h₂

theorem mem_insertLevel {α : Type} (cmp : Int → Int → Bool) (p : Int) (o : α)
    (l : List (Int × List α)) (pq : Int × List α) (h : pq ∈ insertLevel cmp p o l) :
    (∃ q, (p, q) ∈ l ∧ pq = (p, q ++ [o])) ∨ pq = (p, [o]) ∨ pq ∈ l := by
  induction l with
  | nil =>
    simp [insertLevel] at h
    exact Or.inr (Or.inl h)
  | cons kv rest ih =>
    obtain ⟨k, q⟩ := kv
    rw [insertLevel] at h
    split at h
    · rename_i hk
      subst hk
      rcases List.mem_cons.1 h with h | h
      · exact Or.inl ⟨q, List.mem_cons_self _ _, h⟩
      · exact Or.inr (Or.inr (List.mem_cons_of_mem _ h))
    · split at h
      · rcases List.mem_cons.1 h with h | h
        · exact Or.inr (Or.inl h)
        · exact Or.inr (Or.inr h)
      · rcases List.mem_cons.1 h with h | h
        · exact Or.inr (Or.inr (h ▸ List.mem_cons_self _ _))
        · rcases ih h with h | h | h
          · obtain ⟨q', hq', hpq⟩ := h
            exact Or.inl ⟨q', List.mem_cons_of_mem _ hq', hpq⟩
          · exact Or.inr (Or.inl h)
          · exact Or.inr (Or.inr (List.mem_cons_of_mem _ h))

/-! ### Lemmas about the order index and the order queues -/

namespace OrderBook

theorem entryFor_nil (id : Nat) : entryFor [] id = none := rfl

theorem entryFor_cons (e : OrderEntry) (rest : List OrderEntry) (id : Nat) :
    entryFor (e :: rest) id = if e.id = id then some e else entryFor rest id := by
  by_cases h : e.id = id
  · rw [if_pos h]
    exact List.find?_cons_of_pos _ (by simp [h])
  · rw [if_neg h]
    exact List.find?_cons_of_neg _ (by simp [h])

theorem entryFor_isSome_of_mem (l : List OrderEntry) (e : OrderEntry) (he : e ∈ l)
    (id : Nat) (hid : e.id = id) : containsId l id = true := by
  induction l with
  | nil => simp at he
  | cons f rest ih =>
    rcases List.mem_cons.1 he with h | h
    · subst h
      simp [containsId, entryFor_cons, hid]
    · by_cases hf : f.id = id
      · simp [containsId, entryFor_cons, hf]
      · simpa [containsId, entryFor_cons, hf] using ih h

theorem entryFor_eq_some_elim (l : List OrderEntry) (id : Nat) (e : OrderEntry)
    (h : entryFor l id = some e) : e ∈ l ∧ e.id = id := by
  refine ⟨List.mem_of_find?_eq_some h, ?_⟩
  have := List.find?_some h
  simpa using this

theorem entryFor_eq_none_iff (l : List OrderEntry) (id : Nat) :
    entryFor l id = none ↔ ∀ e ∈ l, e.id ≠ id := by
  unfold entryFor
  rw [List.find?_eq_none]
  constructor
  · intro h e he
    have := h e he
    simpa using this
  · intro h e he
    simpa using h e he

theorem containsId_false_iff (l : List OrderEntry) (id : Nat) :
    containsId l id = false ↔ ∀ e ∈ l, e.id ≠ id := by
  rw [← entryFor_eq_none_iff]
  unfold containsId
  cases entryFor l id <;> simp

theorem containsId_append_singleton (l : List OrderEntry) (e : OrderEntry) (id : Nat) :
    containsId (l ++ [e]) id = (containsId l id || (e.id == id)) := by
  unfold containsId entryFor
  rw [List.find?_append]
  cases hfind : l.find? (fun f => f.id == id) with
  | none =>
    rw [Option.none_or]
    by_cases h : e.id = id
    · rw [List.find?_cons_of_pos _ (by simp [h])]
      simp [h]
    · rw [List.find?_cons_of_neg _ (by simp [h])]
      simp [h]
  | some f => simp

theorem entryFor_append_singleton_of_contained (l : List OrderEntry) (e : OrderEntry)
    (id : Nat) (h : containsId l id = true) : entryFor (l ++ [e]) id = entryFor l id := by
  unfold containsId at h
  unfold entryFor at h ⊢
  rw [List.find?_append]
  cases hfind : l.find? (fun f => f.id == id) with
  | none => rw [hfind] at h; simp at h
  | some f => simp

theorem eraseEntry_sublist (l : List OrderEntry) (id : Nat) :
    List.Sublist (eraseEntry l id) l := by
  induction l with
  | nil => simp [eraseEntry]
  | cons e rest ih =>
    rw [eraseEntry]
    split
    · exact List.sublist_cons_self _ _
    · exact ih.cons₂ e

theorem mem_eraseEntry_of_ne (l : List OrderEntry) (id : Nat) (e : OrderEntry)
    (he : e ∈ l) (hne : e.id ≠ id) : e ∈ eraseEntry l id := by
  induction l with
  | nil => simp at he
  | cons f rest ih =>
    rw [eraseEntry]
    rcases List.mem_cons.1 he with h | h
    · subst h
      rw [if_neg (by simpa using hne)]
      exact List.mem_cons_self _ _
    · split
      · exact h
      · exact List.mem_cons_of_mem _ (ih h)

theorem mem_eraseEntry_ne (l : List OrderEntry) (id : Nat)
    (hnd : (l.map OrderEntry.id).Nodup) (e : OrderEntry) (he : e ∈ eraseEntry l id) :
    e.id ≠ id := by
  induction l with
  | nil => simp [eraseEntry] at he
  | cons f rest ih =>
    simp only [List.map_cons, List.nodup_cons] at hnd
    rw [eraseEntry] at he
    split at he
    · rename_i hf
      intro hid
      apply hnd.1
      have : e.id ∈ (rest.map OrderEntry.id) := List.mem_map_of_mem _ he
      rw [hid, ← (by simpa using hf : f.id = id)] at this
      exact this
    · rcases List.mem_cons.1 he with h | h
      · rename_i hf
        subst h
        simpa using hf
      · exact ih hnd.2 h

theorem entryFor_eraseEntry_ne (l : List OrderEntry) (id i : Nat) (h : i ≠ id) :
    entryFor (eraseEntry l id) i = entryFor l i := by
  induction l with
  | nil => rfl
  | cons f rest ih =>
    rw [eraseEntry]
    split
    · rename_i hf
      rw [entryFor_cons, if_neg ?_]
      intro hfi
      exact h (by rw [← hfi]; simpa using hf)
    · rw [entryFor_cons, entryFor_cons]
      split
      · rfl
      · exact ih

theorem entryFor_eraseEntry_self (l : List OrderEntry) (id : Nat)
    (hnd : (l.map OrderEntry.id).Nodup) : entryFor (eraseEntry l id) id = none := by
  rw [entryFor_eq_none_iff]
  intro e he
  exact mem_eraseEntry_ne l id hnd e he

theorem keys_eraseEntry_sublist (l : List OrderEntry) (id : Nat) :
    List.Sublist ((eraseEntry l id).map OrderEntry.id) (l.map OrderEntry.id) :=
  (eraseEntry_sublist l id).map _

theorem removeFirstId_sublist (q : List Order) (id : Nat) :
    List.Sublist (removeFirstId q id) q := by
  induction q with
  | nil => simp [removeFirstId]
  | cons o rest ih =>
    rw [removeFirstId]
    split
    · exact List.sublist_cons_self _ _
    · exact ih.cons₂ o

theorem removeFirstId_cons_self (o : Order) (rest : List Order) :
    removeFirstId (o :: rest) o.orderID = rest := by
  rw [removeFirstId, if_pos (by simp)]

theorem mem_removeFirstId_of_ne (q : List Order) (id : Nat) (o : Order)
    (ho : o ∈ q) (hne : o.orderID ≠ id) : o ∈ removeFirstId q id := by
  induction q with
  | nil => simp at ho
  | cons f rest ih =>
    rw [removeFirstId]
    rcases List.mem_cons.1 ho with h | h
    · subst h
      rw [if_neg (by simpa using hne)]
      exact List.mem_cons_self _ _
    · split
      · exact h
      · exact List.mem_cons_of_mem _ (ih h)

theorem mem_removeFirstId_ne (q : List Order) (id : Nat)
    (hnd : (q.map Order.orderID).Nodup) (o : Order) (ho : o ∈ removeFirstId q id) :
    o.orderID ≠ id := by
  induction q with
  | nil => simp [removeFirstId] at ho
  | cons f rest ih =>
    simp only [List.map_cons, List.nodup_cons] at hnd
    rw [removeFirstId] at ho
    split at ho
    · rename_i hf
      intro hid
      apply hnd.1
      have : o.orderID ∈ (rest.map Order.orderID) := List.mem_map_of_mem _ ho
      rw [hid, ← (by simpa using hf : f.orderID = id)] at this
      exact this
    · rcases List.mem_cons.1 ho with h | h
      · rename_i hf
        subst h
        simpa using hf
      · exact ih hnd.2 h

theorem ladderOrders_nil : ladderOrders [] = [] := rfl

theorem ladderOrders_cons (p : Int) (q : List Order) (rest : Ladder) :
    ladderOrders ((p, q) :: rest) = q ++ ladderOrders rest := by
  simp [ladderOrders]

theorem mem_of_mem_queueAt (l : Ladder) (p : Int) (o : Order) (h : o ∈ queueAt l p) :
    o ∈ ladderOrders l := by
  induction l with
  | nil => simp [queueAt_nil] at h
  | cons kv rest ih =>
    obtain ⟨k, q⟩ := kv
    rw [ladderOrders_cons]
    by_cases hk : k = p
    · subst hk
      rw [queueAt_cons_self] at h
      exact List.mem_append_left _ h
    · rw [queueAt_cons_ne _ _ _ _ hk] at h
      exact List.mem_append_right _ (ih h)

theorem ladderOrders_setQueue_sublist (l : Ladder) (p : Int) (q' : List Order)
    (h : List.Sublist q' (queueAt l p)) :
    List.Sublist (ladderOrders (setQueue l p q')) (ladderOrders l) := by
  induction l with
  | nil => simp [setQueue, ladderOrders]
  | cons kv rest ih =>
    obtain ⟨k, q⟩ := kv
    rw [setQueue]
    split
    · rename_i hk
      subst hk
      rw [ladderOrders_cons, ladderOrders_cons]
      rw [queueAt_cons_self] at h
      exact h.append (List.Sublist.refl _)
    · rename_i hk
      rw [ladderOrders_cons, ladderOrders_cons]
      rw [queueAt_cons_ne _ _ _ _ hk] at h
      exact (List.Sublist.refl q).append (ih h)

theorem ladderOrders_eraseLevel_sublist (l : Ladder) (p : Int) :
    List.Sublist (ladderOrders (eraseLevel l p)) (ladderOrders l) := by
  induction l with
  | nil => simp [eraseLevel, ladderOrders]
  | cons kv rest ih =>
    obtain ⟨k, q⟩ := kv
    rw [eraseLevel]
    split
    · rw [ladderOrders_cons]
      exact (List.sublist_append_right q _).trans (List.Sublist.refl _)
    · rw [ladderOrders_cons, ladderOrders_cons]
      exact (List.Sublist.refl q).append ih

end OrderBook

namespace OrderBook

theorem queueOn_buy (s : Book) (p : Int) : queueOn s Side.Buy p = queueAt s.bids p := rfl

theorem queueOn_sell (s : Book) (p : Int) : queueOn s Side.Sell p = queueAt s.asks p := rfl

theorem mem_allOrders_iff (s : Book) (o : Order) :
    o ∈ allOrders s ↔ o ∈ ladderOrders s.bids ∨ o ∈ ladderOrders s.asks := by
  simp [allOrders]

theorem restingIds_eq (s : Book) :
    restingIds s = (ladderOrders s.bids).map Order.orderID
      ++ (ladderOrders s.asks).map Order.orderID := by
  simp [restingIds, allOrders]

end OrderBook

namespace OrderBook

theorem wf_consumeBidHead (s : Book) (q : Nat) (hw : WF s) : WF (consumeBidHead s q) := by
  obtain ⟨bids, asks, E⟩ := s
  cases bids with
  | nil => exact hw
  | cons hd levels =>
    obtain ⟨p, qs⟩ := hd
    cases qs with
    | nil => exact hw
    | cons bid rest =>
      have hnd := hw.idsNodup
      simp only [restingIds_eq, ladderOrders_cons, List.map_append, List.map_cons,
        List.cons_append, List.nodup_cons] at hnd
      have hIdFresh : ∀ o : Order, o ∈ rest ∨ o ∈ ladderOrders levels ∨ o ∈ ladderOrders asks →
          o.orderID ≠ bid.orderID := by
        intro o ho hid
        apply hnd.1
        rw [← hid]
        rcases ho with h | h | h
        · exact List.mem_append_left _ (List.mem_append_left _ (List.mem_map_of_mem _ h))
        · exact List.mem_append_left _ (List.mem_append_right _ (List.mem_map_of_mem _ h))
        · exact List.mem_append_right _ (List.mem_map_of_mem _ h)
      simp only [consumeBidHead]
      by_cases hfill : bid.remainingQuantity - q = 0
      · rw [if_pos hfill]
        by_cases hrest : rest = []
        · rw [if_pos hrest]
          subst hrest
          refine ⟨?_, hw.askKeysSorted, ?_, hw.askLevelsOk, ?_, ?_, ?_, ?_, ?_⟩
          · exact ((sortedKeys_cons_iff _ _ _ _).1 hw.bidKeysSorted).2
          · intro pq hpq
            exact hw.bidLevelsOk pq (List.mem_cons_of_mem _ hpq)
          · refine List.Sublist.nodup ?_ hw.idsNodup
            simp only [restingIds_eq, ladderOrders_cons, List.map_append, List.map_cons,
              List.cons_append, List.nil_append, List.map_nil]
            exact List.sublist_cons_self _ _
          · exact (keys_eraseEntry_sublist E bid.orderID).nodup hw.entryIdsNodup
          · intro e he
            have heE : e ∈ E := (eraseEntry_sublist E bid.orderID).subset he
            have hene : e.id ≠ bid.orderID := mem_eraseEntry_ne E bid.orderID hw.entryIdsNodup e he
            obtain ⟨o, ho, hoid, hot, hos, hop⟩ := hw.located e heE
            refine ⟨o, ?_, hoid, hot, hos, hop⟩
            cases hside : e.side with
            | Sell =>
              rw [hside] at ho
              exact ho
            | Buy =>
              rw [hside] at ho
              rw [queueOn_buy] at ho ⊢
              by_cases hpr : p = e.price
              · subst hpr
                rw [queueAt_cons_self] at ho
                rcases List.mem_cons.1 ho with h | h
                · exact absurd (h ▸ hoid) (Ne.symm hene)
                · simp at h
              · rw [queueAt_cons_ne _ _ _ _ hpr] at ho
                exact ho
          · intro o ho
            have hoOld : o ∈ allOrders ⟨(p, [bid]) :: levels, asks, E⟩ := by
              rcases (mem_allOrders_iff _ o).1 ho with h | h
              · exact (mem_allOrders_iff _ o).2 (Or.inl (by
                  simp only [ladderOrders_cons]
                  exact List.mem_append_right _ h))
              · exact (mem_allOrders_iff _ o).2 (Or.inr h)
            have hne : o.orderID ≠ bid.orderID := by
              refine hIdFresh o ?_
              rcases (mem_allOrders_iff _ o).1 ho with h | h
              · exact Or.inr (Or.inl h)
              · exact Or.inr (Or.inr h)
            have := hw.indexed o hoOld
            unfold containsId at this ⊢
            rw [entryFor_eraseEntry_ne E bid.orderID o.orderID hne]
            exact this
          · intro o ho
            refine hw.remLe o ?_
            rcases (mem_allOrders_iff _ o).1 ho with h | h
            · exact (mem_allOrders_iff _ o).2 (Or.inl (by
                simp only [ladderOrders_cons]
                exact List.mem_append_right _ h))
            · exact (mem_allOrders_iff _ o).2 (Or.inr h)
        · rw [if_neg hrest]
          refine ⟨?_, hw.askKeysSorted, ?_, hw.askLevelsOk, ?_, ?_, ?_, ?_, ?_⟩
          · exact sortedKeys_replace_head _ _ _ _ _ hw.bidKeysSorted
          · intro pq hpq
            rcases List.mem_cons.1 hpq with h | h
            · subst h
              refine ⟨hrest, ?_⟩
              intro o ho
              exact (hw.bidLevelsOk (p, bid :: rest) (List.mem_cons_self _ _)).2 o
                (List.mem_cons_of_mem _ ho)
            · exact hw.bidLevelsOk pq (List.mem_cons_of_mem _ h)
          · refine List.Sublist.nodup ?_ hw.idsNodup
            simp only [restingIds_eq, ladderOrders_cons, List.map_append, List.map_cons,
              List.cons_append]
            exact List.sublist_cons_self _ _
          · exact (keys_eraseEntry_sublist E bid.orderID).nodup hw.entryIdsNodup
          · intro e he
            have heE : e ∈ E := (eraseEntry_sublist E bid.orderID).subset he
            have hene : e.id ≠ bid.orderID := mem_eraseEntry_ne E bid.orderID hw.entryIdsNodup e he
            obtain ⟨o, ho, hoid, hot, hos, hop⟩ := hw.located e heE
            refine ⟨o, ?_, hoid, hot, hos, hop⟩
            cases hside : e.side with
            | Sell =>
              rw [hside] at ho
              exact ho
            | Buy =>
              rw [hside] at ho
              rw [queueOn_buy] at ho ⊢
              by_cases hpr : p = e.price
              · subst hpr
                rw [queueAt_cons_self] at ho ⊢
                rcases List.mem_cons.1 ho with h | h
                · exact absurd (h ▸ hoid) (Ne.symm hene)
                · exact h
              · rw [queueAt_cons_ne _ _ _ _ hpr] at ho ⊢
                exact ho
          · intro o ho
            have hoSplit : o ∈ rest ∨ o ∈ ladderOrders levels ∨ o ∈ ladderOrders asks := by
              rcases (mem_allOrders_iff _ o).1 ho with h | h
              · simp only [ladderOrders_cons] at h
                rcases List.mem_append.1 h with h | h
                · exact Or.inl h
                · exact Or.inr (Or.inl h)
              · exact Or.inr (Or.inr h)
            have hoOld : o ∈ allOrders ⟨(p, bid :: rest) :: levels, asks, E⟩ := by
              refine (mem_allOrders_iff _ o).2 ?_
              rcases hoSplit with h | h | h
              · exact Or.inl (by
                  simp only [ladderOrders_cons]
                  exact List.mem_append_left _ (List.mem_cons_of_mem _ h))
              · exact Or.inl (by
                  simp only [ladderOrders_cons]
                  exact List.mem_append_right _ h)
              · exact Or.inr h
            have hne : o.orderID ≠ bid.orderID := hIdFresh o hoSplit
            have := hw.indexed o hoOld
            unfold containsId at this ⊢
            rw [entryFor_eraseEntry_ne E bid.orderID o.orderID hne]
            exact this
          · intro o ho
            refine hw.remLe o ?_
            rcases (mem_allOrders_iff _ o).1 ho with h | h
            · simp only [ladderOrders_cons] at h
              rcases List.mem_append.1 h with h | h
              · exact (mem_allOrders_iff _ o).2 (Or.inl (by
                  simp only [ladderOrders_cons]
                  exact List.mem_append_left _ (List.mem_cons_of_mem _ h)))
              · exact (mem_allOrders_iff _ o).2 (Or.inl (by
                  simp only [ladderOrders_cons]
                  exact List.mem_append_right _ h))
            · exact (mem_allOrders_iff _ o).2 (Or.inr h)
      · rw [if_neg hfill]
        refine ⟨?_, hw.askKeysSorted, ?_, hw.askLevelsOk, ?_, hw.entryIdsNodup, ?_, ?_, ?_⟩
        · exact sortedKeys_replace_head _ _ _ _ _ hw.bidKeysSorted
        · intro pq hpq
          rcases List.mem_cons.1 hpq with h | h
          · subst h
            refine ⟨by simp, ?_⟩
            intro o ho
            rcases List.mem_cons.1 ho with h | h
            · subst h
              have := (hw.bidLevelsOk (p, bid :: rest) (List.mem_cons_self _ _)).2 bid
                (List.mem_cons_self _ _)
              simpa using this
            · exact (hw.bidLevelsOk (p, bid :: rest) (List.mem_cons_self _ _)).2 o
                (List.mem_cons_of_mem _ h)
          · exact hw.bidLevelsOk pq (List.mem_cons_of_mem _ h)
        · have : restingIds ⟨(p, { bid with remainingQuantity := bid.remainingQuantity - q }
              :: rest) :: levels, asks, E⟩
              = restingIds ⟨(p, bid :: rest) :: levels, asks, E⟩ := by
            simp [restingIds_eq, ladderOrders_cons]
          rw [this]
          exact hw.idsNodup
        · intro e he
          obtain ⟨o, ho, hoid, hot, hos, hop⟩ := hw.located e he
          by_cases hside : e.side = Side.Sell
          · refine ⟨o, ?_, hoid, hot, hos, hop⟩
            rw [hside] at ho ⊢
            rw [queueOn_sell] at ho ⊢
            exact ho
          · have hsideB : e.side = Side.Buy := by
              cases hEs : e.side
              · rfl
              · exact absurd hEs hside
            rw [hsideB] at ho ⊢
            rw [queueOn_buy] at ho
            by_cases hpr : p = e.price
            · subst hpr
              rw [queueAt_cons_self] at ho
              rcases List.mem_cons.1 ho with h | h
              · refine ⟨{ bid with remainingQuantity := bid.remainingQuantity - q },
                  ?_, h ▸ hoid, h ▸ hot, (h ▸ hos).trans hsideB, h ▸ hop⟩
                rw [queueOn_buy, queueAt_cons_self]
                exact List.mem_cons_self _ _
              · refine ⟨o, ?_, hoid, hot, hos.trans hsideB, hop⟩
                rw [queueOn_buy, queueAt_cons_self]
                exact List.mem_cons_of_mem _ h
            · refine ⟨o, ?_, hoid, hot, hos.trans hsideB, hop⟩
              rw [queueAt_cons_ne _ _ _ _ hpr] at ho
              rw [queueOn_buy, queueAt_cons_ne _ _ _ _ hpr]
              exact ho
        · intro o ho
          rcases (mem_allOrders_iff _ o).1 ho with h | h
          · simp only [ladderOrders_cons] at h
            rcases List.mem_append.1 h with h | h
            · rcases List.mem_cons.1 h with h | h
              · subst h
                have := hw.indexed bid ((mem_allOrders_iff _ bid).2 (Or.inl (by
                  simp only [ladderOrders_cons]
                  exact List.mem_append_left _ (List.mem_cons_self _ _))))
                simpa using this
              · exact hw.indexed o ((mem_allOrders_iff _ o).2 (Or.inl (by
                  simp only [ladderOrders_cons]
                  exact List.mem_append_left _ (List.mem_cons_of_mem _ h))))
            · exact hw.indexed o ((mem_allOrders_iff _ o).2 (Or.inl (by
                simp only [ladderOrders_cons]
                exact List.mem_append_right _ h)))
          · exact hw.indexed o ((mem_allOrders_iff _ o).2 (Or.inr h))
        · intro o ho
          rcases (mem_allOrders_iff _ o).1 ho with h | h
          · simp only [ladderOrders_cons] at h
            rcases List.mem_append.1 h with h | h
            · rcases List.mem_cons.1 h with h | h
              · subst h
                have := hw.remLe bid ((mem_allOrders_iff _ bid).2 (Or.inl (by
                  simp only [ladderOrders_cons]
                  exact List.mem_append_left _ (List.mem_cons_self _ _))))
                simp only []
                calc bid.remainingQuantity - q ≤ bid.remainingQuantity := Nat.sub_le _ _
                  _ ≤ bid.initialQuantity := this
              · exact hw.remLe o ((mem_allOrders_iff _ o).2 (Or.inl (by
                  simp only [ladderOrders_cons]
                  exact List.mem_append_left _ (List.mem_cons_of_mem _ h))))
            · exact hw.remLe o ((mem_allOrders_iff _ o).2 (Or.inl (by
                simp only [ladderOrders_cons]
                exact List.mem_append_right _ h)))
          · exact hw.remLe o ((mem_allOrders_iff _ o).2 (Or.inr h))

end OrderBook

namespace OrderBook

theorem wf_consumeAskHead (s : Book) (q : Nat) (hw : WF s) : WF (consumeAskHead s q) := by
  obtain ⟨bids, asks, E⟩ := s
  cases asks with
  | nil => exact hw
  | cons hd levels =>
    obtain ⟨p, qs⟩ := hd
    cases qs with
    | nil => exact hw
    | cons ask rest =>
      have hnd := hw.idsNodup
      simp only [restingIds_eq, ladderOrders_cons, List.map_append, List.map_cons,
        List.cons_append] at hnd
      have hdisj := List.disjoint_of_nodup_append hnd
      have hndR := hnd.of_append_right
      rw [List.nodup_cons] at hndR
      have hIdFresh : ∀ o : Order, o ∈ rest ∨ o ∈ ladderOrders levels ∨ o ∈ ladderOrders bids →
          o.orderID ≠ ask.orderID := by
        intro o ho hid
        rcases ho with h | h | h
        · exact hndR.1 (by
            rw [← hid]
            exact List.mem_append_left _ (List.mem_map_of_mem _ h))
        · exact hndR.1 (by
            rw [← hid]
            exact List.mem_append_right _ (List.mem_map_of_mem _ h))
        · refine hdisj (List.mem_map_of_mem _ h) ?_
          rw [hid]
          exact List.mem_cons_self _ _
      simp only [consumeAskHead]
      by_cases hfill : ask.remainingQuantity - q = 0
      · rw [if_pos hfill]
        by_cases hrest : rest = []
        · rw [if_pos hrest]
          subst hrest
          refine ⟨hw.bidKeysSorted, ?_, hw.bidLevelsOk, ?_, ?_, ?_, ?_, ?_, ?_⟩
          · exact ((sortedKeys_cons_iff _ _ _ _).1 hw.askKeysSorted).2
          · intro pq hpq
            exact hw.askLevelsOk pq (List.mem_cons_of_mem _ hpq)
          · refine List.Sublist.nodup ?_ hw.idsNodup
            simp only [restingIds_eq, ladderOrders_cons, List.map_append, List.map_cons,
              List.cons_append, List.nil_append, List.map_nil]
            exact (List.Sublist.refl _).append (List.sublist_cons_self _ _)
          · exact (keys_eraseEntry_sublist E ask.orderID).nodup hw.entryIdsNodup
          · intro e he
            have heE : e ∈ E := (eraseEntry_sublist E ask.orderID).subset he
            have hene : e.id ≠ ask.orderID := mem_eraseEntry_ne E ask.orderID hw.entryIdsNodup e he
            obtain ⟨o, ho, hoid, hot, hos, hop⟩ := hw.located e heE
            refine ⟨o, ?_, hoid, hot, hos, hop⟩
            by_cases hside : e.side = Side.Buy
            · rw [hside] at ho ⊢
              exact ho
            · have hsideS : e.side = Side.Sell := by
                cases hEs : e.side
                · exact absurd hEs hside
                · rfl
              rw [hsideS] at ho ⊢
              rw [queueOn_sell] at ho ⊢
              by_cases hpr : p = e.price
              · subst hpr
                rw [queueAt_cons_self] at ho
                rcases List.mem_cons.1 ho with h | h
                · exact absurd (h ▸ hoid) (Ne.symm hene)
                · simp at h
              · rw [queueAt_cons_ne _ _ _ _ hpr] at ho
                exact ho
          · intro o ho
            have hoSplit : o ∈ ladderOrders bids ∨ o ∈ ladderOrders levels := by
              rcases (mem_allOrders_iff _ o).1 ho with h | h
              · exact Or.inl h
              · exact Or.inr h
            have hoOld : o ∈ allOrders ⟨bids, (p, [ask]) :: levels, E⟩ := by
              refine (mem_allOrders_iff _ o).2 ?_
              rcases hoSplit with h | h
              · exact Or.inl h
              · exact Or.inr (by
                  simp only [ladderOrders_cons]
                  exact List.mem_append_right _ h)
            have hne : o.orderID ≠ ask.orderID := by
              refine hIdFresh o ?_
              rcases hoSplit with h | h
              · exact Or.inr (Or.inr h)
              · exact Or.inr (Or.inl h)
            have := hw.indexed o hoOld
            unfold containsId at this ⊢
            rw [entryFor_eraseEntry_ne E ask.orderID o.orderID hne]
            exact this
          · intro o ho
            refine hw.remLe o ?_
            rcases (mem_allOrders_iff _ o).1 ho with h | h
            · exact (mem_allOrders_iff _ o).2 (Or.inl h)
            · exact (mem_allOrders_iff _ o).2 (Or.inr (by
                simp only [ladderOrders_cons]
                exact List.mem_append_right _ h))
        · rw [if_neg hrest]
          refine ⟨hw.bidKeysSorted, ?_, hw.bidLevelsOk, ?_, ?_, ?_, ?_, ?_, ?_⟩
          · exact sortedKeys_replace_head _ _ _ _ _ hw.askKeysSorted
          · intro pq hpq
            rcases List.mem_cons.1 hpq with h | h
            · subst h
              refine ⟨hrest, ?_⟩
              intro o ho
              exact (hw.askLevelsOk (p, ask :: rest) (List.mem_cons_self _ _)).2 o
                (List.mem_cons_of_mem _ ho)
            · exact hw.askLevelsOk pq (List.mem_cons_of_mem _ h)
          · refine List.Sublist.nodup ?_ hw.idsNodup
            simp only [restingIds_eq, ladderOrders_cons, List.map_append, List.map_cons,
              List.cons_append]
            exact (List.Sublist.refl _).append (List.sublist_cons_self _ _)
          · exact (keys_eraseEntry_sublist E ask.orderID).nodup hw.entryIdsNodup
          · intro e he
            have heE : e ∈ E := (eraseEntry_sublist E ask.orderID).subset he
            have hene : e.id ≠ ask.orderID := mem_eraseEntry_ne E ask.orderID hw.entryIdsNodup e he
            obtain ⟨o, ho, hoid, hot, hos, hop⟩ := hw.located e heE
            refine ⟨o, ?_, hoid, hot, hos, hop⟩
            by_cases hside : e.side = Side.Buy
            · rw [hside] at ho ⊢
              exact ho
            · have hsideS : e.side = Side.Sell := by
                cases hEs : e.side
                · exact absurd hEs hside
                · rfl
              rw [hsideS] at ho ⊢
              rw [queueOn_sell] at ho ⊢
              by_cases hpr : p = e.price
              · subst hpr
                rw [queueAt_cons_self] at ho
                rw [queueAt_cons_self]
                rcases List.mem_cons.1 ho with h | h
                · exact absurd (h ▸ hoid) (Ne.symm hene)
                · exact h
              · rw [queueAt_cons_ne _ _ _ _ hpr] at ho
                rw [queueAt_cons_ne _ _ _ _ hpr]
                exact ho
          · intro o ho
            have hoSplit : o ∈ ladderOrders bids ∨ o ∈ rest ∨ o ∈ ladderOrders levels := by
              rcases (mem_allOrders_iff _ o).1 ho with h | h
              · exact Or.inl h
              · simp only [ladderOrders_cons] at h
                rcases List.mem_append.1 h with h | h
                · exact Or.inr (Or.inl h)
                · exact Or.inr (Or.inr h)
            have hoOld : o ∈ allOrders ⟨bids, (p, ask :: rest) :: levels, E⟩ := by
              refine (mem_allOrders_iff _ o).2 ?_
              rcases hoSplit with h | h | h
              · exact Or.inl h
              · exact Or.inr (by
                  simp only [ladderOrders_cons]
                  exact List.mem_append_left _ (List.mem_cons_of_mem _ h))
              · exact Or.inr (by
                  simp only [ladderOrders_cons]
                  exact List.mem_append_right _ h)
            have hne : o.orderID ≠ ask.orderID := by
              refine hIdFresh o ?_
              rcases hoSplit with h | h | h
              · exact Or.inr (Or.inr h)
              · exact Or.inl h
              · exact Or.inr (Or.inl h)
            have := hw.indexed o hoOld
            unfold containsId at this ⊢
            rw [entryFor_eraseEntry_ne E ask.orderID o.orderID hne]
            exact this
          · intro o ho
            refine hw.remLe o ?_
            rcases (mem_allOrders_iff _ o).1 ho with h | h
            · exact (mem_allOrders_iff _ o).2 (Or.inl h)
            · simp only [ladderOrders_cons] at h
              rcases List.mem_append.1 h with h | h
              · exact (mem_allOrders_iff _ o).2 (Or.inr (by
                  simp only [ladderOrders_cons]
                  exact List.mem_append_left _ (List.mem_cons_of_mem _ h)))
              · exact (mem_allOrders_iff _ o).2 (Or.inr (by
                  simp only [ladderOrders_cons]
                  exact List.mem_append_right _ h))
      · rw [if_neg hfill]
        refine ⟨hw.bidKeysSorted, ?_, hw.bidLevelsOk, ?_, ?_, hw.entryIdsNodup, ?_, ?_, ?_⟩
        · exact sortedKeys_replace_head _ _ _ _ _ hw.askKeysSorted
        · intro pq hpq
          rcases List.mem_cons.1 hpq with h | h
          · subst h
            refine ⟨by simp, ?_⟩
            intro o ho
            rcases List.mem_cons.1 ho with h | h
            · subst h
              have := (hw.askLevelsOk (p, ask :: rest) (List.mem_cons_self _ _)).2 ask
                (List.mem_cons_self _ _)
              simpa using this
            · exact (hw.askLevelsOk (p, ask :: rest) (List.mem_cons_self _ _)).2 o
                (List.mem_cons_of_mem _ h)
          · exact hw.askLevelsOk pq (List.mem_cons_of_mem _ h)
        · have : restingIds ⟨bids, (p, { ask with remainingQuantity := ask.remainingQuantity - q }
              :: rest) :: levels, E⟩
              = restingIds ⟨bids, (p, ask :: rest) :: levels, E⟩ := by
            simp [restingIds_eq, ladderOrders_cons]
          rw [this]
          exact hw.idsNodup
        · intro e he
          obtain ⟨o, ho, hoid, hot, hos, hop⟩ := hw.located e he
          by_cases hside : e.side = Side.Buy
          · refine ⟨o, ?_, hoid, hot, hos, hop⟩
            rw [hside] at ho ⊢
            rw [queueOn_buy] at ho ⊢
            exact ho
          · have hsideS : e.side = Side.Sell := by
              cases hEs : e.side
              · exact absurd hEs hside
              · rfl
            rw [hsideS] at ho ⊢
            rw [queueOn_sell] at ho
            by_cases hpr : p = e.price
            · subst hpr
              rw [queueAt_cons_self] at ho
              rcases List.mem_cons.1 ho with h | h
              · refine ⟨{ ask with remainingQuantity := ask.remainingQuantity - q },
                  ?_, h ▸ hoid, h ▸ hot, (h ▸ hos).trans hsideS, h ▸ hop⟩
                rw [queueOn_sell, queueAt_cons_self]
                exact List.mem_cons_self _ _
              · refine ⟨o, ?_, hoid, hot, hos.trans hsideS, hop⟩
                rw [queueOn_sell, queueAt_cons_self]
                exact List.mem_cons_of_mem _ h
            · refine ⟨o, ?_, hoid, hot, hos.trans hsideS, hop⟩
              rw [queueAt_cons_ne _ _ _ _ hpr] at ho
              rw [queueOn_sell, queueAt_cons_ne _ _ _ _ hpr]
              exact ho
        · intro o ho
          rcases (mem_allOrders_iff _ o).1 ho with h | h
          · exact hw.indexed o ((mem_allOrders_iff _ o).2 (Or.inl h))
          · simp only [ladderOrders_cons] at h
            rcases List.mem_append.1 h with h | h
            · rcases List.mem_cons.1 h with h | h
              · subst h
                have := hw.indexed ask ((mem_allOrders_iff _ ask).2 (Or.inr (by
                  simp only [ladderOrders_cons]
                  exact List.mem_append_left _ (List.mem_cons_self _ _))))
                simpa using this
              · exact hw.indexed o ((mem_allOrders_iff _ o).2 (Or.inr (by
                  simp only [ladderOrders_cons]
                  exact List.mem_append_left _ (List.mem_cons_of_mem _ h))))
            · exact hw.indexed o ((mem_allOrders_iff _ o).2 (Or.inr (by
                simp only [ladderOrders_cons]
                exact List.mem_append_right _ h)))
        · intro o ho
          rcases (mem_allOrders_iff _ o).1 ho with h | h
          · exact hw.remLe o ((mem_allOrders_iff _ o).2 (Or.inl h))
          · simp only [ladderOrders_cons] at h
            rcases List.mem_append.1 h with h | h
            · rcases List.mem_cons.1 h with h | h
              · subst h
                have := hw.remLe ask ((mem_allOrders_iff _ ask).2 (Or.inr (by
                  simp only [ladderOrders_cons]
                  exact List.mem_append_left _ (List.mem_cons_self _ _))))
                simp only []
                calc ask.remainingQuantity - q ≤ ask.remainingQuantity := Nat.sub_le _ _
                  _ ≤ ask.initialQuantity := this
              · exact hw.remLe o ((mem_allOrders_iff _ o).2 (Or.inr (by
                  simp only [ladderOrders_cons]
                  exact List.mem_append_left _ (List.mem_cons_of_mem _ h))))
            · exact hw.remLe o ((mem_allOrders_iff _ o).2 (Or.inr (by
                simp only [ladderOrders_cons]
                exact List.mem_append_right _ h)))

end OrderBook

theorem queueAt?_eq_some {α : Type} (l : List (Int × List α)) (p : Int)
    (h : queueAt l p ≠ []) : queueAt? l p = some (queueAt l p) := by
  unfold queueAt at h ⊢
  cases hq : queueAt? l p with
  | none => rw [hq] at h; simp at h
  | some q => simp

theorem mem_keys_of_queueAt?_eq_some {α : Type} (l : List (Int × List α)) (p : Int)
    (q : List α) (h : queueAt? l p = some q) : p ∈ l.map Prod.fst := by
  induction l with
  | nil => simp [queueAt?] at h
  | cons kv rest ih =>
    obtain ⟨k, qq⟩ := kv
    rw [queueAt?] at h
    by_cases hk : k = p
    · simp [hk]
    · rw [if_neg hk] at h
      simp only [List.map_cons, List.mem_cons]
      exact Or.inr (ih h)

theorem ladder_setQueue_decomp {α : Type} (l : List (Int × List α)) (p : Int) (q q' : List α)
    (hq : queueAt? l p = some q) :
    ∃ A B, (l.map Prod.snd).flatten = A ++ (q ++ B) ∧
      ((setQueue l p q').map Prod.snd).flatten = A ++ (q' ++ B) := by
  induction l with
  | nil => simp [queueAt?] at hq
  | cons kv rest ih =>
    obtain ⟨k, qq⟩ := kv
    rw [queueAt?] at hq
    by_cases hk : k = p
    · rw [if_pos hk] at hq
      injection hq with hq
      subst hq
      refine ⟨[], (rest.map Prod.snd).flatten, by simp, ?_⟩
      rw [setQueue, if_pos hk]
      simp
    · rw [if_neg hk] at hq
      obtain ⟨A, B, h1, h2⟩ := ih hq
      refine ⟨qq ++ A, B, ?_, ?_⟩
      · simp only [List.map_cons, List.flatten_cons, h1, List.append_assoc]
      · rw [setQueue, if_neg hk]
        simp only [List.map_cons, List.flatten_cons, h2, List.append_assoc]

theorem ladder_eraseLevel_decomp {α : Type} (l : List (Int × List α)) (p : Int) (q : List α)
    (hq : queueAt? l p = some q) :
    ∃ A B, (l.map Prod.snd).flatten = A ++ (q ++ B) ∧
      ((eraseLevel l p).map Prod.snd).flatten = A ++ B := by
  induction l with
  | nil => simp [queueAt?] at hq
  | cons kv rest ih =>
    obtain ⟨k, qq⟩ := kv
    rw [queueAt?] at hq
    by_cases hk : k = p
    · rw [if_pos hk] at hq
      injection hq with hq
      subst hq
      refine ⟨[], (rest.map Prod.snd).flatten, by simp, ?_⟩
      rw [eraseLevel, if_pos hk]
      simp
    · rw [if_neg hk] at hq
      obtain ⟨A, B, h1, h2⟩ := ih hq
      refine ⟨qq ++ A, B, ?_, ?_⟩
      · simp only [List.map_cons, List.flatten_cons, h1, List.append_assoc]
      · rw [eraseLevel, if_neg hk]
        simp only [List.map_cons, List.flatten_cons, h2, List.append_assoc]

namespace OrderBook

theorem matchLoop_succ_cross (fuel : Nat) (ts : List Trade)
    (bidPrice askPrice : Int) (bid ask : Order) (bidsRest asksRest : List Order)
    (bidLevels askLevels : Ladder) (E : List OrderEntry)
    (hcross : ¬ bidPrice < askPrice) :
    matchLoop (fuel + 1) ⟨(bidPrice, bid :: bidsRest) :: bidLevels,
        (askPrice, ask :: asksRest) :: askLevels, E⟩ ts =
      matchLoop fuel
        (consumeAskHead (consumeBidHead
          ⟨(bidPrice, bid :: bidsRest) :: bidLevels, (askPrice, ask :: asksRest) :: askLevels, E⟩
          (min bid.remainingQuantity ask.remainingQuantity))
          (min bid.remainingQuantity ask.remainingQuantity))
        (ts ++ [⟨⟨bid.orderID, bid.price, min bid.remainingQuantity ask.remainingQuantity⟩,
          ⟨ask.orderID, ask.price, min bid.remainingQuantity ask.remainingQuantity⟩⟩]) := by
  simp only [matchLoop]
  rw [if_neg hcross]
  by_cases hb : bid.remainingQuantity - min bid.remainingQuantity ask.remainingQuantity = 0
    <;> by_cases ha : ask.remainingQuantity - min bid.remainingQuantity ask.remainingQuantity = 0
    <;> simp [consumeBidHead, consumeAskHead, hb, ha]

end OrderBook

namespace OrderBook

theorem wf_matchLoop (fuel : Nat) (s : Book) (ts : List Trade) (hw : WF s) :
    WF (matchLoop fuel s ts).1 := by
  induction fuel generalizing s ts with
  | zero => exact hw
  | succ n ih =>
    obtain ⟨bids, asks, E⟩ := s
    cases bids with
    | nil =>
      cases asks with
      | nil => exact hw
      | cons ahd aLevels => exact hw
    | cons bhd bLevels =>
      obtain ⟨bp, bq⟩ := bhd
      cases asks with
      | nil =>
        cases bq with
        | nil => exact hw
        | cons bid bidsRest => exact hw
      | cons ahd aLevels =>
        obtain ⟨ap, aq⟩ := ahd
        cases bq with
        | nil =>
          cases aq with
          | nil => exact hw
          | cons ask asksRest => exact hw
        | cons bid bidsRest =>
          cases aq with
          | nil => exact hw
          | cons ask asksRest =>
            by_cases hcross : bp < ap
            · simp only [matchLoop, if_pos hcross]
              exact hw
            · rw [matchLoop_succ_cross n ts bp ap bid ask bidsRest asksRest bLevels aLevels
                E hcross]
              exact ih _ _ (wf_consumeAskHead _ _ (wf_consumeBidHead _ _ hw))

end OrderBook

theorem mem_of_queueAt?_eq_some {α : Type} (l : List (Int × List α)) (p : Int) (q : List α)
    (h : queueAt? l p = some q) : (p, q) ∈ l := by
  induction l with
  | nil => simp [queueAt?] at h
  | cons kv rest ih =>
    obtain ⟨k, qq⟩ := kv
    rw [queueAt?] at h
    by_cases hk : k = p
    · rw [if_pos hk] at h
      injection h with h
      subst hk h
      exact List.mem_cons_self _ _
    · rw [if_neg hk] at h
      exact List.mem_cons_of_mem _ (ih h)

namespace OrderBook

theorem wf_CancelOrder (s : Book) (id : Nat) (hw : WF s) : WF (CancelOrder s id) := by
  obtain ⟨bids, asks, E⟩ := s
  simp only [CancelOrder]
  cases he : entryFor E id with
  | none => exact hw
  | some e =>
    simp only []
    have hepair := entryFor_eq_some_elim E id e he
    obtain ⟨o, ho, hoid, hot, hos, hop⟩ := hw.located e hepair.1
    have hoid' : o.orderID = id := hoid.trans hepair.2
    cases hside : e.side with
    | Sell =>
      simp only []
      rw [hside, queueOn_sell] at ho
      have hne : queueAt asks e.price ≠ [] := fun hnil => by
        rw [hnil] at ho
        simp at ho
      cases hqa : queueAt? asks e.price with
      | none =>
        rw [queueAt?_eq_some asks e.price hne] at hqa
        simp at hqa
      | some q =>
        simp only []
        have hq : queueAt asks e.price = q := by
          rw [queueAt, hqa]
          rfl
        rw [hq] at ho
        obtain ⟨A, B, hd1, hd2⟩ :=
          ladder_setQueue_decomp asks e.price q (removeFirstId q id) hqa
        obtain ⟨A', B', he1, he2⟩ := ladder_eraseLevel_decomp asks e.price q hqa
        have hlad0 : ladderOrders asks = A ++ (q ++ B) := hd1
        have hlad0' : ladderOrders asks = A' ++ (q ++ B') := he1
        have hladSet : ladderOrders (setQueue asks e.price (removeFirstId q id))
            = A ++ (removeFirstId q id ++ B) := hd2
        have hladErase : ladderOrders (eraseLevel asks e.price) = A' ++ B' := he2
        have hndAsks : ((ladderOrders asks).map Order.orderID).Nodup := by
          have := hw.idsNodup
          rw [restingIds_eq] at this
          exact this.of_append_right
        have hdisjBA : ((ladderOrders bids).map Order.orderID).Disjoint
            ((ladderOrders asks).map Order.orderID) := by
          have := hw.idsNodup
          rw [restingIds_eq] at this
          exact List.disjoint_of_nodup_append this
        have hidq : id ∈ q.map Order.orderID := by
          rw [← hoid']
          exact List.mem_map_of_mem _ ho
        have hqnd : (q.map Order.orderID).Nodup := by
          rw [hlad0] at hndAsks
          simp only [List.map_append] at hndAsks
          exact hndAsks.of_append_right.of_append_left
        have hidNotA : id ∉ A.map Order.orderID := by
          intro hmem
          rw [hlad0] at hndAsks
          simp only [List.map_append] at hndAsks
          exact List.disjoint_of_nodup_append hndAsks hmem
            (List.mem_append_left _ hidq)
        have hidNotB : id ∉ B.map Order.orderID := by
          intro hmem
          rw [hlad0] at hndAsks
          simp only [List.map_append] at hndAsks
          exact List.disjoint_of_nodup_append hndAsks.of_append_right hidq hmem
        have hidNotBids : id ∉ (ladderOrders bids).map Order.orderID := by
          intro hmem
          refine hdisjBA hmem ?_
          rw [hlad0]
          simp only [List.map_append]
          exact List.mem_append_right _ (List.mem_append_left _ hidq)
        by_cases hempty : removeFirstId q id = []
        · rw [if_pos hempty]
          refine ⟨hw.bidKeysSorted, sortedKeys_eraseLevel _ _ _ hw.askKeysSorted,
            hw.bidLevelsOk, ?_, ?_, ?_, ?_, ?_, ?_⟩
          · intro pq hpq
            exact hw.askLevelsOk pq (mem_eraseLevel _ _ _ hpq)
          · refine List.Sublist.nodup ?_ hw.idsNodup
            rw [restingIds_eq, restingIds_eq]
            simp only []
            rw [hladErase, hlad0']
            refine (List.Sublist.refl _).append ?_
            simp only [List.map_append]
            exact (List.Sublist.refl _).append (List.sublist_append_right _ _)
          · exact (keys_eraseEntry_sublist E id).nodup hw.entryIdsNodup
          · intro e' he'
            have he'E : e' ∈ E := (eraseEntry_sublist E id).subset he'
            have he'ne : e'.id ≠ id := mem_eraseEntry_ne E id hw.entryIdsNodup e' he'
            obtain ⟨o', ho', hoid2, hot2, hos2, hop2⟩ := hw.located e' he'E
            by_cases hside' : e'.side = Side.Buy
            · refine ⟨o', ?_, hoid2, hot2, hos2, hop2⟩
              rw [hside'] at ho' ⊢
              exact ho'
            · have hsideS : e'.side = Side.Sell := by
                cases hEs : e'.side
                · exact absurd hEs hside'
                · rfl
              rw [hsideS] at ho' ⊢
              rw [queueOn_sell] at ho'
              by_cases hpr : e'.price = e.price
              · exfalso
                rw [hpr, hq] at ho'
                have : o' ∈ removeFirstId q id :=
                  mem_removeFirstId_of_ne q id o' ho' (fun hh => he'ne (hoid2 ▸ hh))
                rw [hempty] at this
                simp at this
              · refine ⟨o', ?_, hoid2, hot2, hos2.trans hsideS, hop2⟩
                rw [queueOn_sell]
                simp only []
                rw [queueAt_eraseLevel_ne asks e.price e'.price hpr]
                exact ho'
          · intro o' ho'
            have hsplit : o' ∈ ladderOrders bids ∨ o' ∈ A' ∨ o' ∈ B' := by
              rcases (mem_allOrders_iff _ o').1 ho' with h | h
              · exact Or.inl h
              · rw [hladErase] at h
                rcases List.mem_append.1 h with h | h
                · exact Or.inr (Or.inl h)
                · exact Or.inr (Or.inr h)
            have hoOld : o' ∈ allOrders ⟨bids, asks, E⟩ := by
              refine (mem_allOrders_iff _ o').2 ?_
              rcases hsplit with h | h | h
              · exact Or.inl h
              · exact Or.inr (by
                  rw [hlad0']
                  exact List.mem_append_left _ h)
              · exact Or.inr (by
                  rw [hlad0']
                  exact List.mem_append_right _ (List.mem_append_right _ h))
            have hone : o'.orderID ≠ id := by
              intro hid2
              have hndAsks' := hndAsks
              rw [hlad0'] at hndAsks'
              simp only [List.map_append] at hndAsks'
              rcases hsplit with h | h | h
              · exact hidNotBids (by rw [← hid2]; exact List.mem_map_of_mem _ h)
              · have h1 : id ∈ List.map Order.orderID A' := by
                  rw [← hid2]
                  exact List.mem_map_of_mem _ h
                have h2 : id ∈ List.map Order.orderID q ++ List.map Order.orderID B' := by
                  rw [← hoid']
                  exact List.mem_append_left _ (List.mem_map_of_mem _ ho)
                exact List.disjoint_of_nodup_append hndAsks' h1 h2
              · have h1 : id ∈ List.map Order.orderID q := by
                  rw [← hoid']
                  exact List.mem_map_of_mem _ ho
                have h2 : id ∈ List.map Order.orderID B' := by
                  rw [← hid2]
                  exact List.mem_map_of_mem _ h
                exact List.disjoint_of_nodup_append hndAsks'.of_append_right h1 h2
            have := hw.indexed o' hoOld
            unfold containsId at this ⊢
            rw [entryFor_eraseEntry_ne E id o'.orderID hone]
            exact this
          · intro o' ho'
            refine hw.remLe o' ?_
            rcases (mem_allOrders_iff _ o').1 ho' with h | h
            · exact (mem_allOrders_iff _ o').2 (Or.inl h)
            · rw [hladErase] at h
              refine (mem_allOrders_iff _ o').2 (Or.inr ?_)
              rw [hlad0']
              rcases List.mem_append.1 h with h | h
              · exact List.mem_append_left _ h
              · exact List.mem_append_right _ (List.mem_append_right _ h)
        · rw [if_neg hempty]
          refine ⟨hw.bidKeysSorted, sortedKeys_setQueue _ _ _ _ hw.askKeysSorted,
            hw.bidLevelsOk, ?_, ?_, ?_, ?_, ?_, ?_⟩
          · intro pq hpq
            rcases mem_setQueue _ _ _ pq hpq with h | h
            · subst h
              refine ⟨hempty, ?_⟩
              intro o' ho'
              have : o' ∈ q := (removeFirstId_sublist q id).subset ho'
              exact (hw.askLevelsOk (e.price, q) (mem_of_queueAt?_eq_some _ _ _ hqa)).2 o' this
            · exact hw.askLevelsOk pq h
          · refine List.Sublist.nodup ?_ hw.idsNodup
            rw [restingIds_eq, restingIds_eq]
            simp only []
            rw [hladSet, hlad0]
            refine (List.Sublist.refl _).append ?_
            simp only [List.map_append]
            exact (List.Sublist.refl _).append
              (((removeFirstId_sublist q id).map _).append (List.Sublist.refl _))
          · exact (keys_eraseEntry_sublist E id).nodup hw.entryIdsNodup
          · intro e' he'
            have he'E : e' ∈ E := (eraseEntry_sublist E id).subset he'
            have he'ne : e'.id ≠ id := mem_eraseEntry_ne E id hw.entryIdsNodup e' he'
            obtain ⟨o', ho', hoid2, hot2, hos2, hop2⟩ := hw.located e' he'E
            by_cases hside' : e'.side = Side.Buy
            · refine ⟨o', ?_, hoid2, hot2, hos2, hop2⟩
              rw [hside'] at ho' ⊢
              exact ho'
            · have hsideS : e'.side = Side.Sell := by
                cases hEs : e'.side
                · exact absurd hEs hside'
                · rfl
              rw [hsideS] at ho' ⊢
              rw [queueOn_sell] at ho'
              by_cases hpr : e'.price = e.price
              · refine ⟨o', ?_, hoid2, hot2, hos2.trans hsideS, hop2⟩
                rw [hpr, hq] at ho'
                have hmem : o' ∈ removeFirstId q id :=
                  mem_removeFirstId_of_ne q id o' ho' (fun hh => he'ne (hoid2 ▸ hh))
                rw [queueOn_sell]
                simp only []
                rw [hpr, queueAt_setQueue_self asks e.price (removeFirstId q id)
                  (mem_keys_of_queueAt?_eq_some asks e.price q hqa)]
                exact hmem
              · refine ⟨o', ?_, hoid2, hot2, hos2.trans hsideS, hop2⟩
                rw [queueOn_sell]
                simp only []
                rw [queueAt_setQueue_ne asks e.price e'.price (removeFirstId q id) hpr]
                exact ho'
          · intro o' ho'
            have hsplit : o' ∈ ladderOrders bids ∨ o' ∈ A ∨ o' ∈ removeFirstId q id ∨ o' ∈ B := by
              rcases (mem_allOrders_iff _ o').1 ho' with h | h
              · exact Or.inl h
              · rw [hladSet] at h
                rcases List.mem_append.1 h with h | h
                · exact Or.inr (Or.inl h)
                · rcases List.mem_append.1 h with h | h
                  · exact Or.inr (Or.inr (Or.inl h))
                  · exact Or.inr (Or.inr (Or.inr h))
            have hoOld : o' ∈ allOrders ⟨bids, asks, E⟩ := by
              refine (mem_allOrders_iff _ o').2 ?_
              rcases hsplit with h | h | h | h
              · exact Or.inl h
              · exact Or.inr (by
                  rw [hlad0]
                  exact List.mem_append_left _ h)
              · exact Or.inr (by
                  rw [hlad0]
                  exact List.mem_append_right _ (List.mem_append_left _
                    ((removeFirstId_sublist q id).subset h)))
              · exact Or.inr (by
                  rw [hlad0]
                  exact List.mem_append_right _ (List.mem_append_right _ h))
            have hone : o'.orderID ≠ id := by
              intro hid2
              rcases hsplit with h | h | h | h
              · exact hidNotBids (by rw [← hid2]; exact List.mem_map_of_mem _ h)
              · exact hidNotA (by rw [← hid2]; exact List.mem_map_of_mem _ h)
              · exact mem_removeFirstId_ne q id hqnd o' h hid2
              · exact hidNotB (by rw [← hid2]; exact List.mem_map_of_mem _ h)
            have := hw.indexed o' hoOld
            unfold containsId at this ⊢
            rw [entryFor_eraseEntry_ne E id o'.orderID hone]
            exact this
          · intro o' ho'
            refine hw.remLe o' ?_
            rcases (mem_allOrders_iff _ o').1 ho' with h | h
            · exact (mem_allOrders_iff _ o').2 (Or.inl h)
            · rw [hladSet] at h
              refine (mem_allOrders_iff _ o').2 (Or.inr ?_)
              rw [hlad0]
              rcases List.mem_append.1 h with h | h
              · exact List.mem_append_left _ h
              · rcases List.mem_append.1 h with h | h
                · exact List.mem_append_right _ (List.mem_append_left _
                    ((removeFirstId_sublist q id).subset h))
                · exact List.mem_append_right _ (List.mem_append_right _ h)
    | Buy =>
      simp only []
      rw [hside, queueOn_buy] at ho
      have hne : queueAt bids e.price ≠ [] := fun hnil => by
        rw [hnil] at ho
        simp at ho
      cases hqa : queueAt? bids e.price with
      | none =>
        rw [queueAt?_eq_some bids e.price hne] at hqa
        simp at hqa
      | some q =>
        simp only []
        have hq : queueAt bids e.price = q := by
          rw [queueAt, hqa]
          rfl
        rw [hq] at ho
        obtain ⟨A, B, hd1, hd2⟩ :=
          ladder_setQueue_decomp bids e.price q (removeFirstId q id) hqa
        obtain ⟨A', B', he1, he2⟩ := ladder_eraseLevel_decomp bids e.price q hqa
        have hlad0 : ladderOrders bids = A ++ (q ++ B) := hd1
        have hlad0' : ladderOrders bids = A' ++ (q ++ B') := he1
        have hladSet : ladderOrders (setQueue bids e.price (removeFirstId q id))
            = A ++ (removeFirstId q id ++ B) := hd2
        have hladErase : ladderOrders (eraseLevel bids e.price) = A' ++ B' := he2
        have hndBids : ((ladderOrders bids).map Order.orderID).Nodup := by
          have := hw.idsNodup
          rw [restingIds_eq] at this
          exact this.of_append_left
        have hdisjBA : ((ladderOrders bids).map Order.orderID).Disjoint
            ((ladderOrders asks).map Order.orderID) := by
          have := hw.idsNodup
          rw [restingIds_eq] at this
          exact List.disjoint_of_nodup_append this
        have hidq : id ∈ q.map Order.orderID := by
          rw [← hoid']
          exact List.mem_map_of_mem _ ho
        have hqnd : (q.map Order.orderID).Nodup := by
          rw [hlad0] at hndBids
          simp only [List.map_append] at hndBids
          exact hndBids.of_append_right.of_append_left
        have hidNotA : id ∉ A.map Order.orderID := by
          intro hmem
          rw [hlad0] at hndBids
          simp only [List.map_append] at hndBids
          exact List.disjoint_of_nodup_append hndBids hmem
            (List.mem_append_left _ hidq)
        have hidNotB : id ∉ B.map Order.orderID := by
          intro hmem
          rw [hlad0] at hndBids
          simp only [List.map_append] at hndBids
          exact List.disjoint_of_nodup_append hndBids.of_append_right hidq hmem
        have hidNotAsks : id ∉ (ladderOrders asks).map Order.orderID := by
          intro hmem
          refine hdisjBA ?_ hmem
          rw [hlad0]
          simp only [List.map_append]
          exact List.mem_append_right _ (List.mem_append_left _ hidq)
        by_cases hempty : removeFirstId q id = []
        · rw [if_pos hempty]
          refine ⟨sortedKeys_eraseLevel _ _ _ hw.bidKeysSorted, hw.askKeysSorted,
            ?_, hw.askLevelsOk, ?_, ?_, ?_, ?_, ?_⟩
          · intro pq hpq
            exact hw.bidLevelsOk pq (mem_eraseLevel _ _ _ hpq)
          · refine List.Sublist.nodup ?_ hw.idsNodup
            rw [restingIds_eq, restingIds_eq]
            simp only []
            rw [hladErase, hlad0']
            refine List.Sublist.append ?_ (List.Sublist.refl _)
            simp only [List.map_append]
            exact (List.Sublist.refl _).append (List.sublist_append_right _ _)
          · exact (keys_eraseEntry_sublist E id).nodup hw.entryIdsNodup
          · intro e' he'
            have he'E : e' ∈ E := (eraseEntry_sublist E id).subset he'
            have he'ne : e'.id ≠ id := mem_eraseEntry_ne E id hw.entryIdsNodup e' he'
            obtain ⟨o', ho', hoid2, hot2, hos2, hop2⟩ := hw.located e' he'E
            by_cases hside' : e'.side = Side.Sell
            · refine ⟨o', ?_, hoid2, hot2, hos2, hop2⟩
              rw [hside'] at ho' ⊢
              exact ho'
            · have hsideB : e'.side = Side.Buy := by
                cases hEs : e'.side
                · rfl
                · exact absurd hEs hside'
              rw [hsideB] at ho' ⊢
              rw [queueOn_buy] at ho'
              by_cases hpr : e'.price = e.price
              · exfalso
                rw [hpr, hq] at ho'
                have : o' ∈ removeFirstId q id :=
                  mem_removeFirstId_of_ne q id o' ho' (fun hh => he'ne (hoid2 ▸ hh))
                rw [hempty] at this
                simp at this
              · refine ⟨o', ?_, hoid2, hot2, hos2.trans hsideB, hop2⟩
                rw [queueOn_buy]
                simp only []
                rw [queueAt_eraseLevel_ne bids e.price e'.price hpr]
                exact ho'
          · intro o' ho'
            have hsplit : o' ∈ A' ∨ o' ∈ B' ∨ o' ∈ ladderOrders asks := by
              rcases (mem_allOrders_iff _ o').1 ho' with h | h
              · rw [hladErase] at h
                rcases List.mem_append.1 h with h | h
                · exact Or.inl h
                · exact Or.inr (Or.inl h)
              · exact Or.inr (Or.inr h)
            have hoOld : o' ∈ allOrders ⟨bids, asks, E⟩ := by
              refine (mem_allOrders_iff _ o').2 ?_
              rcases hsplit with h | h | h
              · exact Or.inl (by
                  rw [hlad0']
                  exact List.mem_append_left _ h)
              · exact Or.inl (by
                  rw [hlad0']
                  exact List.mem_append_right _ (List.mem_append_right _ h))
              · exact Or.inr h
            have hone : o'.orderID ≠ id := by
              intro hid2
              have hndBids' := hndBids
              rw [hlad0'] at hndBids'
              simp only [List.map_append] at hndBids'
              rcases hsplit with h | h | h
              · have h1 : id ∈ List.map Order.orderID A' := by
                  rw [← hid2]
                  exact List.mem_map_of_mem _ h
                have h2 : id ∈ List.map Order.orderID q ++ List.map Order.orderID B' := by
                  rw [← hoid']
                  exact List.mem_append_left _ (List.mem_map_of_mem _ ho)
                exact List.disjoint_of_nodup_append hndBids' h1 h2
              · have h1 : id ∈ List.map Order.orderID q := by
                  rw [← hoid']
                  exact List.mem_map_of_mem _ ho
                have h2 : id ∈ List.map Order.orderID B' := by
                  rw [← hid2]
                  exact List.mem_map_of_mem _ h
                exact List.disjoint_of_nodup_append hndBids'.of_append_right h1 h2
              · exact hidNotAsks (by rw [← hid2]; exact List.mem_map_of_mem _ h)
            have := hw.indexed o' hoOld
            unfold containsId at this ⊢
            rw [entryFor_eraseEntry_ne E id o'.orderID hone]
            exact this
          · intro o' ho'
            refine hw.remLe o' ?_
            rcases (mem_allOrders_iff _ o').1 ho' with h | h
            · rw [hladErase] at h
              refine (mem_allOrders_iff _ o').2 (Or.inl ?_)
              rw [hlad0']
              rcases List.mem_append.1 h with h | h
              · exact List.mem_append_left _ h
              · exact List.mem_append_right _ (List.mem_append_right _ h)
            · exact (mem_allOrders_iff _ o').2 (Or.inr h)
        · rw [if_neg hempty]
          refine ⟨sortedKeys_setQueue _ _ _ _ hw.bidKeysSorted, hw.askKeysSorted,
            ?_, hw.askLevelsOk, ?_, ?_, ?_, ?_, ?_⟩
          · intro pq hpq
            rcases mem_setQueue _ _ _ pq hpq with h | h
            · subst h
              refine ⟨hempty, ?_⟩
              intro o' ho'
              have : o' ∈ q := (removeFirstId_sublist q id).subset ho'
              exact (hw.bidLevelsOk (e.price, q) (mem_of_queueAt?_eq_some _ _ _ hqa)).2 o' this
            · exact hw.bidLevelsOk pq h
          · refine List.Sublist.nodup ?_ hw.idsNodup
            rw [restingIds_eq, restingIds_eq]
            simp only []
            rw [hladSet, hlad0]
            refine List.Sublist.append ?_ (List.Sublist.refl _)
            simp only [List.map_append]
            exact (List.Sublist.refl _).append
              (((removeFirstId_sublist q id).map _).append (List.Sublist.refl _))
          · exact (keys_eraseEntry_sublist E id).nodup hw.entryIdsNodup
          · intro e' he'
            have he'E : e' ∈ E := (eraseEntry_sublist E id).subset he'
            have he'ne : e'.id ≠ id := mem_eraseEntry_ne E id hw.entryIdsNodup e' he'
            obtain ⟨o', ho', hoid2, hot2, hos2, hop2⟩ := hw.located e' he'E
            by_cases hside' : e'.side = Side.Sell
            · refine ⟨o', ?_, hoid2, hot2, hos2, hop2⟩
              rw [hside'] at ho' ⊢
              exact ho'
            · have hsideB : e'.side = Side.Buy := by
                cases hEs : e'.side
                · rfl
                · exact absurd hEs hside'
              rw [hsideB] at ho' ⊢
              rw [queueOn_buy] at ho'
              by_cases hpr : e'.price = e.price
              · refine ⟨o', ?_, hoid2, hot2, hos2.trans hsideB, hop2⟩
                rw [hpr, hq] at ho'
                have hmem : o' ∈ removeFirstId q id :=
                  mem_removeFirstId_of_ne q id o' ho' (fun hh => he'ne (hoid2 ▸ hh))
                rw [queueOn_buy]
                simp only []
                rw [hpr, queueAt_setQueue_self bids e.price (removeFirstId q id)
                  (mem_keys_of_queueAt?_eq_some bids e.price q hqa)]
                exact hmem
              · refine ⟨o', ?_, hoid2, hot2, hos2.trans hsideB, hop2⟩
                rw [queueOn_buy]
                simp only []
                rw [queueAt_setQueue_ne bids e.price e'.price (removeFirstId q id) hpr]
                exact ho'
          · intro o' ho'
            have hsplit : o' ∈ A ∨ o' ∈ removeFirstId q id ∨ o' ∈ B ∨ o' ∈ ladderOrders asks := by
              rcases (mem_allOrders_iff _ o').1 ho' with h | h
              · rw [hladSet] at h
                rcases List.mem_append.1 h with h | h
                · exact Or.inl h
                · rcases List.mem_append.1 h with h | h
                  · exact Or.inr (Or.inl h)
                  · exact Or.inr (Or.inr (Or.inl h))
              · exact Or.inr (Or.inr (Or.inr h))
            have hoOld : o' ∈ allOrders ⟨bids, asks, E⟩ := by
              refine (mem_allOrders_iff _ o').2 ?_
              rcases hsplit with h | h | h | h
              · exact Or.inl (by
                  rw [hlad0]
                  exact List.mem_append_left _ h)
              · exact Or.inl (by
                  rw [hlad0]
                  exact List.mem_append_right _ (List.mem_append_left _
                    ((removeFirstId_sublist q id).subset h)))
              · exact Or.inl (by
                  rw [hlad0]
                  exact List.mem_append_right _ (List.mem_append_right _ h))
              · exact Or.inr h
            have hone : o'.orderID ≠ id := by
              intro hid2
              rcases hsplit with h | h | h | h
              · exact hidNotA (by rw [← hid2]; exact List.mem_map_of_mem _ h)
              · exact mem_removeFirstId_ne q id hqnd o' h hid2
              · exact hidNotB (by rw [← hid2]; exact List.mem_map_of_mem _ h)
              · exact hidNotAsks (by rw [← hid2]; exact List.mem_map_of_mem _ h)
            have := hw.indexed o' hoOld
            unfold containsId at this ⊢
            rw [entryFor_eraseEntry_ne E id o'.orderID hone]
            exact this
          · intro o' ho'
            refine hw.remLe o' ?_
            rcases (mem_allOrders_iff _ o').1 ho' with h | h
            · rw [hladSet] at h
              refine (mem_allOrders_iff _ o').2 (Or.inl ?_)
              rw [hlad0]
              rcases List.mem_append.1 h with h | h
              · exact List.mem_append_left _ h
              · rcases List.mem_append.1 h with h | h
                · exact List.mem_append_right _ (List.mem_append_left _
                    ((removeFirstId_sublist q id).subset h))
                · exact List.mem_append_right _ (List.mem_append_right _ h)
            · exact (mem_allOrders_iff _ o').2 (Or.inr h)

end OrderBook

theorem ladder_insertLevel_perm {α : Type} (cmp : Int → Int → Bool) (p : Int) (o : α)
    (l : List (Int × List α)) :
    List.Perm ((insertLevel cmp p o l).map Prod.snd).flatten (o :: (l.map Prod.snd).flatten) := by
  induction l with
  | nil => simp [insertLevel]
  | cons kv rest ih =>
    obtain ⟨k, q⟩ := kv
    rw [insertLevel]
    split
    · simp only [List.map_cons, List.flatten_cons, List.append_assoc, List.singleton_append]
      exact List.perm_middle
    · split
      · simp
      · simp only [List.map_cons, List.flatten_cons]
        exact ((ih.append_left q).trans List.perm_middle)

namespace OrderBook

theorem wf_MatchOrders (s : Book) (hw : WF s) : WF (MatchOrders s).1 := by
  have hr := wf_matchLoop (bookMeasure s + 1) s [] hw
  simp only [MatchOrders]
  cases hb : (matchLoop (bookMeasure s + 1) s []).1.bids with
  | nil => exact hr
  | cons hd rest =>
    obtain ⟨p, qs⟩ := hd
    cases qs with
    | nil => exact hr
    | cons bid qrest =>
      simp only []
      by_cases hf : bid.orderType = OrderType.FillAndKill
      · rw [if_pos hf]
        exact wf_CancelOrder _ _ hr
      · rw [if_neg hf]
        exact hr

theorem not_mem_restingIds (s : Book) (hw : WF s) (id : Nat)
    (hc : containsId s.orders id = false) : id ∉ restingIds s := by
  intro hmem
  obtain ⟨o'', hmem'', hid''⟩ := List.mem_map.1 hmem
  have := hw.indexed o'' hmem''
  rw [hid''] at this
  rw [this] at hc
  simp at hc

theorem wf_InsertOrder (s : Book) (o : Order) (hw : WF s)
    (hc : containsId s.orders o.orderID = false)
    (hq : o.remainingQuantity ≤ o.initialQuantity) : WF (InsertOrder s o) := by
  obtain ⟨bids, asks, E⟩ := s
  have hfreshE : ∀ e ∈ E, e.id ≠ o.orderID := (containsId_false_iff E o.orderID).1 hc
  have hfreshIds : o.orderID ∉ restingIds ⟨bids, asks, E⟩ :=
    not_mem_restingIds _ hw o.orderID hc
  have hEntryNodup : ((E ++ [OrderEntry.mk o.orderID o.orderType o.side o.price]).map
      OrderEntry.id).Nodup := by
    rw [List.map_append]
    refine List.nodup_append.2 ⟨hw.entryIdsNodup, by simp, ?_⟩
    intro a ha
    obtain ⟨e', he', hae⟩ := List.mem_map.1 ha
    simp only [List.map_cons, List.map_nil, List.mem_singleton]
    rw [← hae]
    exact hfreshE e' he'
  have hContainsNew : ∀ i : Nat,
      containsId (E ++ [OrderEntry.mk o.orderID o.orderType o.side o.price]) i
      = (containsId E i || (o.orderID == i)) := fun i =>
    containsId_append_singleton E _ i
  simp only [InsertOrder]
  cases hside : o.side with
  | Buy =>
    simp only []
    rw [hside] at hEntryNodup hContainsNew
    refine ⟨?_, hw.askKeysSorted, ?_, hw.askLevelsOk, ?_, hEntryNodup, ?_, ?_, ?_⟩
    · exact sortedKeys_insertLevel greaterCmp greaterCmp_total greaterCmp_trans o.price o bids
        hw.bidKeysSorted
    · intro pq hpq
      rcases mem_insertLevel greaterCmp o.price o bids pq hpq with ⟨qq, hqq, hpq'⟩ | hpq' | hpq'
      · subst hpq'
        refine ⟨by simp, ?_⟩
        intro o' ho'
        rcases List.mem_append.1 ho' with h | h
        · exact (hw.bidLevelsOk (o.price, qq) hqq).2 o' h
        · rw [List.mem_singleton] at h
          subst h
          exact ⟨hside, rfl⟩
      · subst hpq'
        refine ⟨by simp, ?_⟩
        intro o' ho'
        rw [List.mem_singleton] at ho'
        subst ho'
        exact ⟨hside, rfl⟩
      · exact hw.bidLevelsOk pq hpq'
    · have hperm : List.Perm (restingIds ⟨insertLevel greaterCmp o.price o bids, asks,
          E ++ [OrderEntry.mk o.orderID o.orderType Side.Buy o.price]⟩)
          (o.orderID :: restingIds ⟨bids, asks, E⟩) := by
        rw [restingIds_eq, restingIds_eq]
        simp only []
        have h1 := (ladder_insertLevel_perm greaterCmp o.price o bids).map Order.orderID
        rw [List.map_cons] at h1
        have h2 := h1.append_right ((ladderOrders asks).map Order.orderID)
        rw [List.cons_append] at h2
        exact h2
      refine hperm.nodup_iff.2 ?_
      rw [List.nodup_cons]
      exact ⟨hfreshIds, hw.idsNodup⟩
    · intro e' he'
      rcases List.mem_append.1 he' with h | h
      · obtain ⟨o', ho', hoid, hot, hos, hop⟩ := hw.located e' h
        refine ⟨o', ?_, hoid, hot, hos, hop⟩
        cases hside' : e'.side with
        | Sell =>
          rw [hside'] at ho'
          exact ho'
        | Buy =>
          rw [hside'] at ho'
          rw [queueOn_buy] at ho' ⊢
          simp only []
          by_cases hpr : e'.price = o.price
          · rw [hpr] at ho' ⊢
            rw [queueAt_insertLevel_self greaterCmp greaterCmp_asym o.price o bids
              hw.bidKeysSorted]
            exact List.mem_append_left _ ho'
          · rw [queueAt_insertLevel_ne greaterCmp o.price e'.price o bids hpr]
            exact ho'
      · rw [List.mem_singleton] at h
        subst h
        refine ⟨o, ?_, rfl, rfl, hside, rfl⟩
        simp only [queueOn, ladderOf]
        rw [queueAt_insertLevel_self greaterCmp greaterCmp_asym o.price o bids hw.bidKeysSorted]
        exact List.mem_append_right _ (List.mem_singleton.2 rfl)
    · intro o' ho'
      rcases (mem_allOrders_iff _ o').1 ho' with h | h
      · have h' := (ladder_insertLevel_perm greaterCmp o.price o bids).subset h
        rcases List.mem_cons.1 h' with h' | h'
        · subst h'
          rw [hContainsNew]
          simp
        · rw [hContainsNew]
          have := hw.indexed o' ((mem_allOrders_iff _ o').2 (Or.inl h'))
          rw [this]
          simp
      · rw [hContainsNew]
        have := hw.indexed o' ((mem_allOrders_iff _ o').2 (Or.inr h))
        rw [this]
        simp
    · intro o' ho'
      rcases (mem_allOrders_iff _ o').1 ho' with h | h
      · have h' := (ladder_insertLevel_perm greaterCmp o.price o bids).subset h
        rcases List.mem_cons.1 h' with h' | h'
        · subst h'
          exact hq
        · exact hw.remLe o' ((mem_allOrders_iff _ o').2 (Or.inl h'))
      · exact hw.remLe o' ((mem_allOrders_iff _ o').2 (Or.inr h))
  | Sell =>
    simp only []
    rw [hside] at hEntryNodup hContainsNew
    refine ⟨hw.bidKeysSorted, ?_, hw.bidLevelsOk, ?_, ?_, hEntryNodup, ?_, ?_, ?_⟩
    · exact sortedKeys_insertLevel lessCmp lessCmp_total lessCmp_trans o.price o asks
        hw.askKeysSorted
    · intro pq hpq
      rcases mem_insertLevel lessCmp o.price o asks pq hpq with ⟨qq, hqq, hpq'⟩ | hpq' | hpq'
      · subst hpq'
        refine ⟨by simp, ?_⟩
        intro o' ho'
        rcases List.mem_append.1 ho' with h | h
        · exact (hw.askLevelsOk (o.price, qq) hqq).2 o' h
        · rw [List.mem_singleton] at h
          subst h
          exact ⟨hside, rfl⟩
      · subst hpq'
        refine ⟨by simp, ?_⟩
        intro o' ho'
        rw [List.mem_singleton] at ho'
        subst ho'
        exact ⟨hside, rfl⟩
      · exact hw.askLevelsOk pq hpq'
    · have hperm : List.Perm (restingIds ⟨bids, insertLevel lessCmp o.price o asks,
          E ++ [OrderEntry.mk o.orderID o.orderType Side.Sell o.price]⟩)
          (o.orderID :: restingIds ⟨bids, asks, E⟩) := by
        rw [restingIds_eq, restingIds_eq]
        simp only []
        have h1 := (ladder_insertLevel_perm lessCmp o.price o asks).map Order.orderID
        rw [List.map_cons] at h1
        have h2 := h1.append_left ((ladderOrders bids).map Order.orderID)
        exact h2.trans List.perm_middle
      refine hperm.nodup_iff.2 ?_
      rw [List.nodup_cons]
      exact ⟨hfreshIds, hw.idsNodup⟩
    · intro e' he'
      rcases List.mem_append.1 he' with h | h
      · obtain ⟨o', ho', hoid, hot, hos, hop⟩ := hw.located e' h
        refine ⟨o', ?_, hoid, hot, hos, hop⟩
        cases hside' : e'.side with
        | Buy =>
          rw [hside'] at ho'
          exact ho'
        | Sell =>
          rw [hside'] at ho'
          rw [queueOn_sell] at ho' ⊢
          simp only []
          by_cases hpr : e'.price = o.price
          · rw [hpr] at ho' ⊢
            rw [queueAt_insertLevel_self lessCmp lessCmp_asym o.price o asks
              hw.askKeysSorted]
            exact List.mem_append_left _ ho'
          · rw [queueAt_insertLevel_ne lessCmp o.price e'.price o asks hpr]
            exact ho'
      · rw [List.mem_singleton] at h
        subst h
        refine ⟨o, ?_, rfl, rfl, hside, rfl⟩
        simp only [queueOn, ladderOf]
        rw [queueAt_insertLevel_self lessCmp lessCmp_asym o.price o asks hw.askKeysSorted]
        exact List.mem_append_right _ (List.mem_singleton.2 rfl)
    · intro o' ho'
      rcases (mem_allOrders_iff _ o').1 ho' with h | h
      · rw [hContainsNew]
        have := hw.indexed o' ((mem_allOrders_iff _ o').2 (Or.inl h))
        rw [this]
        simp
      · have h' := (ladder_insertLevel_perm lessCmp o.price o asks).subset h
        rcases List.mem_cons.1 h' with h' | h'
        · subst h'
          rw [hContainsNew]
          simp
        · rw [hContainsNew]
          have := hw.indexed o' ((mem_allOrders_iff _ o').2 (Or.inr h'))
          rw [this]
          simp
    · intro o' ho'
      rcases (mem_allOrders_iff _ o').1 ho' with h | h
      · exact hw.remLe o' ((mem_allOrders_iff _ o').2 (Or.inl h))
      · have h' := (ladder_insertLevel_perm lessCmp o.price o asks).subset h
        rcases List.mem_cons.1 h' with h' | h'
        · subst h'
          exact hq
        · exact hw.remLe o' ((mem_allOrders_iff _ o').2 (Or.inr h'))

theorem wf_AddOrder (s : Book) (o : Order) (hw : WF s)
    (hq : o.remainingQuantity ≤ o.initialQuantity) : WF (AddOrder s o).1 := by
  unfold AddOrder
  by_cases hc : containsId s.orders o.orderID = true
  · rw [if_pos hc]
    exact hw
  · rw [if_neg hc]
    have hc' : containsId s.orders o.orderID = false := by
      cases h : containsId s.orders o.orderID
      · rfl
      · exact absurd h hc
    by_cases hfak : o.orderType = OrderType.FillAndKill ∧ ¬ CanMatch s o.side o.price = true
    · rw [if_pos hfak]
      exact hw
    · rw [if_neg hfak]
      exact wf_MatchOrders _ (wf_InsertOrder s o hw hc' hq)

theorem wf_MatchOrder (s : Book) (m : OrderModify) (hw : WF s) : WF (MatchOrder s m).1 := by
  unfold MatchOrder
  cases he : entryFor s.orders m.orderID with
  | none => exact hw
  | some e =>
    simp only []
    exact wf_AddOrder _ _ (wf_CancelOrder s m.orderID hw) (le_refl _)

theorem wf_emptyBook : WF emptyBook := by
  refine ⟨?_, ?_, ?_, ?_, ?_, ?_, ?_, ?_, ?_⟩ <;>
    simp [sortedKeys, restingIds, allOrders, ladderOrders, emptyBook]

theorem reachable_wf (pos : Bool) (s : Book) (h : Reachable pos s) : WF s := by
  induction h with
  | base => exact wf_emptyBook
  | add s' o h hq hpos ih => exact wf_AddOrder s' o ih (le_of_eq hq)
  | cancel s' id h ih => exact wf_CancelOrder s' id ih
  | modify s' m h hpos ih => exact wf_MatchOrder s' m ih

end OrderBook

namespace OrderBook

theorem pos_consumeBidHead (s : Book) (q : Nat) (hp : PosRem s) : PosRem (consumeBidHead s q) := by
  obtain ⟨bids, asks, E⟩ := s
  rcases bids with _ | ⟨⟨p, bq⟩, levels⟩
  · exact hp
  rcases bq with _ | ⟨bid, rest⟩
  · exact hp
  intro o ho
  simp only [consumeBidHead] at ho
  by_cases hz : bid.remainingQuantity - q = 0
  · rw [if_pos hz] at ho
    apply hp
    rcases (mem_allOrders_iff _ o).1 ho with h | h
    · refine (mem_allOrders_iff _ o).2 (Or.inl ?_)
      rw [ladderOrders_cons]
      by_cases hrest : rest = []
      · rw [if_pos hrest] at h
        exact List.mem_append_right _ h
      · rw [if_neg hrest] at h
        rw [ladderOrders_cons] at h
        rcases List.mem_append.1 h with h | h
        · exact List.mem_append_left _ (List.mem_cons_of_mem _ h)
        · exact List.mem_append_right _ h
    · exact (mem_allOrders_iff _ o).2 (Or.inr h)
  · rw [if_neg hz] at ho
    rcases (mem_allOrders_iff _ o).1 ho with h | h
    · rw [ladderOrders_cons] at h
      rcases List.mem_append.1 h with h | h
      · rcases List.mem_cons.1 h with h | h
        · subst h
          simpa using Nat.pos_of_ne_zero hz
        · refine hp o ((mem_allOrders_iff _ o).2 (Or.inl ?_))
          rw [ladderOrders_cons]
          exact List.mem_append_left _ (List.mem_cons_of_mem _ h)
      · refine hp o ((mem_allOrders_iff _ o).2 (Or.inl ?_))
        rw [ladderOrders_cons]
        exact List.mem_append_right _ h
    · exact hp o ((mem_allOrders_iff _ o).2 (Or.inr h))

theorem pos_consumeAskHead (s : Book) (q : Nat) (hp : PosRem s) : PosRem (consumeAskHead s q) := by
  obtain ⟨bids, asks, E⟩ := s
  rcases asks with _ | ⟨⟨p, aq⟩, levels⟩
  · exact hp
  rcases aq with _ | ⟨ask, rest⟩
  · exact hp
  intro o ho
  simp only [consumeAskHead] at ho
  by_cases hz : ask.remainingQuantity - q = 0
  · rw [if_pos hz] at ho
    apply hp
    rcases (mem_allOrders_iff _ o).1 ho with h | h
    · exact (mem_allOrders_iff _ o).2 (Or.inl h)
    · refine (mem_allOrders_iff _ o).2 (Or.inr ?_)
      rw [ladderOrders_cons]
      by_cases hrest : rest = []
      · rw [if_pos hrest] at h
        exact List.mem_append_right _ h
      · rw [if_neg hrest] at h
        rw [ladderOrders_cons] at h
        rcases List.mem_append.1 h with h | h
        · exact List.mem_append_left _ (List.mem_cons_of_mem _ h)
        · exact List.mem_append_right _ h
  · rw [if_neg hz] at ho
    rcases (mem_allOrders_iff _ o).1 ho with h | h
    · exact hp o ((mem_allOrders_iff _ o).2 (Or.inl h))
    · rw [ladderOrders_cons] at h
      rcases List.mem_append.1 h with h | h
      · rcases List.mem_cons.1 h with h | h
        · subst h
          simpa using Nat.pos_of_ne_zero hz
        · refine hp o ((mem_allOrders_iff _ o).2 (Or.inr ?_))
          rw [ladderOrders_cons]
          exact List.mem_append_left _ (List.mem_cons_of_mem _ h)
      · refine hp o ((mem_allOrders_iff _ o).2 (Or.inr ?_))
        rw [ladderOrders_cons]
        exact List.mem_append_right _ h

theorem pos_matchLoop (fuel : Nat) (s : Book) (ts : List Trade) (hp : PosRem s) :
    PosRem (matchLoop fuel s ts).1 := by
  induction fuel generalizing s ts with
  | zero => exact hp
  | succ n ih =>
    obtain ⟨bids, asks, E⟩ := s
    cases bids with
    | nil =>
      cases asks with
      | nil => exact hp
      | cons ahd aLevels => exact hp
    | cons bhd bLevels =>
      obtain ⟨bp, bq⟩ := bhd
      cases asks with
      | nil =>
        cases bq with
        | nil => exact hp
        | cons bid bidsRest => exact hp
      | cons ahd aLevels =>
        obtain ⟨ap, aq⟩ := ahd
        cases bq with
        | nil =>
          cases aq with
          | nil => exact hp
          | cons ask asksRest => exact hp
        | cons bid bidsRest =>
          cases aq with
          | nil => exact hp
          | cons ask asksRest =>
            by_cases hcross : bp < ap
            · simp only [matchLoop, if_pos hcross]
              exact hp
            · rw [matchLoop_succ_cross n ts bp ap bid ask bidsRest asksRest bLevels aLevels
                E hcross]
              exact ih _ _ (pos_consumeAskHead _ _ (pos_consumeBidHead _ _ hp))

/-- Cancelling never adds or modifies a resting order. -/
theorem mem_allOrders_CancelOrder (s : Book) (id : Nat) (o : Order)
    (ho : o ∈ allOrders (CancelOrder s id)) : o ∈ allOrders s := by
  unfold CancelOrder at ho
  cases he : entryFor s.orders id with
  | none => rw [he] at ho; exact ho
  | some e =>
    rw [he] at ho
    simp only [] at ho
    cases hside : e.side with
    | Sell =>
      rw [hside] at ho
      cases hq : queueAt? s.asks e.price with
      | none => rw [hq] at ho; exact ho
      | some qq =>
        rw [hq] at ho
        simp only [] at ho
        rcases (mem_allOrders_iff _ o).1 ho with h | h
        · exact (mem_allOrders_iff _ o).2 (Or.inl h)
        · refine (mem_allOrders_iff _ o).2 (Or.inr ?_)
          by_cases hempty : removeFirstId qq id = []
          · rw [if_pos hempty] at h
            exact (ladderOrders_eraseLevel_sublist s.asks e.price).subset h
          · rw [if_neg hempty] at h
            have hqq : queueAt s.asks e.price = qq := by
              unfold queueAt
              rw [hq]
              rfl
            refine (ladderOrders_setQueue_sublist s.asks e.price _ ?_).subset h
            rw [hqq]
            exact removeFirstId_sublist qq id
    | Buy =>
      rw [hside] at ho
      cases hq : queueAt? s.bids e.price with
      | none => rw [hq] at ho; exact ho
      | some qq =>
        rw [hq] at ho
        simp only [] at ho
        rcases (mem_allOrders_iff _ o).1 ho with h | h
        · refine (mem_allOrders_iff _ o).2 (Or.inl ?_)
          by_cases hempty : removeFirstId qq id = []
          · rw [if_pos hempty] at h
            exact (ladderOrders_eraseLevel_sublist s.bids e.price).subset h
          · rw [if_neg hempty] at h
            have hqq : queueAt s.bids e.price = qq := by
              unfold queueAt
              rw [hq]
              rfl
            refine (ladderOrders_setQueue_sublist s.bids e.price _ ?_).subset h
            rw [hqq]
            exact removeFirstId_sublist qq id
        · exact (mem_allOrders_iff _ o).2 (Or.inr h)

theorem pos_CancelOrder (s : Book) (id : Nat) (hp : PosRem s) : PosRem (CancelOrder s id) :=
  fun o ho => hp o (mem_allOrders_CancelOrder s id o ho)

theorem pos_MatchOrders (s : Book) (hp : PosRem s) : PosRem (MatchOrders s).1 := by
  unfold MatchOrders
  simp only []
  have hr := pos_matchLoop (bookMeasure s + 1) s [] hp
  rcases hbids : (matchLoop (bookMeasure s + 1) s []).1.bids with _ | ⟨⟨p, bq⟩, levels⟩
  · exact hr
  rcases bq with _ | ⟨bid, rest⟩
  · exact hr
  simp only []
  by_cases hf : bid.orderType = OrderType.FillAndKill
  · rw [if_pos hf]
    exact pos_CancelOrder _ _ hr
  · rw [if_neg hf]
    exact hr

theorem pos_InsertOrder (s : Book) (o : Order) (hp : PosRem s)
    (ho : 0 < o.remainingQuantity) : PosRem (InsertOrder s o) := by
  intro o' ho'
  unfold InsertOrder at ho'
  cases hside : o.side with
  | Buy =>
    rw [hside] at ho'
    rcases (mem_allOrders_iff _ o').1 ho' with h | h
    · rcases List.mem_cons.1 ((ladder_insertLevel_perm greaterCmp o.price o s.bids).subset h)
        with h' | h'
      · subst h'
        exact ho
      · exact hp o' ((mem_allOrders_iff s o').2 (Or.inl h'))
    · exact hp o' ((mem_allOrders_iff s o').2 (Or.inr h))
  | Sell =>
    rw [hside] at ho'
    rcases (mem_allOrders_iff _ o').1 ho' with h | h
    · exact hp o' ((mem_allOrders_iff s o').2 (Or.inl h))
    · rcases List.mem_cons.1 ((ladder_insertLevel_perm lessCmp o.price o s.asks).subset h)
        with h' | h'
      · subst h'
        exact ho
      · exact hp o' ((mem_allOrders_iff s o').2 (Or.inr h'))

theorem pos_AddOrder (s : Book) (o : Order) (hp : PosRem s)
    (ho : 0 < o.remainingQuantity) : PosRem (AddOrder s o).1 := by
  unfold AddOrder
  by_cases hc : containsId s.orders o.orderID
  · rw [if_pos hc]
    exact hp
  · rw [if_neg hc]
    by_cases hfak : o.orderType = OrderType.FillAndKill ∧ ¬ CanMatch s o.side o.price
    · rw [if_pos hfak]
      exact hp
    · rw [if_neg hfak]
      exact pos_MatchOrders _ (pos_InsertOrder s o hp ho)

theorem pos_MatchOrder (s : Book) (m : OrderModify) (hp : PosRem s)
    (hq : 0 < m.newQuantity) : PosRem (MatchOrder s m).1 := by
  unfold MatchOrder
  cases he : entryFor s.orders m.orderID with
  | none => exact hp
  | some e =>
    simp only []
    exact pos_AddOrder _ _ (pos_CancelOrder s m.orderID hp) hq

theorem pos_emptyBook : PosRem emptyBook := by
  intro o ho
  simp [allOrders, ladderOrders, emptyBook] at ho

theorem reachable_pos (s : Book) (h : Reachable true s) : PosRem s := by
  induction h with
  | base => exact pos_emptyBook
  | add s' o h hq hpos ih =>
    exact pos_AddOrder s' o ih (by rw [hq]; exact hpos rfl)
  | cancel s' id h ih => exact pos_CancelOrder s' id ih
  | modify s' m h hpos ih => exact pos_MatchOrder s' m ih (hpos rfl)

end OrderBook

namespace OrderBook

theorem frontConsumed_refl (l : List Order) : frontConsumed l l := by
  cases l with
  | nil => exact ⟨0, Or.inl ⟨rfl, rfl⟩⟩
  | cons o rest => exact ⟨0, Or.inr ⟨o, rest, 0, rfl, Nat.zero_le _, rfl⟩⟩

theorem frontConsumed_drop (l : List Order) (k : Nat) : frontConsumed l (l.drop k) := by
  rcases h : l.drop k with _ | ⟨o, rest⟩
  · exact ⟨k, Or.inl ⟨h, rfl⟩⟩
  · exact ⟨k, Or.inr ⟨o, rest, 0, h, Nat.zero_le _, rfl⟩⟩

theorem frontConsumed_trans (a b c : List Order) (h₁ : frontConsumed a b)
    (h₂ : frontConsumed b c) : frontConsumed a c := by
  obtain ⟨k₁, h₁⟩ := h₁
  obtain ⟨k₂, h₂⟩ := h₂
  rcases h₁ with ⟨hd₁, hb⟩ | ⟨o, rest, q, hd₁, hq, hb⟩
  · subst hb
    rcases h₂ with ⟨hd₂, hc⟩ | ⟨o₂, rest₂, q₂, hd₂, hq₂, hc⟩
    · exact ⟨k₁, Or.inl ⟨hd₁, hc⟩⟩
    · simp at hd₂
  · subst hb
    have h2 : a.drop (k₁ + 1) = rest := by
      rw [← List.tail_drop]
      exact congrArg List.tail hd₁
    rcases h₂ with ⟨hd₂, hc⟩ | ⟨o₂, rest₂, q₂, hd₂, hq₂, hc⟩
    · cases k₂ with
      | zero => simp at hd₂
      | succ j =>
        simp only [List.drop_succ_cons] at hd₂
        refine ⟨(k₁ + 1) + j, Or.inl ⟨?_, hc⟩⟩
        rw [← List.drop_drop, h2, hd₂]
    · cases k₂ with
      | zero =>
        simp only [List.drop_zero] at hd₂
        obtain ⟨ho₂, hrest₂⟩ := List.cons_eq_cons.1 hd₂
        have hq₂' : q₂ ≤ o.remainingQuantity - q := by
          rw [← ho₂] at hq₂
          exact hq₂
        refine ⟨k₁, Or.inr ⟨o, rest, q + q₂, hd₁, by omega, ?_⟩⟩
        rw [hc, ← ho₂, ← hrest₂]
        simp [Nat.sub_sub]
      | succ j =>
        simp only [List.drop_succ_cons] at hd₂
        refine ⟨(k₁ + 1) + j, Or.inr ⟨o₂, rest₂, q₂, ?_, hq₂, hc⟩⟩
        rw [← List.drop_drop, h2, hd₂]

theorem head_key_not_mem {α : Type} (cmp : Int → Int → Bool)
    (hirr : ∀ a, cmp a a = false) (k : Int) (q : List α) (rest : List (Int × List α))
    (h : sortedKeys cmp ((k, q) :: rest)) : k ∉ rest.map Prod.fst := by
  intro hmem
  have := ((sortedKeys_cons_iff cmp k q rest).1 h).1 k hmem
  rw [hirr] at this
  exact Bool.false_ne_true this

theorem fc_consumeBidHead (s : Book) (q : Nat) (hsorted : sortedKeys greaterCmp s.bids)
    (side : Side) (p : Int) :
    frontConsumed (queueOn s side p) (queueOn (consumeBidHead s q) side p) := by
  obtain ⟨bids, asks, E⟩ := s
  rcases bids with _ | ⟨⟨bp, bq⟩, levels⟩
  · exact frontConsumed_refl _
  rcases bq with _ | ⟨bid, rest⟩
  · exact frontConsumed_refl _
  by_cases hz : bid.remainingQuantity - q = 0
  · simp only [consumeBidHead, if_pos hz]
    cases side with
    | Sell => exact frontConsumed_refl _
    | Buy =>
      by_cases hrest : rest = []
      · rw [if_pos hrest]
        subst hrest
        by_cases hp : p = bp
        · subst hp
          have hnot : queueAt levels p = [] := queueAt_not_mem_keys _ _
            (head_key_not_mem greaterCmp greaterCmp_irrefl p [bid] levels hsorted)
          rw [queueOn_buy, queueOn_buy]
          simp only []
          rw [queueAt_cons_self, hnot]
          exact ⟨1, Or.inl ⟨rfl, rfl⟩⟩
        · rw [queueOn_buy, queueOn_buy]
          simp only []
          rw [queueAt_cons_ne _ _ _ _ (fun h => hp h.symm)]
          exact frontConsumed_refl _
      · rw [if_neg hrest]
        by_cases hp : p = bp
        · subst hp
          rw [queueOn_buy, queueOn_buy]
          simp only []
          rw [queueAt_cons_self, queueAt_cons_self]
          exact frontConsumed_drop (bid :: rest) 1
        · rw [queueOn_buy, queueOn_buy]
          simp only []
          rw [queueAt_cons_ne _ _ _ _ (fun h => hp h.symm),
            queueAt_cons_ne _ _ _ _ (fun h => hp h.symm)]
          exact frontConsumed_refl _
  · simp only [consumeBidHead, if_neg hz]
    cases side with
    | Sell => exact frontConsumed_refl _
    | Buy =>
      by_cases hp : p = bp
      · subst hp
        rw [queueOn_buy, queueOn_buy]
        simp only []
        rw [queueAt_cons_self, queueAt_cons_self]
        refine ⟨0, Or.inr ⟨bid, rest, q, rfl, ?_, rfl⟩⟩
        omega
      · rw [queueOn_buy, queueOn_buy]
        simp only []
        rw [queueAt_cons_ne _ _ _ _ (fun h => hp h.symm),
          queueAt_cons_ne _ _ _ _ (fun h => hp h.symm)]
        exact frontConsumed_refl _

theorem fc_consumeAskHead (s : Book) (q : Nat) (hsorted : sortedKeys lessCmp s.asks)
    (side : Side) (p : Int) :
    frontConsumed (queueOn s side p) (queueOn (consumeAskHead s q) side p) := by
  obtain ⟨bids, asks, E⟩ := s
  rcases asks with _ | ⟨⟨ap, aq⟩, levels⟩
  · exact frontConsumed_refl _
  rcases aq with _ | ⟨ask, rest⟩
  · exact frontConsumed_refl _
  by_cases hz : ask.remainingQuantity - q = 0
  · simp only [consumeAskHead, if_pos hz]
    cases side with
    | Buy => exact frontConsumed_refl _
    | Sell =>
      by_cases hrest : rest = []
      · rw [if_pos hrest]
        subst hrest
        by_cases hp : p = ap
        · subst hp
          have hnot : queueAt levels p = [] := queueAt_not_mem_keys _ _
            (head_key_not_mem lessCmp lessCmp_irrefl p [ask] levels hsorted)
          rw [queueOn_sell, queueOn_sell]
          simp only []
          rw [queueAt_cons_self, hnot]
          exact ⟨1, Or.inl ⟨rfl, rfl⟩⟩
        · rw [queueOn_sell, queueOn_sell]
          simp only []
          rw [queueAt_cons_ne _ _ _ _ (fun h => hp h.symm)]
          exact frontConsumed_refl _
      · rw [if_neg hrest]
        by_cases hp : p = ap
        · subst hp
          rw [queueOn_sell, queueOn_sell]
          simp only []
          rw [queueAt_cons_self, queueAt_cons_self]
          exact frontConsumed_drop (ask :: rest) 1
        · rw [queueOn_sell, queueOn_sell]
          simp only []
          rw [queueAt_cons_ne _ _ _ _ (fun h => hp h.symm),
            queueAt_cons_ne _ _ _ _ (fun h => hp h.symm)]
          exact frontConsumed_refl _
  · simp only [consumeAskHead, if_neg hz]
    cases side with
    | Buy => exact frontConsumed_refl _
    | Sell =>
      by_cases hp : p = ap
      · subst hp
        rw [queueOn_sell, queueOn_sell]
        simp only []
        rw [queueAt_cons_self, queueAt_cons_self]
        refine ⟨0, Or.inr ⟨ask, rest, q, rfl, ?_, rfl⟩⟩
        omega
      · rw [queueOn_sell, queueOn_sell]
        simp only []
        rw [queueAt_cons_ne _ _ _ _ (fun h => hp h.symm),
          queueAt_cons_ne _ _ _ _ (fun h => hp h.symm)]
        exact frontConsumed_refl _

theorem fc_matchLoop (fuel : Nat) (s : Book) (ts : List Trade) (hw : WF s)
    (side : Side) (p : Int) :
    frontConsumed (queueOn s side p) (queueOn (matchLoop fuel s ts).1 side p) := by
  induction fuel generalizing s ts with
  | zero => exact frontConsumed_refl _
  | succ n ih =>
    obtain ⟨bids, asks, E⟩ := s
    cases bids with
    | nil =>
      cases asks with
      | nil => exact frontConsumed_refl _
      | cons ahd aLevels => exact frontConsumed_refl _
    | cons bhd bLevels =>
      obtain ⟨bp, bq⟩ := bhd
      cases asks with
      | nil =>
        cases bq with
        | nil => exact frontConsumed_refl _
        | cons bid bidsRest => exact frontConsumed_refl _
      | cons ahd aLevels =>
        obtain ⟨ap, aq⟩ := ahd
        cases bq with
        | nil =>
          cases aq with
          | nil => exact frontConsumed_refl _
          | cons ask asksRest => exact frontConsumed_refl _
        | cons bid bidsRest =>
          cases aq with
          | nil => exact frontConsumed_refl _
          | cons ask asksRest =>
            by_cases hcross : bp < ap
            · simp only [matchLoop, if_pos hcross]
              exact frontConsumed_refl _
            · rw [matchLoop_succ_cross n ts bp ap bid ask bidsRest asksRest bLevels aLevels
                E hcross]
              exact frontConsumed_trans _ _ _
                (frontConsumed_trans _ _ _
                  (fc_consumeBidHead _ (min bid.remainingQuantity ask.remainingQuantity)
                    hw.bidKeysSorted side p)
                  (fc_consumeAskHead _ (min bid.remainingQuantity ask.remainingQuantity)
                    (wf_consumeBidHead _ (min bid.remainingQuantity ask.remainingQuantity)
                      hw).askKeysSorted side p))
                (ih _ _ (wf_consumeAskHead _ _ (wf_consumeBidHead _ _ hw)))

end OrderBook

theorem nodup_map_inj {α β : Type} (f : α → β) (l : List α) (h : (l.map f).Nodup)
    (a b : α) (ha : a ∈ l) (hb : b ∈ l) (hf : f a = f b) : a = b := by
  induction l with
  | nil => simp at ha
  | cons x t ih =>
    rw [List.map_cons, List.nodup_cons] at h
    rcases List.mem_cons.1 ha with ha' | ha' <;> rcases List.mem_cons.1 hb with hb' | hb'
    · rw [ha', hb']
    · subst ha'
      exact absurd (by rw [hf]; exact List.mem_map_of_mem f hb') h.1
    · subst hb'
      exact absurd (by rw [← hf]; exact List.mem_map_of_mem f ha') h.1
    · exact ih h.2 ha' hb'

namespace OrderBook

theorem mem_allOrders_of_queueOn (s : Book) (side : Side) (p : Int) (o : Order)
    (h : o ∈ queueOn s side p) : o ∈ allOrders s := by
  cases side with
  | Buy => exact (mem_allOrders_iff s o).2 (Or.inl (mem_of_mem_queueAt _ _ _ h))
  | Sell => exact (mem_allOrders_iff s o).2 (Or.inr (mem_of_mem_queueAt _ _ _ h))

/-- Identifiers are unique among resting orders of a well-formed book. -/
theorem allOrders_id_unique (s : Book) (hw : WF s) (o₁ o₂ : Order)
    (h₁ : o₁ ∈ allOrders s) (h₂ : o₂ ∈ allOrders s)
    (hid : o₁.orderID = o₂.orderID) : o₁ = o₂ :=
  nodup_map_inj Order.orderID (allOrders s) hw.idsNodup o₁ o₂ h₁ h₂ hid

/-- Cancelling the front order of the best bid level of a well-formed book
pops it from the queue (dropping the level if the queue empties) and erases
its index entry. -/
theorem cancel_front_bid (s : Book) (hw : WF s) (bp : Int) (bid : Order)
    (rest : List Order) (levels : Ladder)
    (hb : s.bids = (bp, bid :: rest) :: levels) :
    CancelOrder s bid.orderID =
      { s with bids := if rest = [] then levels else (bp, rest) :: levels,
               orders := eraseEntry s.orders bid.orderID } := by
  have hmem : bid ∈ allOrders s := by
    refine (mem_allOrders_iff s bid).2 (Or.inl ?_)
    rw [hb, ladderOrders_cons]
    exact List.mem_append_left _ (List.mem_cons_self _ _)
  have hc := hw.indexed bid hmem
  unfold containsId at hc
  cases he : entryFor s.orders bid.orderID with
  | none => rw [he] at hc; simp at hc
  | some e =>
    obtain ⟨heMem, heId⟩ := entryFor_eq_some_elim _ _ _ he
    obtain ⟨o'', ho''Mem, ho''id, ho''type, ho''side, ho''price⟩ := hw.located e heMem
    have ho''All : o'' ∈ allOrders s := mem_allOrders_of_queueOn s e.side e.price o'' ho''Mem
    have heq : o'' = bid := allOrders_id_unique s hw o'' bid ho''All hmem (by rw [ho''id, heId])
    have hbidlevel := (hw.bidLevelsOk (bp, bid :: rest)
      (by rw [hb]; exact List.mem_cons_self _ _)).2 bid (List.mem_cons_self _ _)
    have heSide : e.side = Side.Buy := by
      rw [← ho''side, heq, hbidlevel.1]
    have hePrice : e.price = bp := by
      rw [← ho''price, heq, hbidlevel.2]
    unfold CancelOrder
    rw [he]
    simp only []
    rw [heSide]
    simp only []
    rw [hePrice, hb]
    rw [show queueAt? ((bp, bid :: rest) :: levels) bp = some (bid :: rest) by
      simp [queueAt?]]
    simp only []
    rw [removeFirstId_cons_self]
    by_cases hrest : rest = []
    · rw [if_pos hrest, if_pos hrest]
      rw [show eraseLevel ((bp, bid :: rest) :: levels) bp = levels by simp [eraseLevel]]
    · rw [if_neg hrest, if_neg hrest]
      rw [show setQueue ((bp, bid :: rest) :: levels) bp rest = (bp, rest) :: levels by
        simp [setQueue]]

theorem queueOn_setBids (s : Book) (b : Ladder) (E' : List OrderEntry) (p : Int) :
    queueOn { s with bids := b, orders := E' } Side.Buy p = queueAt b p := rfl

theorem queueOn_setBids_sell (s : Book) (b : Ladder) (E' : List OrderEntry) (p : Int) :
    queueOn { s with bids := b, orders := E' } Side.Sell p = queueAt s.asks p := rfl

/-- `MatchOrders` only ever consumes queues from the front: a prefix is
removed, the order following it may be partially filled in place, every
later order is untouched. -/
theorem fc_MatchOrders (s : Book) (hw : WF s) (side : Side) (p : Int) :
    frontConsumed (queueOn s side p) (queueOn (MatchOrders s).1 side p) := by
  unfold MatchOrders
  simp only []
  have hr := fc_matchLoop (bookMeasure s + 1) s [] hw side p
  have hwr := wf_matchLoop (bookMeasure s + 1) s [] hw
  rcases hbids : (matchLoop (bookMeasure s + 1) s []).1.bids with _ | ⟨⟨bp, bq⟩, levels⟩
  · exact hr
  rcases bq with _ | ⟨bid, rest⟩
  · exact hr
  simp only []
  by_cases hf : bid.orderType = OrderType.FillAndKill
  · rw [if_pos hf]
    refine frontConsumed_trans _ _ _ hr ?_
    rw [cancel_front_bid _ hwr bp bid rest levels hbids]
    cases side with
    | Sell =>
      rw [queueOn_sell, queueOn_setBids_sell]
      exact frontConsumed_refl _
    | Buy =>
      rw [queueOn_buy, queueOn_setBids, hbids]
      by_cases hrest : rest = []
      · rw [if_pos hrest, hrest]
        by_cases hp : p = bp
        · rw [hp, queueAt_cons_self]
          have hsorted := hwr.bidKeysSorted
          rw [hbids] at hsorted
          rw [hrest] at hsorted
          rw [queueAt_not_mem_keys levels bp
            (head_key_not_mem greaterCmp greaterCmp_irrefl bp [bid] levels hsorted)]
          exact ⟨1, Or.inl ⟨rfl, rfl⟩⟩
        · rw [queueAt_cons_ne _ _ _ _ (fun h => hp h.symm)]
          exact frontConsumed_refl _
      · rw [if_neg hrest]
        by_cases hp : p = bp
        · rw [hp, queueAt_cons_self, queueAt_cons_self]
          exact frontConsumed_drop (bid :: rest) 1
        · rw [queueAt_cons_ne _ _ _ _ (fun h => hp h.symm),
            queueAt_cons_ne _ _ _ _ (fun h => hp h.symm)]
          exact frontConsumed_refl _
  · rw [if_neg hf]
    exact hr

end OrderBook

namespace OrderBook

theorem matchLoop_trades_eq (fuel : Nat) (s : Book) (ts : List Trade)
    (h : ∀ t ∈ ts, t.bidTrade.quantity = t.askTrade.quantity) :
    ∀ t ∈ (matchLoop fuel s ts).2, t.bidTrade.quantity = t.askTrade.quantity := by
  induction fuel generalizing s ts with
  | zero => exact h
  | succ n ih =>
    obtain ⟨bids, asks, E⟩ := s
    cases bids with
    | nil =>
      cases asks with
      | nil => exact h
      | cons ahd aLevels => exact h
    | cons bhd bLevels =>
      obtain ⟨bp, bq⟩ := bhd
      cases asks with
      | nil =>
        cases bq with
        | nil => exact h
        | cons bid bidsRest => exact h
      | cons ahd aLevels =>
        obtain ⟨ap, aq⟩ := ahd
        cases bq with
        | nil =>
          cases aq with
          | nil => exact h
          | cons ask asksRest => exact h
        | cons bid bidsRest =>
          cases aq with
          | nil => exact h
          | cons ask asksRest =>
            by_cases hcross : bp < ap
            · simp only [matchLoop, if_pos hcross]
              exact h
            · rw [matchLoop_succ_cross n ts bp ap bid ask bidsRest asksRest bLevels aLevels
                E hcross]
              refine ih _ _ ?_
              intro t ht
              rcases List.mem_append.1 ht with ht | ht
              · exact h t ht
              · rw [List.mem_singleton] at ht
                subst ht
                rfl

theorem AddOrder_trades_eq (s : Book) (o : Order) :
    ∀ t ∈ (AddOrder s o).2, t.bidTrade.quantity = t.askTrade.quantity := by
  unfold AddOrder
  by_cases hc : containsId s.orders o.orderID
  · rw [if_pos hc]
    intro t ht
    simp at ht
  · rw [if_neg hc]
    by_cases hfak : o.orderType = OrderType.FillAndKill ∧ ¬ CanMatch s o.side o.price
    · rw [if_pos hfak]
      intro t ht
      simp at ht
    · rw [if_neg hfak]
      unfold MatchOrders
      simp only []
      have hml := matchLoop_trades_eq (bookMeasure (InsertOrder s o) + 1) (InsertOrder s o) []
        (by intro t ht; simp at ht)
      rcases hbids : (matchLoop (bookMeasure (InsertOrder s o) + 1)
          (InsertOrder s o) []).1.bids with _ | ⟨⟨bp, bq⟩, levels⟩
      · exact hml
      rcases bq with _ | ⟨bid, rest⟩
      · exact hml
      simp only []
      by_cases hf : bid.orderType = OrderType.FillAndKill
      · rw [if_pos hf]
        exact hml
      · rw [if_neg hf]
        exact hml

end OrderBook

namespace Orderbook

theorem ob2_matchLoop_succ_cross (fuel : Nat) (ts : List Trade)
    (bp ap : Int) (bid ask : Order) (bidsRest asksRest : List Order)
    (bidLevels askLevels : Ladder) (hm : List Nat)
    (hcross : ¬ bp < ap) :
    matchLoop (fuel + 1) ⟨(bp, bid :: bidsRest) :: bidLevels,
        (ap, ask :: asksRest) :: askLevels, hm⟩ ts =
      matchLoop fuel
        ⟨(if bid.quantity - min bid.quantity ask.quantity = 0 then
            (if bidsRest = [] then bidLevels else (bp, bidsRest) :: bidLevels)
          else (bp, { bid with quantity := bid.quantity - min bid.quantity ask.quantity }
            :: bidsRest) :: bidLevels),
         (if ask.quantity - min bid.quantity ask.quantity = 0 then
            (if asksRest = [] then askLevels else (ap, asksRest) :: askLevels)
          else (ap, { ask with quantity := ask.quantity - min bid.quantity ask.quantity }
            :: asksRest) :: askLevels),
         (if ask.quantity - min bid.quantity ask.quantity = 0 then
            eraseId (if bid.quantity - min bid.quantity ask.quantity = 0 then
              eraseId hm bid.id else hm) ask.id
          else (if bid.quantity - min bid.quantity ask.quantity = 0 then
            eraseId hm bid.id else hm))⟩
        (ts ++ [⟨⟨bid.id, bid.price, min bid.quantity ask.quantity⟩,
          ⟨ask.id, ask.price, min bid.quantity ask.quantity⟩⟩]) := by
  simp only [matchLoop]
  rw [if_neg hcross]

theorem ob2_matchLoop_trades_eq (fuel : Nat) (s : Book) (ts : List Trade)
    (h : ∀ t ∈ ts, t.buySide.quantity = t.sellSide.quantity) :
    ∀ t ∈ (matchLoop fuel s ts).2, t.buySide.quantity = t.sellSide.quantity := by
  induction fuel generalizing s ts with
  | zero => exact h
  | succ n ih =>
    obtain ⟨bids, asks, hm⟩ := s
    cases bids with
    | nil => exact h
    | cons bhd bLevels =>
      obtain ⟨bp, bq⟩ := bhd
      cases asks with
      | nil => exact h
      | cons ahd aLevels =>
        obtain ⟨ap, aq⟩ := ahd
        by_cases hcross : bp < ap
        · simp only [matchLoop, if_pos hcross]
          exact h
        · cases bq with
          | nil =>
            simp only [matchLoop, if_neg hcross]
            exact ih _ _ h
          | cons bid bidsRest =>
            cases aq with
            | nil =>
              simp only [matchLoop, if_neg hcross]
              exact ih _ _ h
            | cons ask asksRest =>
              rw [ob2_matchLoop_succ_cross n ts bp ap bid ask bidsRest asksRest bLevels
                aLevels hm hcross]
              refine ih _ _ ?_
              intro t ht
              rcases List.mem_append.1 ht with ht | ht
              · exact h t ht
              · rw [List.mem_singleton] at ht
                subst ht
                rfl

theorem ob2_AddOrder_trades_eq (s : Book) (o : Order) :
    ∀ t ∈ (AddOrder s o).2, t.buySide.quantity = t.sellSide.quantity := by
  unfold AddOrder
  by_cases hc : s.ordersHashmap.contains o.id
  · rw [if_pos hc]
    intro t ht
    simp at ht
  · rw [if_neg hc]
    simp only []
    intro t ht
    exact ob2_matchLoop_trades_eq _ _ _ (by intro u hu; simp at hu) t ht

end Orderbook

namespace OrderBook

theorem removeFirstId_decomp (q : List Order) (id : Nat) :
    (id ∉ q.map Order.orderID ∧ removeFirstId q id = q) ∨
    ∃ q₁ o q₂, q = q₁ ++ o :: q₂ ∧ o.orderID = id ∧ removeFirstId q id = q₁ ++ q₂ := by
  induction q with
  | nil => exact Or.inl ⟨by simp, rfl⟩
  | cons o rest ih =>
    by_cases h : (o.orderID == id) = true
    · refine Or.inr ⟨[], o, rest, rfl, by simpa using h, ?_⟩
      simp only [removeFirstId, if_pos h, List.nil_append]
    · have hne : o.orderID ≠ id := by simpa using h
      rcases ih with ⟨hnot, heq⟩ | ⟨q₁, o', q₂, hq, hid, heq⟩
      · refine Or.inl ⟨?_, ?_⟩
        · intro hmem
          simp only [List.map_cons, List.mem_cons] at hmem
          rcases hmem with hmem | hmem
          · exact hne hmem.symm
          · exact hnot hmem
        · simp only [removeFirstId, if_neg h, heq]
      · refine Or.inr ⟨o :: q₁, o', q₂, ?_, hid, ?_⟩
        · rw [hq, List.cons_append]
        · simp only [removeFirstId, if_neg h, heq, List.cons_append]

theorem CancelOrder_eq_sell (s : Book) (id : Nat) (e : OrderEntry)
    (he : entryFor s.orders id = some e) (hside : e.side = Side.Sell)
    (q : List Order) (hq : queueAt? s.asks e.price = some q) :
    CancelOrder s id = { s with
      asks := if removeFirstId q id = [] then eraseLevel s.asks e.price
        else setQueue s.asks e.price (removeFirstId q id),
      orders := eraseEntry s.orders id } := by
  unfold CancelOrder
  rw [he]
  simp only []
  rw [hside]
  simp only []
  rw [hq]

theorem CancelOrder_eq_buy (s : Book) (id : Nat) (e : OrderEntry)
    (he : entryFor s.orders id = some e) (hside : e.side = Side.Buy)
    (q : List Order) (hq : queueAt? s.bids e.price = some q) :
    CancelOrder s id = { s with
      bids := if removeFirstId q id = [] then eraseLevel s.bids e.price
        else setQueue s.bids e.price (removeFirstId q id),
      orders := eraseEntry s.orders id } := by
  unfold CancelOrder
  rw [he]
  simp only []
  rw [hside]
  simp only []
  rw [hq]

theorem CancelOrder_orders (s : Book) (id : Nat) (e : OrderEntry)
    (he : entryFor s.orders id = some e) :
    (CancelOrder s id).orders = eraseEntry s.orders id := by
  unfold CancelOrder
  rw [he]
  simp only []
  cases hside : e.side with
  | Sell =>
    cases hq : queueAt? s.asks e.price with
    | none => rfl
    | some q => rfl
  | Buy =>
    cases hq : queueAt? s.bids e.price with
    | none => rfl
    | some q => rfl

end OrderBook

theorem perm_cons_extract {α : Type} (U V : List α) (o : α) (W₁ W₂ : List α)
    (hU : U = W₁ ++ o :: W₂) (hV : V = W₁ ++ W₂) : U.Perm (o :: V) := by
  rw [hU, hV]
  exact List.perm_middle

namespace OrderBook

/-- Cancelling an indexed identifier removes exactly one resting order — the
one carrying that identifier — and leaves every other queue node in place. -/
theorem cancel_allOrders_perm (s : Book) (id : Nat) (hw : WF s) (e : OrderEntry)
    (he : entryFor s.orders id = some e) :
    ∃ o, o.orderID = id ∧ (allOrders s).Perm (o :: allOrders (CancelOrder s id)) := by
  obtain ⟨heMem, heId⟩ := entryFor_eq_some_elim _ _ _ he
  obtain ⟨o'', ho''Mem, ho''id, ho''t, ho''s, ho''p⟩ := hw.located e heMem
  cases hside : e.side with
  | Sell =>
    rw [hside] at ho''Mem
    rw [queueOn_sell] at ho''Mem
    have hne : queueAt s.asks e.price ≠ [] := fun h => by rw [h] at ho''Mem; simp at ho''Mem
    have hq : queueAt? s.asks e.price = some (queueAt s.asks e.price) :=
      queueAt?_eq_some _ _ hne
    rcases removeFirstId_decomp (queueAt s.asks e.price) id with
      ⟨hnot, _⟩ | ⟨q₁, o, q₂, hqeq, hoid, hrem⟩
    · exact absurd (by rw [← heId, ← ho''id]; exact List.mem_map_of_mem _ ho''Mem) hnot
    · refine ⟨o, hoid, ?_⟩
      rw [CancelOrder_eq_sell s id e he hside _ hq]
      by_cases hempty : removeFirstId (queueAt s.asks e.price) id = []
      · rw [if_pos hempty]
        rw [hrem] at hempty
        obtain ⟨hq₁, hq₂⟩ := List.append_eq_nil.1 hempty
        obtain ⟨A, B, h1, h2⟩ := ladder_eraseLevel_decomp s.asks e.price _ hq
        refine perm_cons_extract _ _ o (ladderOrders s.bids ++ A) B ?_ ?_
        · show ladderOrders s.bids ++ ladderOrders s.asks = _
          rw [show ladderOrders s.asks = A ++ (queueAt s.asks e.price ++ B) from h1,
            hqeq, hq₁, hq₂]
          simp [List.append_assoc]
        · show ladderOrders s.bids ++ ladderOrders (eraseLevel s.asks e.price) = _
          rw [show ladderOrders (eraseLevel s.asks e.price) = A ++ B from h2]
          simp [List.append_assoc]
      · rw [if_neg hempty]
        obtain ⟨A, B, h1, h2⟩ := ladder_setQueue_decomp s.asks e.price _
          (removeFirstId (queueAt s.asks e.price) id) hq
        refine perm_cons_extract _ _ o (ladderOrders s.bids ++ A ++ q₁) (q₂ ++ B) ?_ ?_
        · show ladderOrders s.bids ++ ladderOrders s.asks = _
          rw [show ladderOrders s.asks = A ++ (queueAt s.asks e.price ++ B) from h1, hqeq]
          simp [List.append_assoc]
        · show ladderOrders s.bids ++
            ladderOrders (setQueue s.asks e.price (removeFirstId (queueAt s.asks e.price) id))
              = _
          rw [show ladderOrders (setQueue s.asks e.price
            (removeFirstId (queueAt s.asks e.price) id))
            = A ++ (removeFirstId (queueAt s.asks e.price) id ++ B) from h2, hrem]
          simp [List.append_assoc]
  | Buy =>
    rw [hside] at ho''Mem
    rw [queueOn_buy] at ho''Mem
    have hne : queueAt s.bids e.price ≠ [] := fun h => by rw [h] at ho''Mem; simp at ho''Mem
    have hq : queueAt? s.bids e.price = some (queueAt s.bids e.price) :=
      queueAt?_eq_some _ _ hne
    rcases removeFirstId_decomp (queueAt s.bids e.price) id with
      ⟨hnot, _⟩ | ⟨q₁, o, q₂, hqeq, hoid, hrem⟩
    · exact absurd (by rw [← heId, ← ho''id]; exact List.mem_map_of_mem _ ho''Mem) hnot
    · refine ⟨o, hoid, ?_⟩
      rw [CancelOrder_eq_buy s id e he hside _ hq]
      by_cases hempty : removeFirstId (queueAt s.bids e.price) id = []
      · rw [if_pos hempty]
        rw [hrem] at hempty
        obtain ⟨hq₁, hq₂⟩ := List.append_eq_nil.1 hempty
        obtain ⟨A, B, h1, h2⟩ := ladder_eraseLevel_decomp s.bids e.price _ hq
        refine perm_cons_extract _ _ o A (B ++ ladderOrders s.asks) ?_ ?_
        · show ladderOrders s.bids ++ ladderOrders s.asks = _
          rw [show ladderOrders s.bids = A ++ (queueAt s.bids e.price ++ B) from h1,
            hqeq, hq₁, hq₂]
          simp [List.append_assoc]
        · show ladderOrders (eraseLevel s.bids e.price) ++ ladderOrders s.asks = _
          rw [show ladderOrders (eraseLevel s.bids e.price) = A ++ B from h2]
          simp [List.append_assoc]
      · rw [if_neg hempty]
        obtain ⟨A, B, h1, h2⟩ := ladder_setQueue_decomp s.bids e.price _
          (removeFirstId (queueAt s.bids e.price) id) hq
        refine perm_cons_extract _ _ o (A ++ q₁) (q₂ ++ (B ++ ladderOrders s.asks)) ?_ ?_
        · show ladderOrders s.bids ++ ladderOrders s.asks = _
          rw [show ladderOrders s.bids = A ++ (queueAt s.bids e.price ++ B) from h1, hqeq]
          simp [List.append_assoc]
        · show ladderOrders (setQueue s.bids e.price
            (removeFirstId (queueAt s.bids e.price) id)) ++ ladderOrders s.asks = _
          rw [show ladderOrders (setQueue s.bids e.price
            (removeFirstId (queueAt s.bids e.price) id))
            = A ++ (removeFirstId (queueAt s.bids e.price) id ++ B) from h2, hrem]
          simp [List.append_assoc]

theorem wf_occ_le_one (s : Book) (hw : WF s) (id : Nat) : occCount s id ≤ 1 :=
  List.nodup_iff_count_le_one.1 hw.idsNodup id

theorem wf_contains_iff_occ (s : Book) (hw : WF s) :
    ∀ id, containsId s.orders id = true ↔ occCount s id = 1 := by
  intro id
  constructor
  · intro hc
    cases he : entryFor s.orders id with
    | none =>
      unfold containsId at hc
      rw [he] at hc
      simp at hc
    | some e =>
      obtain ⟨heMem, heId⟩ := entryFor_eq_some_elim _ _ _ he
      obtain ⟨o'', ho''Mem, ho''id, _, _, _⟩ := hw.located e heMem
      have hall : o'' ∈ allOrders s := mem_allOrders_of_queueOn _ _ _ _ ho''Mem
      have hmem : id ∈ restingIds s := by
        show id ∈ (allOrders s).map Order.orderID
        rw [← heId, ← ho''id]
        exact List.mem_map_of_mem _ hall
      have h1 : 0 < (restingIds s).count id := List.count_pos_iff.2 hmem
      have h2 : occCount s id ≤ 1 := wf_occ_le_one s hw id
      show (restingIds s).count id = 1
      have h2' : (restingIds s).count id ≤ 1 := h2
      omega
  · intro hocc
    have h1 : 0 < (restingIds s).count id := by
      have h1' : (restingIds s).count id = 1 := hocc
      omega
    have hmem : id ∈ restingIds s := List.count_pos_iff.1 h1
    obtain ⟨o, ho, hid⟩ := List.mem_map.1 hmem
    have := hw.indexed o ho
    rw [hid] at this
    exact this

theorem queueOn_InsertOrder_self (s : Book) (o : Order)
    (hb : sortedKeys greaterCmp s.bids) (ha : sortedKeys lessCmp s.asks) :
    queueOn (InsertOrder s o) o.side o.price = queueOn s o.side o.price ++ [o] := by
  unfold InsertOrder
  cases hside : o.side with
  | Buy =>
    simp only []
    rw [queueOn_buy, queueOn_buy]
    exact queueAt_insertLevel_self greaterCmp greaterCmp_asym o.price o s.bids hb
  | Sell =>
    simp only []
    rw [queueOn_sell, queueOn_sell]
    exact queueAt_insertLevel_self lessCmp lessCmp_asym o.price o s.asks ha

end OrderBook

namespace OrderBook

theorem matchLoop_no_asks (fuel : Nat) (s : Book) (ts : List Trade) (ha : s.asks = []) :
    matchLoop fuel s ts = (s, ts) := by
  cases fuel with
  | zero => rfl
  | succ n =>
    obtain ⟨bids, asks, E⟩ := s
    simp only [] at ha
    subst ha
    cases bids with
    | nil => rfl
    | cons bhd bLevels =>
      obtain ⟨bp, bq⟩ := bhd
      cases bq with
      | nil => rfl
      | cons bid br => rfl

theorem matchLoop_no_bids (fuel : Nat) (s : Book) (ts : List Trade) (hb : s.bids = []) :
    matchLoop fuel s ts = (s, ts) := by
  cases fuel with
  | zero => rfl
  | succ n =>
    obtain ⟨bids, asks, E⟩ := s
    simp only [] at hb
    subst hb
    cases asks with
    | nil => rfl
    | cons ahd aLevels =>
      obtain ⟨ap, aq⟩ := ahd
      cases aq with
      | nil => rfl
      | cons ask ar => rfl

end OrderBook

/-- C5: `Order::Fill(q)` of either engine throws (modelled as `none`) exactly
when `q` exceeds the order's remaining quantity — the throw happens before any
mutation, so the order is unchanged in that case — and otherwise subtracts `q`
from the remaining quantity; consequently the remaining quantity, a `Nat`,
never underflows and never exceeds the initial quantity once it did not. -/
theorem claim_C5 :
    (∀ (o : OrderBook.Order) (q : Nat),
      (OrderBook.Order.Fill o q = none ↔ o.remainingQuantity < q)
      ∧ (q ≤ o.remainingQuantity →
          OrderBook.Order.Fill o q
            = some { o with remainingQuantity := o.remainingQuantity - q })
      ∧ (∀ o', OrderBook.Order.Fill o q = some o' →
          o.remainingQuantity ≤ o.initialQuantity →
            o'.remainingQuantity ≤ o'.initialQuantity
            ∧ o'.initialQuantity = o.initialQuantity))
    ∧ (∀ (o : Orderbook.Order) (q : Nat),
      (Orderbook.Order.Fill o q = none ↔ o.quantity < q)
      ∧ (q ≤ o.quantity →
          Orderbook.Order.Fill o q = some { o with quantity := o.quantity - q })) := by
  constructor
  · intro o q
    refine ⟨?_, ?_, ?_⟩
    · unfold OrderBook.Order.Fill
      by_cases h : q > o.remainingQuantity
      · rw [if_pos h]
        exact iff_of_true rfl h
      · rw [if_neg h]
        exact iff_of_false (by simp) (by omega)
    · intro hq
      unfold OrderBook.Order.Fill
      rw [if_neg (by omega)]
    · intro o' h' hinit
      unfold OrderBook.Order.Fill at h'
      by_cases h : q > o.remainingQuantity
      · rw [if_pos h] at h'
        cases h'
      · rw [if_neg h] at h'
        injection h' with h'
        subst h'
        refine ⟨?_, rfl⟩
        show o.remainingQuantity - q ≤ o.initialQuantity
        omega
  · intro o q
    constructor
    · unfold Orderbook.Order.Fill
      by_cases h : q > o.quantity
      · rw [if_pos h]
        exact iff_of_true rfl h
      · rw [if_neg h]
        exact iff_of_false (by simp) (by omega)
    · intro hq
      unfold Orderbook.Order.Fill
      rw [if_neg (by omega)]

theorem claim_C5_witness :
    ((3 : Nat) ≤ 5
      ∧ OrderBook.Order.Fill ⟨OrderType.GoodTillCancel, 1, Side.Buy, 100, 5, 5⟩ 3
        = some ⟨OrderType.GoodTillCancel, 1, Side.Buy, 100, 5, 2⟩)
    ∧ OrderBook.Order.Fill ⟨OrderType.GoodTillCancel, 1, Side.Buy, 100, 5, 5⟩ 7 = none
    ∧ Orderbook.Order.Fill ⟨2, Side.Sell, 90, 4⟩ 4 = some ⟨2, Side.Sell, 90, 0⟩ := by
  refine ⟨⟨by decide, ?_⟩, ?_, ?_⟩
  · exact (claim_C5.1 ⟨OrderType.GoodTillCancel, 1, Side.Buy, 100, 5, 5⟩ 3).2.1 (by decide)
  · exact (claim_C5.1 ⟨OrderType.GoodTillCancel, 1, Side.Buy, 100, 5, 5⟩ 7).1.2 (by decide)
  · exact (claim_C5.2 ⟨2, Side.Sell, 90, 4⟩ 4).2 (by decide)

/-- C3: the specification says that after any `AddOrder` returns no
FillAndKill order with unfilled remaining quantity rests anywhere in the
book.  The code violates this: the post-matching check of
`OrderBook::MatchOrders` inspects only the best bid queue, so a FillAndKill
sell that crosses partially rests on the ask side.  Concretely: a
GoodTillCancel buy of 5 at 100 rests; a FillAndKill sell of 10 at 100 fills
5 and its remainder of 5 is left resting on the ask side when the call
returns. -/
theorem claim_C3 :
    ∃ o ∈ OrderBook.allOrders
        (OrderBook.AddOrder
          (OrderBook.AddOrder OrderBook.emptyBook
            ⟨OrderType.GoodTillCancel, 1, Side.Buy, 100, 5, 5⟩).1
          ⟨OrderType.FillAndKill, 2, Side.Sell, 100, 10, 10⟩).1,
      o.orderType = OrderType.FillAndKill ∧ 0 < o.remainingQuantity := by
  decide

/-- C4: the specification says a price level emptied by matching is removed
from its ladder only after the inner while-loop over that level has exited,
never mid-loop.  In `OrderBook::MatchOrders` the code executes
`bids_.erase(bidPrice)` (resp. `asks_.erase(askPrice)`) inside the inner
loop body, before the iteration's final `trades.push_back`: on a book with
best bid 100 x 5 (id 1) against best ask 100 x 10 (id 2), the statements of
the single iteration run in the order fill, fill, pop, **erase level 100**,
emit trade — the level the loop iterates is erased mid-loop. -/
theorem claim_C4 :
    OrderBook.matchStepTr
        ⟨[(100, [⟨OrderType.GoodTillCancel, 1, Side.Buy, 100, 5, 5⟩])],
         [(100, [⟨OrderType.GoodTillCancel, 2, Side.Sell, 100, 10, 10⟩])],
         [⟨1, OrderType.GoodTillCancel, Side.Buy, 100⟩,
          ⟨2, OrderType.GoodTillCancel, Side.Sell, 100⟩]⟩
      = some (⟨[], [(100, [⟨OrderType.GoodTillCancel, 2, Side.Sell, 100, 10, 5⟩])],
          [⟨2, OrderType.GoodTillCancel, Side.Sell, 100⟩]⟩,
        [OrderBook.MatchEvent.fillBid 1 5, OrderBook.MatchEvent.fillAsk 2 5,
         OrderBook.MatchEvent.popBid 1, OrderBook.MatchEvent.eraseBidLevel 100,
         OrderBook.MatchEvent.emitTrade 1 2 5]) := by
  decide

/-- C7: submitting an order whose identifier is already in the order index
is rejected by both engines: the call returns an empty trade list and the
book is exactly as before, whatever the side, price and quantity of the
rejected order; in particular a second submission of an identifier that is
still indexed after the first call leaves the book of the first call
untouched. -/
theorem claim_C7 (s : OrderBook.Book) (o : OrderBook.Order)
    (h : OrderBook.containsId s.orders o.orderID = true)
    (s₂ : Orderbook.Book) (o₂ : Orderbook.Order)
    (h₂ : s₂.ordersHashmap.contains o₂.id = true)
    (s₀ : OrderBook.Book) (o₀ oSecond : OrderBook.Order)
    (hpersist : OrderBook.containsId (OrderBook.AddOrder s₀ o₀).1.orders oSecond.orderID
      = true) :
    OrderBook.AddOrder s o = (s, [])
    ∧ Orderbook.AddOrder s₂ o₂ = (s₂, [])
    ∧ OrderBook.AddOrder (OrderBook.AddOrder s₀ o₀).1 oSecond
        = ((OrderBook.AddOrder s₀ o₀).1, []) := by
  have hgen : ∀ (s' : OrderBook.Book) (o' : OrderBook.Order),
      OrderBook.containsId s'.orders o'.orderID = true →
        OrderBook.AddOrder s' o' = (s', []) := by
    intro s' o' h'
    unfold OrderBook.AddOrder
    rw [if_pos h']
  refine ⟨hgen s o h, ?_, hgen _ oSecond hpersist⟩
  unfold Orderbook.AddOrder
  rw [if_pos h₂]

theorem claim_C7_witness :
    OrderBook.containsId
        (OrderBook.AddOrder OrderBook.emptyBook
          ⟨OrderType.GoodTillCancel, 1, Side.Buy, 100, 5, 5⟩).1.orders 1 = true
    ∧ (Orderbook.AddOrder
        (Orderbook.AddOrder Orderbook.emptyBook ⟨1, Side.Buy, 100, 5⟩).1
        ⟨1, Side.Sell, 90, 7⟩
      = ((Orderbook.AddOrder Orderbook.emptyBook ⟨1, Side.Buy, 100, 5⟩).1, []))
    ∧ (OrderBook.AddOrder
        (OrderBook.AddOrder OrderBook.emptyBook
          ⟨OrderType.GoodTillCancel, 1, Side.Buy, 100, 5, 5⟩).1
        ⟨OrderType.GoodTillCancel, 1, Side.Sell, 90, 7, 7⟩
      = ((OrderBook.AddOrder OrderBook.emptyBook
          ⟨OrderType.GoodTillCancel, 1, Side.Buy, 100, 5, 5⟩).1, [])) := by
  refine ⟨by decide, ?_, ?_⟩
  · exact (claim_C7
      (OrderBook.AddOrder OrderBook.emptyBook
        ⟨OrderType.GoodTillCancel, 1, Side.Buy, 100, 5, 5⟩).1
      ⟨OrderType.GoodTillCancel, 1, Side.Sell, 90, 7, 7⟩ (by decide)
      (Orderbook.AddOrder Orderbook.emptyBook ⟨1, Side.Buy, 100, 5⟩).1
      ⟨1, Side.Sell, 90, 7⟩ (by decide)
      OrderBook.emptyBook ⟨OrderType.GoodTillCancel, 1, Side.Buy, 100, 5, 5⟩
      ⟨OrderType.GoodTillCancel, 1, Side.Sell, 90, 7, 7⟩ (by decide)).2.1
  · exact (claim_C7
      (OrderBook.AddOrder OrderBook.emptyBook
        ⟨OrderType.GoodTillCancel, 1, Side.Buy, 100, 5, 5⟩).1
      ⟨OrderType.GoodTillCancel, 1, Side.Sell, 90, 7, 7⟩ (by decide)
      (Orderbook.AddOrder Orderbook.emptyBook ⟨1, Side.Buy, 100, 5⟩).1
      ⟨1, Side.Sell, 90, 7⟩ (by decide)
      OrderBook.emptyBook ⟨OrderType.GoodTillCancel, 1, Side.Buy, 100, 5, 5⟩
      ⟨OrderType.GoodTillCancel, 1, Side.Sell, 90, 7, 7⟩ (by decide)).2.2

/-- C10: `OrderBook::AddOrder` validates no quantity: a GoodTillCancel order
with quantity 0 and a fresh identifier submitted to a book it cannot cross
(here: the empty book, which has no opposite side at all) is accepted, the
call returns an empty trade list, and the order rests in the book — indexed,
with remaining quantity 0 — increasing `Size()` by one. -/
theorem claim_C10 (o : OrderBook.Order)
    (hGTC : o.orderType = OrderType.GoodTillCancel)
    (hrem : o.remainingQuantity = 0) :
    OrderBook.AddOrder OrderBook.emptyBook o
      = (OrderBook.InsertOrder OrderBook.emptyBook o, [])
    ∧ OrderBook.containsId (OrderBook.InsertOrder OrderBook.emptyBook o).orders o.orderID
        = true
    ∧ (∃ o' ∈ OrderBook.allOrders (OrderBook.InsertOrder OrderBook.emptyBook o),
        o' = o ∧ o'.remainingQuantity = 0)
    ∧ OrderBook.Size (OrderBook.InsertOrder OrderBook.emptyBook o)
        = OrderBook.Size OrderBook.emptyBook + 1 := by
  have h1 : OrderBook.containsId OrderBook.emptyBook.orders o.orderID = false := rfl
  refine ⟨?_, ?_, ?_, ?_⟩
  · unfold OrderBook.AddOrder
    rw [if_neg (by rw [h1]; simp)]
    rw [if_neg (fun hfak => by rw [hGTC] at hfak; exact OrderType.noConfusion hfak.1)]
    unfold OrderBook.MatchOrders
    simp only []
    cases hside : o.side with
    | Buy =>
      have hml := OrderBook.matchLoop_no_asks
        (OrderBook.bookMeasure (OrderBook.InsertOrder OrderBook.emptyBook o) + 1)
        (OrderBook.InsertOrder OrderBook.emptyBook o) []
        (by unfold OrderBook.InsertOrder; rw [hside]; rfl)
      rw [hml]
      have hbids : (OrderBook.InsertOrder OrderBook.emptyBook o).bids = [(o.price, [o])] := by
        unfold OrderBook.InsertOrder
        rw [hside]
        rfl
      simp only []
      rw [hbids]
      simp only []
      rw [if_neg (fun hfk => by rw [hGTC] at hfk; exact OrderType.noConfusion hfk)]
    | Sell =>
      have hml := OrderBook.matchLoop_no_bids
        (OrderBook.bookMeasure (OrderBook.InsertOrder OrderBook.emptyBook o) + 1)
        (OrderBook.InsertOrder OrderBook.emptyBook o) []
        (by unfold OrderBook.InsertOrder; rw [hside]; rfl)
      rw [hml]
      have hbids : (OrderBook.InsertOrder OrderBook.emptyBook o).bids = [] := by
        unfold OrderBook.InsertOrder
        rw [hside]
        rfl
      simp only []
      rw [hbids]
  · unfold OrderBook.InsertOrder
    cases hside : o.side with
    | Buy =>
      simp only []
      rw [show OrderBook.containsId (OrderBook.emptyBook.orders
          ++ [⟨o.orderID, o.orderType, Side.Buy, o.price⟩]) o.orderID
        = (OrderBook.containsId OrderBook.emptyBook.orders o.orderID || (o.orderID == o.orderID))
        from OrderBook.containsId_append_singleton _ _ _]
      simp [h1]
    | Sell =>
      simp only []
      rw [show OrderBook.containsId (OrderBook.emptyBook.orders
          ++ [⟨o.orderID, o.orderType, Side.Sell, o.price⟩]) o.orderID
        = (OrderBook.containsId OrderBook.emptyBook.orders o.orderID || (o.orderID == o.orderID))
        from OrderBook.containsId_append_singleton _ _ _]
      simp [h1]
  · refine ⟨o, ?_, rfl, hrem⟩
    unfold OrderBook.InsertOrder
    cases hside : o.side with
    | Buy =>
      simp only []
      simp [OrderBook.allOrders, OrderBook.ladderOrders, OrderBook.emptyBook, insertLevel]
    | Sell =>
      simp only []
      simp [OrderBook.allOrders, OrderBook.ladderOrders, OrderBook.emptyBook, insertLevel]
  · unfold OrderBook.InsertOrder
    cases hside : o.side with
    | Buy => rfl
    | Sell => rfl

theorem claim_C10_witness :
    (⟨OrderType.GoodTillCancel, 7, Side.Buy, 50, 0, 0⟩ : OrderBook.Order).orderType
        = OrderType.GoodTillCancel
    ∧ (⟨OrderType.GoodTillCancel, 7, Side.Buy, 50, 0, 0⟩ : OrderBook.Order).remainingQuantity
        = 0
    ∧ OrderBook.AddOrder OrderBook.emptyBook
        ⟨OrderType.GoodTillCancel, 7, Side.Buy, 50, 0, 0⟩
      = (OrderBook.InsertOrder OrderBook.emptyBook
          ⟨OrderType.GoodTillCancel, 7, Side.Buy, 50, 0, 0⟩, [])
    ∧ OrderBook.Size (OrderBook.InsertOrder OrderBook.emptyBook
        ⟨OrderType.GoodTillCancel, 7, Side.Buy, 50, 0, 0⟩)
      = OrderBook.Size OrderBook.emptyBook + 1 := by
  refine ⟨by decide, by decide, ?_, ?_⟩
  · exact (claim_C10 ⟨OrderType.GoodTillCancel, 7, Side.Buy, 50, 0, 0⟩
      (by decide) (by decide)).1
  · exact (claim_C10 ⟨OrderType.GoodTillCancel, 7, Side.Buy, 50, 0, 0⟩
      (by decide) (by decide)).2.2.2

/-- C2: orders at one price on one side are consumed strictly in arrival
order.  An accepted order is appended at the tail of its price level's
queue, and matching (including the final FillAndKill cancellation) only ever
consumes queues from the front: after `AddOrder` every queue of the book is
the corresponding pre-matching queue with a prefix removed, the order then
at the front possibly reduced in place (keeping its queue position), and
every later order untouched — so a later arrival is never filled while an
earlier order at that price still has remaining quantity. -/
theorem claim_C2 (s : OrderBook.Book) (o : OrderBook.Order) (hw : OrderBook.WF s)
    (hc : OrderBook.containsId s.orders o.orderID = false)
    (hq : o.remainingQuantity ≤ o.initialQuantity)
    (hgo : ¬ (o.orderType = OrderType.FillAndKill
      ∧ ¬ OrderBook.CanMatch s o.side o.price)) :
    OrderBook.queueOn (OrderBook.InsertOrder s o) o.side o.price
        = OrderBook.queueOn s o.side o.price ++ [o]
    ∧ ∀ side p, OrderBook.frontConsumed
        (OrderBook.queueOn (OrderBook.InsertOrder s o) side p)
        (OrderBook.queueOn (OrderBook.AddOrder s o).1 side p) := by
  constructor
  · exact OrderBook.queueOn_InsertOrder_self s o hw.bidKeysSorted hw.askKeysSorted
  · intro side p
    unfold OrderBook.AddOrder
    rw [if_neg (by rw [hc]; simp), if_neg hgo]
    exact OrderBook.fc_MatchOrders (OrderBook.InsertOrder s o)
      (OrderBook.wf_InsertOrder s o hw hc hq) side p

theorem claim_C2_witness :
    OrderBook.containsId
        (OrderBook.AddOrder OrderBook.emptyBook
          ⟨OrderType.GoodTillCancel, 1, Side.Sell, 100, 5, 5⟩).1.orders 2 = false
    ∧ OrderBook.queueOn
        (OrderBook.InsertOrder
          (OrderBook.AddOrder OrderBook.emptyBook
            ⟨OrderType.GoodTillCancel, 1, Side.Sell, 100, 5, 5⟩).1
          ⟨OrderType.GoodTillCancel, 2, Side.Sell, 100, 3, 3⟩)
        Side.Sell 100
      = OrderBook.queueOn
          (OrderBook.AddOrder OrderBook.emptyBook
            ⟨OrderType.GoodTillCancel, 1, Side.Sell, 100, 5, 5⟩).1
          Side.Sell 100
        ++ [⟨OrderType.GoodTillCancel, 2, Side.Sell, 100, 3, 3⟩] := by
  refine ⟨by decide, ?_⟩
  exact (claim_C2
    (OrderBook.AddOrder OrderBook.emptyBook
      ⟨OrderType.GoodTillCancel, 1, Side.Sell, 100, 5, 5⟩).1
    ⟨OrderType.GoodTillCancel, 2, Side.Sell, 100, 3, 3⟩
    (OrderBook.wf_AddOrder OrderBook.emptyBook
      ⟨OrderType.GoodTillCancel, 1, Side.Sell, 100, 5, 5⟩
      OrderBook.wf_emptyBook (by decide))
    (by decide) (by decide) (by decide)).1

/-- C6 (amended): the unamended claim is false — `AddOrder` accepts an order
with quantity 0 (see C10's theorem), which then rests and stays indexed with
remaining quantity 0.  Amended with the premise that every submitted order
and every modification carries a positive quantity (`Reachable true`), the
invariant holds: an identifier is in the order index exactly when one
resting queue node across the two ladders carries it, and every resting
order has positive remaining quantity. -/
theorem claim_C6 (s : OrderBook.Book) (h : OrderBook.Reachable true s) :
    (∀ id, OrderBook.containsId s.orders id = true ↔ OrderBook.occCount s id = 1)
    ∧ ∀ o ∈ OrderBook.allOrders s, 0 < o.remainingQuantity :=
  ⟨OrderBook.wf_contains_iff_occ s (OrderBook.reachable_wf true s h),
    OrderBook.reachable_pos s h⟩

theorem claim_C6_witness :
    OrderBook.Reachable true
        (OrderBook.AddOrder OrderBook.emptyBook
          ⟨OrderType.GoodTillCancel, 1, Side.Buy, 100, 5, 5⟩).1
    ∧ (OrderBook.containsId
          (OrderBook.AddOrder OrderBook.emptyBook
            ⟨OrderType.GoodTillCancel, 1, Side.Buy, 100, 5, 5⟩).1.orders 1 = true
        ↔ OrderBook.occCount
            (OrderBook.AddOrder OrderBook.emptyBook
              ⟨OrderType.GoodTillCancel, 1, Side.Buy, 100, 5, 5⟩).1 1 = 1) := by
  refine ⟨OrderBook.Reachable.add OrderBook.emptyBook
    ⟨OrderType.GoodTillCancel, 1, Side.Buy, 100, 5, 5⟩
    OrderBook.Reachable.base rfl (fun _ => by decide), ?_⟩
  exact (claim_C6 (OrderBook.AddOrder OrderBook.emptyBook
      ⟨OrderType.GoodTillCancel, 1, Side.Buy, 100, 5, 5⟩).1
    (OrderBook.Reachable.add OrderBook.emptyBook
      ⟨OrderType.GoodTillCancel, 1, Side.Buy, 100, 5, 5⟩
      OrderBook.Reachable.base rfl (fun _ => by decide))).1 1

/-- C6, counterexample to the unamended claim: a GoodTillCancel buy with
quantity 0 on a fresh id is accepted into the empty book; after the call
returns its identifier is still indexed and a resting queue node with
remaining quantity 0 carries it — contradicting "no order with
`remaining_quantity == 0` is ever indexed or resting after an operation
returns". -/
theorem claim_C6_counterexample :
    OrderBook.containsId
        (OrderBook.AddOrder OrderBook.emptyBook
          ⟨OrderType.GoodTillCancel, 1, Side.Buy, 100, 0, 0⟩).1.orders 1 = true
    ∧ ∃ o ∈ OrderBook.allOrders
        (OrderBook.AddOrder OrderBook.emptyBook
          ⟨OrderType.GoodTillCancel, 1, Side.Buy, 100, 0, 0⟩).1,
      o.orderID = 1 ∧ o.remainingQuantity = 0 := by
  decide

/-- C8: `CancelOrder(id)` is a no-op when `id` is not indexed (book returned
unchanged, no error), and when `id` is indexed it removes exactly the one
queue node carrying `id` and the index entry of `id`: afterwards `id` is
neither indexed nor resting, every other identifier keeps its index status
and its number of resting nodes, and no empty price level remains registered
in either ladder (the emptied level is removed).  The operation returns only
the book — it produces no trades. -/
theorem claim_C8 (s : OrderBook.Book) (id : Nat) :
    (OrderBook.containsId s.orders id = false → OrderBook.CancelOrder s id = s)
    ∧ (OrderBook.WF s → OrderBook.containsId s.orders id = true →
        OrderBook.containsId (OrderBook.CancelOrder s id).orders id = false
        ∧ OrderBook.occCount (OrderBook.CancelOrder s id) id = 0
        ∧ (∀ id', id' ≠ id →
            OrderBook.containsId (OrderBook.CancelOrder s id).orders id'
              = OrderBook.containsId s.orders id'
            ∧ OrderBook.occCount (OrderBook.CancelOrder s id) id'
              = OrderBook.occCount s id')
        ∧ (∀ pq ∈ (OrderBook.CancelOrder s id).bids, pq.2 ≠ [])
        ∧ (∀ pq ∈ (OrderBook.CancelOrder s id).asks, pq.2 ≠ [])) := by
  constructor
  · intro hc
    have hnone : OrderBook.entryFor s.orders id = none := by
      unfold OrderBook.containsId at hc
      cases he : OrderBook.entryFor s.orders id with
      | none => rfl
      | some e => rw [he] at hc; simp at hc
    unfold OrderBook.CancelOrder
    rw [hnone]
  · intro hw hc
    cases he : OrderBook.entryFor s.orders id with
    | none =>
      unfold OrderBook.containsId at hc
      rw [he] at hc
      simp at hc
    | some e =>
      obtain ⟨o, hoid, hperm⟩ := OrderBook.cancel_allOrders_perm s id hw e he
      have hcount : ∀ x : Nat, (OrderBook.restingIds s).count x
          = (o.orderID :: OrderBook.restingIds (OrderBook.CancelOrder s id)).count x := by
        intro x
        have h := (hperm.map OrderBook.Order.orderID).count_eq x
        rw [List.map_cons] at h
        exact h
      refine ⟨?_, ?_, ?_, ?_, ?_⟩
      · unfold OrderBook.containsId
        rw [OrderBook.CancelOrder_orders s id e he,
          OrderBook.entryFor_eraseEntry_self _ _ hw.entryIdsNodup]
        rfl
      · have h1 : OrderBook.occCount s id = 1 :=
          (OrderBook.wf_contains_iff_occ s hw id).1 hc
        have h2 := hcount id
        rw [hoid, List.count_cons_self] at h2
        have h1' : (OrderBook.restingIds s).count id = 1 := h1
        show (OrderBook.restingIds (OrderBook.CancelOrder s id)).count id = 0
        omega
      · intro id' hne
        constructor
        · unfold OrderBook.containsId
          rw [OrderBook.CancelOrder_orders s id e he,
            OrderBook.entryFor_eraseEntry_ne _ _ _ hne]
        · have h2 := hcount id'
          rw [hoid, List.count_cons_of_ne hne] at h2
          exact h2.symm
      · exact fun pq hpq => ((OrderBook.wf_CancelOrder s id hw).bidLevelsOk pq hpq).1
      · exact fun pq hpq => ((OrderBook.wf_CancelOrder s id hw).askLevelsOk pq hpq).1

theorem claim_C8_witness :
    OrderBook.containsId
        (OrderBook.AddOrder OrderBook.emptyBook
          ⟨OrderType.GoodTillCancel, 1, Side.Buy, 100, 5, 5⟩).1.orders 2 = false
    ∧ OrderBook.CancelOrder
        (OrderBook.AddOrder OrderBook.emptyBook
          ⟨OrderType.GoodTillCancel, 1, Side.Buy, 100, 5, 5⟩).1 2
      = (OrderBook.AddOrder OrderBook.emptyBook
          ⟨OrderType.GoodTillCancel, 1, Side.Buy, 100, 5, 5⟩).1
    ∧ OrderBook.containsId
        (OrderBook.AddOrder OrderBook.emptyBook
          ⟨OrderType.GoodTillCancel, 1, Side.Buy, 100, 5, 5⟩).1.orders 1 = true
    ∧ OrderBook.occCount
        (OrderBook.CancelOrder
          (OrderBook.AddOrder OrderBook.emptyBook
            ⟨OrderType.GoodTillCancel, 1, Side.Buy, 100, 5, 5⟩).1 1) 1 = 0 := by
  refine ⟨by decide, ?_, by decide, ?_⟩
  · exact (claim_C8 (OrderBook.AddOrder OrderBook.emptyBook
      ⟨OrderType.GoodTillCancel, 1, Side.Buy, 100, 5, 5⟩).1 2).1 (by decide)
  · exact ((claim_C8 (OrderBook.AddOrder OrderBook.emptyBook
      ⟨OrderType.GoodTillCancel, 1, Side.Buy, 100, 5, 5⟩).1 1).2
      (OrderBook.wf_AddOrder OrderBook.emptyBook
        ⟨OrderType.GoodTillCancel, 1, Side.Buy, 100, 5, 5⟩
        OrderBook.wf_emptyBook (by decide))
      (by decide)).2.1

/-- C9: for an indexed identifier, `OrderBook::MatchOrder` is exactly
`CancelOrder` followed by `AddOrder` of the fresh order built by
`ToOrderPointer` — new side, price and quantity, the original entry's order
kind — so matching is re-run on the re-insertion and the same trades are
returned; the cancelled identifier is free again (the re-add is not rejected
as a duplicate), and the fresh order arrives at the tail of its new price
level's queue, losing the original time priority. -/
theorem claim_C9 (s : OrderBook.Book) (m : OrderBook.OrderModify)
    (e : OrderBook.OrderEntry) (hw : OrderBook.WF s)
    (he : OrderBook.entryFor s.orders m.orderID = some e) :
    OrderBook.MatchOrder s m
        = OrderBook.AddOrder (OrderBook.CancelOrder s m.orderID) (m.ToOrderPointer e.type)
    ∧ (m.ToOrderPointer e.type).orderType = e.type
    ∧ (m.ToOrderPointer e.type).orderID = m.orderID
    ∧ (m.ToOrderPointer e.type).side = m.side
    ∧ (m.ToOrderPointer e.type).price = m.price
    ∧ (m.ToOrderPointer e.type).initialQuantity = m.newQuantity
    ∧ (m.ToOrderPointer e.type).remainingQuantity = m.newQuantity
    ∧ OrderBook.containsId (OrderBook.CancelOrder s m.orderID).orders m.orderID = false
    ∧ OrderBook.queueOn
          (OrderBook.InsertOrder (OrderBook.CancelOrder s m.orderID)
            (m.ToOrderPointer e.type)) m.side m.price
        = OrderBook.queueOn (OrderBook.CancelOrder s m.orderID) m.side m.price
          ++ [m.ToOrderPointer e.type] := by
  refine ⟨?_, rfl, rfl, rfl, rfl, rfl, rfl, ?_, ?_⟩
  · unfold OrderBook.MatchOrder
    rw [he]
  · unfold OrderBook.containsId
    rw [OrderBook.CancelOrder_orders s m.orderID e he,
      OrderBook.entryFor_eraseEntry_self _ _ hw.entryIdsNodup]
    rfl
  · have hwc := OrderBook.wf_CancelOrder s m.orderID hw
    exact OrderBook.queueOn_InsertOrder_self (OrderBook.CancelOrder s m.orderID)
      (m.ToOrderPointer e.type) hwc.bidKeysSorted hwc.askKeysSorted

theorem claim_C9_witness :
    OrderBook.entryFor
        (OrderBook.AddOrder OrderBook.emptyBook
          ⟨OrderType.GoodTillCancel, 1, Side.Buy, 100, 5, 5⟩).1.orders 1
      = some ⟨1, OrderType.GoodTillCancel, Side.Buy, 100⟩
    ∧ OrderBook.MatchOrder
        (OrderBook.AddOrder OrderBook.emptyBook
          ⟨OrderType.GoodTillCancel, 1, Side.Buy, 100, 5, 5⟩).1
        ⟨1, Side.Sell, 90, 3⟩
      = OrderBook.AddOrder
          (OrderBook.CancelOrder
            (OrderBook.AddOrder OrderBook.emptyBook
              ⟨OrderType.GoodTillCancel, 1, Side.Buy, 100, 5, 5⟩).1 1)
          ((⟨1, Side.Sell, 90, 3⟩ : OrderBook.OrderModify).ToOrderPointer
            OrderType.GoodTillCancel) := by
  refine ⟨by decide, ?_⟩
  exact (claim_C9 (OrderBook.AddOrder OrderBook.emptyBook
      ⟨OrderType.GoodTillCancel, 1, Side.Buy, 100, 5, 5⟩).1
    ⟨1, Side.Sell, 90, 3⟩ ⟨1, OrderType.GoodTillCancel, Side.Buy, 100⟩
    (OrderBook.wf_AddOrder OrderBook.emptyBook
      ⟨OrderType.GoodTillCancel, 1, Side.Buy, 100, 5, 5⟩
      OrderBook.wf_emptyBook (by decide))
    (by decide)).1

/-- C1: one iteration of the matching loop of either engine, entered when
the best bid and ask levels cross and both queues are nonempty, fills the
oldest bid and the oldest ask by exactly `min` of their remaining
quantities: that single quantity is subtracted from both orders (an order
reaching zero is popped and de-indexed, its level erased when emptied), and
one trade is emitted recording the same quantity on the buy side and the
sell side, each side under its own order id and its own limit price (the two
recorded prices may differ).  Consequently every trade returned by
`AddOrder` of either engine carries equal buy-side and sell-side
quantities. -/
theorem claim_C1
    (fuel : Nat) (ts : List OrderBook.Trade) (bp ap : Int)
    (bid ask : OrderBook.Order) (br ar : List OrderBook.Order)
    (bl al : OrderBook.Ladder) (E : List OrderBook.OrderEntry)
    (hcross : ¬ bp < ap)
    (s₀ : OrderBook.Book) (o₀ : OrderBook.Order)
    (fuel₂ : Nat) (ts₂ : List Orderbook.Trade) (bp₂ ap₂ : Int)
    (bid₂ ask₂ : Orderbook.Order) (br₂ ar₂ : List Orderbook.Order)
    (bl₂ al₂ : Orderbook.Ladder) (hm : List Nat)
    (hcross₂ : ¬ bp₂ < ap₂)
    (s₂ : Orderbook.Book) (o₂ : Orderbook.Order) :
    (OrderBook.matchLoop (fuel + 1)
        ⟨(bp, bid :: br) :: bl, (ap, ask :: ar) :: al, E⟩ ts =
      OrderBook.matchLoop fuel
        ⟨(if bid.remainingQuantity - min bid.remainingQuantity ask.remainingQuantity = 0
            then (if br = [] then bl else (bp, br) :: bl)
          else (bp, { bid with remainingQuantity :=
            bid.remainingQuantity - min bid.remainingQuantity ask.remainingQuantity }
            :: br) :: bl),
         (if ask.remainingQuantity - min bid.remainingQuantity ask.remainingQuantity = 0
            then (if ar = [] then al else (ap, ar) :: al)
          else (ap, { ask with remainingQuantity :=
            ask.remainingQuantity - min bid.remainingQuantity ask.remainingQuantity }
            :: ar) :: al),
         (if ask.remainingQuantity - min bid.remainingQuantity ask.remainingQuantity = 0
            then OrderBook.eraseEntry
              (if bid.remainingQuantity - min bid.remainingQuantity ask.remainingQuantity = 0
                then OrderBook.eraseEntry E bid.orderID else E) ask.orderID
          else (if bid.remainingQuantity
              - min bid.remainingQuantity ask.remainingQuantity = 0
            then OrderBook.eraseEntry E bid.orderID else E))⟩
        (ts ++ [⟨⟨bid.orderID, bid.price, min bid.remainingQuantity ask.remainingQuantity⟩,
          ⟨ask.orderID, ask.price, min bid.remainingQuantity ask.remainingQuantity⟩⟩]))
    ∧ (∀ t ∈ (OrderBook.AddOrder s₀ o₀).2, t.bidTrade.quantity = t.askTrade.quantity)
    ∧ (Orderbook.matchLoop (fuel₂ + 1)
        ⟨(bp₂, bid₂ :: br₂) :: bl₂, (ap₂, ask₂ :: ar₂) :: al₂, hm⟩ ts₂ =
      Orderbook.matchLoop fuel₂
        ⟨(if bid₂.quantity - min bid₂.quantity ask₂.quantity = 0 then
            (if br₂ = [] then bl₂ else (bp₂, br₂) :: bl₂)
          else (bp₂, { bid₂ with quantity := bid₂.quantity - min bid₂.quantity ask₂.quantity }
            :: br₂) :: bl₂),
         (if ask₂.quantity - min bid₂.quantity ask₂.quantity = 0 then
            (if ar₂ = [] then al₂ else (ap₂, ar₂) :: al₂)
          else (ap₂, { ask₂ with quantity := ask₂.quantity - min bid₂.quantity ask₂.quantity }
            :: ar₂) :: al₂),
         (if ask₂.quantity - min bid₂.quantity ask₂.quantity = 0 then
            Orderbook.eraseId (if bid₂.quantity - min bid₂.quantity ask₂.quantity = 0 then
              Orderbook.eraseId hm bid₂.id else hm) ask₂.id
          else (if bid₂.quantity - min bid₂.quantity ask₂.quantity = 0 then
            Orderbook.eraseId hm bid₂.id else hm))⟩
        (ts₂ ++ [⟨⟨bid₂.id, bid₂.price, min bid₂.quantity ask₂.quantity⟩,
          ⟨ask₂.id, ask₂.price, min bid₂.quantity ask₂.quantity⟩⟩]))
    ∧ (∀ t ∈ (Orderbook.AddOrder s₂ o₂).2, t.buySide.quantity = t.sellSide.quantity) := by
  refine ⟨?_, OrderBook.AddOrder_trades_eq s₀ o₀,
    Orderbook.ob2_matchLoop_succ_cross fuel₂ ts₂ bp₂ ap₂ bid₂ ask₂ br₂ ar₂ bl₂ al₂ hm hcross₂,
    Orderbook.ob2_AddOrder_trades_eq s₂ o₂⟩
  simp only [OrderBook.matchLoop]
  rw [if_neg hcross]

theorem claim_C1_witness :
    (¬ (100 : Int) < 100)
    ∧ (∀ t ∈ (OrderBook.AddOrder
        (OrderBook.AddOrder OrderBook.emptyBook
          ⟨OrderType.GoodTillCancel, 1, Side.Buy, 100, 5, 5⟩).1
        ⟨OrderType.GoodTillCancel, 2, Side.Sell, 100, 3, 3⟩).2,
        t.bidTrade.quantity = t.askTrade.quantity)
    ∧ (∀ t ∈ (Orderbook.AddOrder
        (Orderbook.AddOrder Orderbook.emptyBook ⟨1, Side.Buy, 100, 5⟩).1
        ⟨2, Side.Sell, 100, 3⟩).2,
        t.buySide.quantity = t.sellSide.quantity) := by
  refine ⟨by decide, ?_, ?_⟩
  · exact (claim_C1 1 [] 100 100
      ⟨OrderType.GoodTillCancel, 1, Side.Buy, 100, 5, 5⟩
      ⟨OrderType.GoodTillCancel, 2, Side.Sell, 100, 10, 10⟩ [] [] [] [] []
      (by decide)
      (OrderBook.AddOrder OrderBook.emptyBook
        ⟨OrderType.GoodTillCancel, 1, Side.Buy, 100, 5, 5⟩).1
      ⟨OrderType.GoodTillCancel, 2, Side.Sell, 100, 3, 3⟩
      1 [] 100 100 ⟨1, Side.Buy, 100, 5⟩ ⟨2, Side.Sell, 100, 10⟩ [] [] [] [] []
      (by decide)
      (Orderbook.AddOrder Orderbook.emptyBook ⟨1, Side.Buy, 100, 5⟩).1
      ⟨2, Side.Sell, 100, 3⟩).2.1
  · exact (claim_C1 1 [] 100 100
      ⟨OrderType.GoodTillCancel, 1, Side.Buy, 100, 5, 5⟩
      ⟨OrderType.GoodTillCancel, 2, Side.Sell, 100, 10, 10⟩ [] [] [] [] []
      (by decide)
      (OrderBook.AddOrder OrderBook.emptyBook
        ⟨OrderType.GoodTillCancel, 1, Side.Buy, 100, 5, 5⟩).1
      ⟨OrderType.GoodTillCancel, 2, Side.Sell, 100, 3, 3⟩
      1 [] 100 100 ⟨1, Side.Buy, 100, 5⟩ ⟨2, Side.Sell, 100, 10⟩ [] [] [] [] []
      (by decide)
      (Orderbook.AddOrder Orderbook.emptyBook ⟨1, Side.Buy, 100, 5⟩).1
      ⟨2, Side.Sell, 100, 3⟩).2.2.2
